import Mathlib

/-!
# flat: flattening and unflattening of nested JSON-like values

A shallow embedding of `flat.go` (package `flat`) and a verification of the
properties its specification states about it.

Modelling conventions.

* A Go `string` is the list of its code points (`GoString`).  The only
  characters the code inspects are the ASCII characters `.`, `[`, `]`, `+`,
  `-` and the decimal digits, so splitting at code points and splitting at
  bytes coincide.
* A Go `any` holding JSON-like data is a `Value`: `nil`, a boolean, a number,
  a string, a `map[string]any` or a `[]any`.  Numbers are payloads the code
  never computes with; they are represented by integers.  Values are trees:
  no two positions share a map or a slice.
* A `map[string]any` is an association list (`GoMap`).  The list order of a
  map that the code ranges over is the order in which `range` visits it, so a
  statement about all lists (or about all permutations of a list) is a
  statement about all iteration orders.  An assignment `m[k] = v` replaces
  the entry of `k` when there is one and otherwise inserts the new entry in
  key order, so that maps built from the empty map have one representation
  (`canon`); `deepEqual` is Go's order-insensitive equality of values.
* A representation is one of a Go value (`isGoValue`) when the keys of every
  map are pairwise different and the length of every slice is an `int`.
* Go `int` is 64 bits wide: `strconv.Atoi` fails outside that range and
  `key+1` wraps around.
* A Go function that can panic returns in `Except Panic`; `Unflatten` returns
  the pair `(any, error)` of the source, or panics.
-/

namespace Flat

/-- Go `string`: the sequence of its code points. -/
abbrev GoString := List Char

/-- Go `any` restricted to JSON-like data. `null` is the nil interface. -/
inductive Value where
  | null
  | bool (b : Bool)
  | number (n : Int)
  | str (s : GoString)
  | object (fields : List (GoString × Value))
  | array (elems : List Value)

/-- Go `map[string]any`. -/
abbrev GoMap := List (GoString × Value)

mutual
/-- Decision procedure for equality of values. -/
def Value.decEq : (a b : Value) → Decidable (a = b)
  | .null, .null => isTrue rfl
  | .bool a, .bool b =>
    if h : a = b then isTrue (by rw [h]) else isFalse (by intro e; cases e; exact h rfl)
  | .number a, .number b =>
    if h : a = b then isTrue (by rw [h]) else isFalse (by intro e; cases e; exact h rfl)
  | .str a, .str b =>
    if h : a = b then isTrue (by rw [h]) else isFalse (by intro e; cases e; exact h rfl)
  | .object a, .object b =>
    match Value.decEqFields a b with
    | isTrue h => isTrue (by rw [h])
    | isFalse h => isFalse (by intro e; cases e; exact h rfl)
  | .array a, .array b =>
    match Value.decEqElems a b with
    | isTrue h => isTrue (by rw [h])
    | isFalse h => isFalse (by intro e; cases e; exact h rfl)
  | .null, .bool _ => isFalse (by intro e; cases e)
  | .null, .number _ => isFalse (by intro e; cases e)
  | .null, .str _ => isFalse (by intro e; cases e)
  | .null, .object _ => isFalse (by intro e; cases e)
  | .null, .array _ => isFalse (by intro e; cases e)
  | .bool _, .null => isFalse (by intro e; cases e)
  | .bool _, .number _ => isFalse (by intro e; cases e)
  | .bool _, .str _ => isFalse (by intro e; cases e)
  | .bool _, .object _ => isFalse (by intro e; cases e)
  | .bool _, .array _ => isFalse (by intro e; cases e)
  | .number _, .null => isFalse (by intro e; cases e)
  | .number _, .bool _ => isFalse (by intro e; cases e)
  | .number _, .str _ => isFalse (by intro e; cases e)
  | .number _, .object _ => isFalse (by intro e; cases e)
  | .number _, .array _ => isFalse (by intro e; cases e)
  | .str _, .null => isFalse (by intro e; cases e)
  | .str _, .bool _ => isFalse (by intro e; cases e)
  | .str _, .number _ => isFalse (by intro e; cases e)
  | .str _, .object _ => isFalse (by intro e; cases e)
  | .str _, .array _ => isFalse (by intro e; cases e)
  | .object _, .null => isFalse (by intro e; cases e)
  | .object _, .bool _ => isFalse (by intro e; cases e)
  | .object _, .number _ => isFalse (by intro e; cases e)
  | .object _, .str _ => isFalse (by intro e; cases e)
  | .object _, .array _ => isFalse (by intro e; cases e)
  | .array _, .null => isFalse (by intro e; cases e)
  | .array _, .bool _ => isFalse (by intro e; cases e)
  | .array _, .number _ => isFalse (by intro e; cases e)
  | .array _, .str _ => isFalse (by intro e; cases e)
  | .array _, .object _ => isFalse (by intro e; cases e)
/-- Decision procedure for equality of field lists. -/
def Value.decEqFields : (a b : List (GoString × Value)) → Decidable (a = b)
  | [], [] => isTrue rfl
  | [], _ :: _ => isFalse (by intro e; cases e)
  | _ :: _, [] => isFalse (by intro e; cases e)
  | (k, x) :: as, (k', y) :: bs =>
    if hk : k = k' then
      match Value.decEq x y with
      | isTrue hx =>
        match Value.decEqFields as bs with
        | isTrue hr => isTrue (by rw [hk, hx, hr])
        | isFalse hr => isFalse (by intro e; cases e; exact hr rfl)
      | isFalse hx => isFalse (by intro e; cases e; exact hx rfl)
    else isFalse (by intro e; cases e; exact hk rfl)
/-- Decision procedure for equality of element lists. -/
def Value.decEqElems : (a b : List Value) → Decidable (a = b)
  | [], [] => isTrue rfl
  | [], _ :: _ => isFalse (by intro e; cases e)
  | _ :: _, [] => isFalse (by intro e; cases e)
  | x :: as, y :: bs =>
    match Value.decEq x y with
    | isTrue hx =>
      match Value.decEqElems as bs with
      | isTrue hr => isTrue (by rw [hx, hr])
      | isFalse hr => isFalse (by intro e; cases e; exact hr rfl)
    | isFalse hx => isFalse (by intro e; cases e; exact hx rfl)
end

instance : DecidableEq Value := Value.decEq

deriving instance DecidableEq for Except

/-! ## Go maps -/

/-- Strict lexicographic order on keys, by code point. It only fixes where a
new key is stored in the representation of a map. -/
def keyLt : GoString → GoString → Bool
  | [], [] => false
  | [], _ :: _ => true
  | _ :: _, [] => false
  | a :: as, b :: bs => decide (a < b) || (a == b && keyLt as bs)

/-- Whether `key` is present in the map. -/
def mapHas (key : GoString) : GoMap → Bool
  | [] => false
  | (k, _) :: rest => k == key || mapHas key rest

/-- Go `v, ok := m[key]`: the value stored under `key`, if any. -/
def mapLookup (key : GoString) : GoMap → Option Value
  | [] => none
  | (k, v) :: rest => if k = key then some v else mapLookup key rest

/-- Go `m[key]` as an expression: the zero value `nil` when `key` is absent. -/
def mapIndex (m : GoMap) (key : GoString) : Value :=
  (mapLookup key m).getD Value.null

/-- Overwrite the entry of a key that is present. -/
def mapReplace (key : GoString) (value : Value) : GoMap → GoMap
  | [] => []
  | (k, v) :: rest =>
    if k = key then (key, value) :: rest else (k, v) :: mapReplace key value rest

/-- Store the entry of a key that is absent, in key order. -/
def mapInsert (key : GoString) (value : Value) : GoMap → GoMap
  | [] => [(key, value)]
  | (k, v) :: rest =>
    if keyLt key k then (key, value) :: (k, v) :: rest else (k, v) :: mapInsert key value rest

/-- Go `m[key] = value`. -/
def mapAssign (m : GoMap) (key : GoString) (value : Value) : GoMap :=
  if mapHas key m then mapReplace key value m else mapInsert key value m

/-! ## Go integers, slices and the library functions the code calls -/

/-- Largest Go `int` (64 bit). -/
def maxInt : Int := 2 ^ 63 - 1

/-- Smallest Go `int` (64 bit). -/
def minInt : Int := -(2 ^ 63)

/-- Two's complement wrap-around of an `int` result. -/
def wrapInt (x : Int) : Int := (x + 2 ^ 63) % 2 ^ 64 - 2 ^ 63

/-- Left-to-right accumulation of decimal digits; `none` on a non-digit. -/
def parseDigits : List Char → Nat → Option Nat
  | [], acc => some acc
  | c :: cs, acc =>
    if c.isDigit then parseDigits cs (acc * 10 + (c.toNat - '0'.toNat)) else none

/-- Go `strconv.Atoi`: an optional sign followed by one or more decimal
digits, whose value fits in an `int`; `none` stands for a non-nil error. -/
def Atoi (s : GoString) : Option Int :=
  let neg : Bool := match s with
    | '-' :: _ => true
    | _ => false
  let digits : List Char := match s with
    | '-' :: r => r
    | '+' :: r => r
    | _ => s
  if digits = [] then none
  else
    match parseDigits digits 0 with
    | none => none
    | some n =>
      if neg then (if (n : Int) ≤ 2 ^ 63 then some (-(n : Int)) else none)
      else (if (n : Int) < 2 ^ 63 then some (n : Int) else none)

/-- Go `%d` of an `int`. -/
def formatInt (i : Int) : GoString :=
  match i with
  | Int.ofNat n => Nat.toDigits 10 n
  | Int.negSucc n => '-' :: Nat.toDigits 10 (n + 1)

/-- Scan of `strings.FieldsFunc`: `cur` is the field being read. -/
def fieldsAux (f : Char → Bool) : List Char → GoString → List GoString
  | [], cur => if cur = [] then [] else [cur]
  | c :: cs, cur =>
    if f c then (if cur = [] then fieldsAux f cs [] else cur :: fieldsAux f cs [])
    else fieldsAux f cs (cur ++ [c])

/-- Go `strings.FieldsFunc`: the maximal non-empty runs of characters that do
not satisfy `f`. -/
def FieldsFunc (s : GoString) (f : Char → Bool) : List GoString := fieldsAux f s []

/-- Go `strings.HasSuffix`. -/
def HasSuffix (s suffix : GoString) : Bool := suffix.isSuffixOf s

/-- Go `strings.TrimSuffix`. -/
def TrimSuffix (s suffix : GoString) : GoString :=
  if HasSuffix s suffix then s.take (s.length - suffix.length) else s

/-- Go `for i := len(slice); i < size; i++ { slice = append(slice, nil) }`. -/
def expandSliceToSize (slice : List Value) (size : Int) : List Value :=
  slice ++ List.replicate (size - slice.length).toNat Value.null

/-! ## Keys -/

/-- The rune constant `delimiter`. -/
def delimiter : Char := '.'

/-- An element of the `[]any` returned by `splitFlatKey`: an `int` (array
index) or a `string` (field name). -/
inductive KeyPart where
  | int (index : Int)
  | str (name : GoString)
  deriving DecidableEq

/-- The error built by `splitFlatKey`; it wraps `ErrInvalidKey` and records the
offending part and the key. -/
inductive GoError where
  | invalidKey (part key : GoString)
  deriving DecidableEq

/-- Go `errors.Is(err, ErrInvalidKey)`. -/
def GoError.isErrInvalidKey : GoError → Bool
  | GoError.invalidKey _ _ => true

/-- The loop of `splitFlatKey` over the parts, appending to `keyParts`. -/
def splitParts (key : GoString) : List GoString → List KeyPart → Except GoError (List KeyPart)
  | [], keyParts => Except.ok keyParts
  | part :: rest, keyParts =>
    if HasSuffix part [']'] then
      match Atoi (TrimSuffix part [']']) with
      | none => Except.error (GoError.invalidKey part key)
      | some index => splitParts key rest (keyParts ++ [KeyPart.int index])
    else splitParts key rest (keyParts ++ [KeyPart.str part])

/-- The function literal `func(r rune) bool` that `splitFlatKey` passes to
`strings.FieldsFunc`. -/
def keySeparator (r : Char) : Bool := r == delimiter || r == '['

/-- Source function `splitFlatKey`. -/
def splitFlatKey (key : GoString) : Except GoError (List KeyPart) :=
  splitParts key (FieldsFunc key keySeparator) []

/-- Source function `getFlattenedNestedKey`. -/
def getFlattenedNestedKey (key childKey : GoString) : GoString :=
  if key = [] then childKey else key ++ [delimiter] ++ childKey

/-- Source function `getFlattenedSliceKey`. -/
def getFlattenedSliceKey (key : GoString) (index : Int) : GoString :=
  key ++ ['['] ++ formatInt index ++ [']']

/-! ## Flatten -/

mutual
/-- Source function `flatten`; the shared `result` map is threaded through. -/
def flatten : Value → GoString → GoMap → GoMap
  | Value.object nested, key, result =>
    flattenFields nested key
      (if nested.length = 0 ∧ key ≠ [] then mapAssign result key (Value.object []) else result)
  | Value.array nested, key, result =>
    flattenElems nested 0 key
      (if nested.length = 0 ∧ key ≠ [] then mapAssign result key (Value.array []) else result)
  | nested, key, result => mapAssign result key nested
/-- The loop `for childKey, nested := range nested` of `flatten`. -/
def flattenFields : List (GoString × Value) → GoString → GoMap → GoMap
  | [], _, result => result
  | (childKey, nested) :: rest, key, result =>
    flattenFields rest key (flatten nested (getFlattenedNestedKey key childKey) result)
/-- The loop `for index, nested := range nested` of `flatten`, at `index`. -/
def flattenElems : List Value → Nat → GoString → GoMap → GoMap
  | [], _, _, result => result
  | nested :: rest, index, key, result =>
    flattenElems rest (index + 1) key (flatten nested (getFlattenedSliceKey key index) result)
end

/-- Source function `Flatten`; its error result is always nil. -/
def Flatten (nested : Value) : GoMap := flatten nested [] []

/-! ## Unflatten -/

/-- Run-time panics of the Go code. -/
inductive Panic where
  | indexOutOfRange
  | typeAssertion
  deriving DecidableEq

/-- The type assertion `result.([]any)` after `if result == nil`. -/
def asSlice : Value → Except Panic (List Value)
  | Value.null => Except.ok []
  | Value.array s => Except.ok s
  | _ => Except.error Panic.typeAssertion

/-- The type assertion `result.(map[string]any)` after `if result == nil`. -/
def asMap : Value → Except Panic GoMap
  | Value.null => Except.ok []
  | Value.object m => Except.ok m
  | _ => Except.error Panic.typeAssertion

/-- Source function `unflatten`, with the bodies of `unflattenSliceKey` and
`unflattenNestedKey` in place so that the recursion is structural in
`keyParts` (`unflatten_int` and `unflatten_str` below equate it with the
calls of these functions). Indexing the empty `keyParts` panics. The `default`
branch of the type switch is unreachable: a `KeyPart` is an `int` or a
`string`. Values are trees: where the code writes into the existing map or
slice in place, the embedding builds the updated container; the two agree as
long as no container that is written into can be reached by a second path. -/
def unflatten : List KeyPart → Value → Value → Except Panic Value
  | [], _, _ => Except.error Panic.indexOutOfRange
  | KeyPart.int key :: keyParts, value, result =>
    match asSlice result with
    | Except.error p => Except.error p
    | Except.ok slice =>
      let resultSlice := expandSliceToSize slice (wrapInt (key + 1))
      if 0 ≤ key ∧ key < resultSlice.length then
        match keyParts with
        | [] => Except.ok (Value.array (resultSlice.set key.toNat value))
        | _ :: _ =>
          match unflatten keyParts value (resultSlice.getD key.toNat Value.null) with
          | Except.error p => Except.error p
          | Except.ok child => Except.ok (Value.array (resultSlice.set key.toNat child))
      else Except.error Panic.indexOutOfRange
  | KeyPart.str key :: keyParts, value, result =>
    match asMap result with
    | Except.error p => Except.error p
    | Except.ok resultMap =>
      match keyParts with
      | [] => Except.ok (Value.object (mapAssign resultMap key value))
      | _ :: _ =>
        match unflatten keyParts value (mapIndex resultMap key) with
        | Except.error p => Except.error p
        | Except.ok child => Except.ok (Value.object (mapAssign resultMap key child))

/-- Source function `unflattenNestedKey`. -/
def unflattenNestedKey (key : GoString) (keyParts : List KeyPart) (value result : Value) :
    Except Panic Value :=
  match asMap result with
  | Except.error p => Except.error p
  | Except.ok resultMap =>
    if keyParts.length = 0 then Except.ok (Value.object (mapAssign resultMap key value))
    else
      match unflatten keyParts value (mapIndex resultMap key) with
      | Except.error p => Except.error p
      | Except.ok child => Except.ok (Value.object (mapAssign resultMap key child))

/-- Source function `unflattenSliceKey`. -/
def unflattenSliceKey (key : Int) (keyParts : List KeyPart) (value result : Value) :
    Except Panic Value :=
  match asSlice result with
  | Except.error p => Except.error p
  | Except.ok slice =>
    let resultSlice := expandSliceToSize slice (wrapInt (key + 1))
    if 0 ≤ key ∧ key < resultSlice.length then
      if keyParts.length = 0 then Except.ok (Value.array (resultSlice.set key.toNat value))
      else
        match unflatten keyParts value (resultSlice.getD key.toNat Value.null) with
        | Except.error p => Except.error p
        | Except.ok child => Except.ok (Value.array (resultSlice.set key.toNat child))
    else Except.error Panic.indexOutOfRange

/-- The loop `for key, value := range flattened` of `Unflatten`; the list
order is the order of the iteration. -/
def unflattenLoop : GoMap → Value → Except Panic (Value × Option GoError)
  | [], result => Except.ok (result, none)
  | (key, value) :: rest, result =>
    match splitFlatKey key with
    | Except.error err => Except.ok (Value.null, some err)
    | Except.ok keyParts =>
      match unflatten keyParts value result with
      | Except.error p => Except.error p
      | Except.ok result => unflattenLoop rest result

/-- Source function `Unflatten`: the returned pair `(any, error)`, or a panic. -/
def Unflatten (flattened : GoMap) : Except Panic (Value × Option GoError) :=
  if flattened.length = 0 then Except.ok (Value.object [], none)
  else unflattenLoop flattened Value.null

/-- Characters of a numeral: decimal digits and the minus sign. -/
def isNumeralChar (c : Char) : Bool := c.isDigit || c == '-'

/-! ## Paths and the key grammar -/

/-- The key `flatten` passes down on reaching the position `path` below a
position whose key is `key`: the calls of `getFlattenedNestedKey` and
`getFlattenedSliceKey` along the path. -/
def encodeFrom (key : GoString) : List KeyPart → GoString
  | [] => key
  | KeyPart.str childKey :: rest => encodeFrom (getFlattenedNestedKey key childKey) rest
  | KeyPart.int index :: rest => encodeFrom (getFlattenedSliceKey key index) rest

/-- The key `Flatten` builds for a path from the root. -/
def encode (path : List KeyPart) : GoString := encodeFrom [] path

/-- The text of one segment in the key grammar of the specification: a field
is its bare name when it is the first segment and `.` followed by its name
otherwise; an index is `[`, the decimal numeral, `]`. -/
def grammarSegment (first : Bool) : KeyPart → GoString
  | KeyPart.str name => if first then name else '.' :: name
  | KeyPart.int index => '[' :: (formatInt index ++ [']'])

/-- The texts of segments that are not the first one, concatenated. -/
def grammarTail : List KeyPart → GoString
  | [] => []
  | seg :: rest => grammarSegment false seg ++ grammarTail rest

/-- The key of a path in the key grammar of the specification. -/
def grammarKey : List KeyPart → GoString
  | [] => []
  | seg :: rest => grammarSegment true seg ++ grammarTail rest

/-- The part of a key that `strings.FieldsFunc` cuts out for a segment. -/
def partText : KeyPart → GoString
  | KeyPart.str name => name
  | KeyPart.int index => formatInt index ++ [']']

/-- A field name that survives the key grammar: not empty, without `.` and
`[`, and not ending in `]`. -/
def goodName (name : GoString) : Bool :=
  name ≠ [] && !name.contains '.' && !name.contains '[' && !HasSuffix name [']']

/-- A segment whose field name is good; an index is in the range of `int`. -/
def goodPart : KeyPart → Bool
  | KeyPart.str name => goodName name
  | KeyPart.int index => decide (minInt ≤ index ∧ index ≤ maxInt)

/-- A key with an index part whose content `strconv.Atoi` does not parse: one
of the parts cut out by `strings.FieldsFunc` ends in `]` and the text before
that `]` is not an integer. -/
def hasUnparsableIndex (key : GoString) : Bool :=
  (FieldsFunc key keySeparator).any
    (fun part => HasSuffix part [']'] && (Atoi (TrimSuffix part [']'])).isNone)

/-- The index a key starts with, when it decodes to a path whose first segment
is an index. -/
def firstIndex (key : GoString) : Option Int :=
  match splitFlatKey key with
  | Except.ok (KeyPart.int index :: _) => some index
  | _ => none

/-! ## Outcomes of `Unflatten` and of one merge -/

/-- The value `Unflatten` returns with a nil error, if it does so: `none` when
it returns an error or panics. -/
def returnedValue : Except Panic (Value × Option GoError) → Option Value
  | Except.ok (v, none) => some v
  | _ => none

/-- Two runs of `Unflatten` have the same outcome: the same returned value,
or both fail. -/
def SameOutcome (a b : Except Panic (Value × Option GoError)) : Prop :=
  returnedValue a = returnedValue b

/-- The result of `unflatten`, `none` when it panics. -/
def merge (keyParts : List KeyPart) (value result : Value) : Option Value :=
  match unflatten keyParts value result with
  | Except.ok r => some r
  | Except.error _ => none

/-- The value stored at the current key: `value` itself at the end of the
path, the merge into the existing child otherwise. -/
def mergeChild (keyParts : List KeyPart) (value cur : Value) : Option Value :=
  match keyParts with
  | [] => some value
  | _ :: _ => merge keyParts value cur

/-- The map a result is taken for: `asMap` without the panic. -/
def optMap : Value → Option GoMap
  | Value.null => some []
  | Value.object m => some m
  | _ => none

/-- The slice a result is taken for: `asSlice` without the panic. -/
def optSlice : Value → Option (List Value)
  | Value.null => some []
  | Value.array s => some s
  | _ => none

/-- One iteration of the loop of `Unflatten` on the outcome so far. -/
def mergeEntry (st : Option Value) (e : GoString × Value) : Option Value :=
  match st with
  | none => none
  | some t =>
    match splitFlatKey e.1 with
    | Except.error _ => none
    | Except.ok keyParts => merge keyParts e.2 t

/-- Two keys whose decoded paths, when both decode, are not a prefix of one
another (in particular are different). -/
def IndependentKeys (k₁ k₂ : GoString) : Prop :=
  ∀ p₁ p₂, splitFlatKey k₁ = Except.ok p₁ → splitFlatKey k₂ = Except.ok p₂ →
    ¬ p₁ <+: p₂ ∧ ¬ p₂ <+: p₁

instance (a b : Except Panic (Value × Option GoError)) : Decidable (SameOutcome a b) :=
  inferInstanceAs (Decidable (returnedValue a = returnedValue b))

/-! ## Well-formed values, positions and leaves -/

/-- A field name as the specification restricts it for round trips: not
empty and free of `.`, `[` and `]`. -/
def plainName (name : GoString) : Bool :=
  name ≠ [] && !name.contains '.' && !name.contains '[' && !name.contains ']'

mutual
/-- Every field name in the value satisfies `P`. -/
def allNames (P : GoString → Bool) : Value → Bool
  | Value.object fields => allNamesFields P fields
  | Value.array elems => allNamesElems P elems
  | _ => true
/-- Every field name in the fields satisfies `P`. -/
def allNamesFields (P : GoString → Bool) : List (GoString × Value) → Bool
  | [] => true
  | (k, c) :: rest => P k && allNames P c && allNamesFields P rest
/-- Every field name in the elements satisfies `P`. -/
def allNamesElems (P : GoString → Bool) : List Value → Bool
  | [] => true
  | c :: rest => allNames P c && allNamesElems P rest
end

/-- All field names of the value are non-empty and free of `.`, `[`, `]`. -/
def namesOk (v : Value) : Bool := allNames plainName v

mutual
/-- The representation is one of a Go value: the keys of every map are
pairwise different and the length of every slice is an `int`. -/
def isGoValue : Value → Bool
  | Value.object fields => isGoFields fields
  | Value.array elems => decide ((elems.length : Int) ≤ maxInt) && isGoElems elems
  | _ => true
/-- The fields of a Go map. -/
def isGoFields : List (GoString × Value) → Bool
  | [] => true
  | (k, c) :: rest => !mapHas k rest && isGoValue c && isGoFields rest
/-- The elements of a Go slice. -/
def isGoElems : List Value → Bool
  | [] => true
  | c :: rest => isGoValue c && isGoElems rest
end

/-- The root is an object or an array. -/
def isContainer : Value → Bool
  | Value.object _ => true
  | Value.array _ => true
  | _ => false

/-- A value `flatten` records as one entry when it is not the root: a
scalar, nil, an empty object or an empty array. -/
def isLeaf : Value → Bool
  | Value.object [] => true
  | Value.object (_ :: _) => false
  | Value.array [] => true
  | Value.array (_ :: _) => false
  | _ => true

/-- The value at a position of a value: fields are followed by name, elements
by index. -/
def valueAt : Value → List KeyPart → Option Value
  | v, [] => some v
  | Value.object fields, KeyPart.str name :: rest =>
    match mapLookup name fields with
    | some c => valueAt c rest
    | none => none
  | Value.array elems, KeyPart.int index :: rest =>
    if 0 ≤ index then
      match elems[index.toNat]? with
      | some c => valueAt c rest
      | none => none
    else none
  | _, _ :: _ => none

mutual
/-- The leaves below a position that is not the root, in the order `flatten`
visits them, each with its path from that position. -/
def leafEntries : Value → List (List KeyPart × Value)
  | Value.object fields =>
    if fields.isEmpty then [([], Value.object [])] else fieldEntries fields
  | Value.array elems =>
    if elems.isEmpty then [([], Value.array [])] else elemEntries elems 0
  | v => [([], v)]
/-- The leaves below the fields of an object. -/
def fieldEntries : List (GoString × Value) → List (List KeyPart × Value)
  | [] => []
  | (k, c) :: rest =>
    (leafEntries c).map (fun e => (KeyPart.str k :: e.1, e.2)) ++ fieldEntries rest
/-- The leaves below the elements of an array, the first one at `index`. -/
def elemEntries : List Value → Nat → List (List KeyPart × Value)
  | [], _ => []
  | c :: rest, index =>
    (leafEntries c).map (fun e => (KeyPart.int index :: e.1, e.2))
      ++ elemEntries rest (index + 1)
end

/-- The leaves below the root. -/
def rootEntries : Value → List (List KeyPart × Value)
  | Value.object fields => fieldEntries fields
  | Value.array elems => elemEntries elems 0
  | v => [([], v)]

mutual
/-- The representation of a value in which every map is built by assigning
its entries to an empty map; it denotes the same Go value. -/
def canon : Value → Value
  | Value.object fields => Value.object (canonFields fields [])
  | Value.array elems => Value.array (canonElems elems)
  | v => v
/-- Assign the fields, made canonical, to the map `acc`. -/
def canonFields : List (GoString × Value) → GoMap → GoMap
  | [], acc => acc
  | (k, c) :: rest, acc => canonFields rest (mapAssign acc k (canon c))
/-- The elements, made canonical. -/
def canonElems : List Value → List Value
  | [] => []
  | c :: rest => canon c :: canonElems rest
end

/-- The merges of a list of decoded entries, one after the other. -/
def mergeAll (entries : List (List KeyPart × Value)) (t : Value) : Option Value :=
  entries.foldl (fun st e => st.bind (merge e.1 e.2)) (some t)

/-- Two paths neither of which is a prefix of the other. -/
def IndependentPaths (a b : List KeyPart × Value) : Prop :=
  ¬ a.1 <+: b.1 ∧ ¬ b.1 <+: a.1

/-- The entries `Flatten` writes for a value: the leaves below the root, each
under the key of its path. -/
def encodedEntries (v : Value) : GoMap :=
  (rootEntries v).map (fun e => (encode e.1, e.2))

/-- Merging the leaves of a value rebuilds it: a leaf is its own single
entry, and the entries of a non-empty container, merged into nil in the order
`flatten` visits them, give the canonical representation of the container. -/
def Rebuilds (c : Value) : Prop :=
  (isLeaf c = true → leafEntries c = [([], c)] ∧ canon c = c)
    ∧ (isLeaf c = false → leafEntries c ≠ [] ∧ (∀ e ∈ leafEntries c, e.1 ≠ [])
        ∧ mergeAll (leafEntries c) Value.null = some (canon c))

mutual
/-- Go `reflect.DeepEqual` on values (what the tests compare with): maps are
equal when they have the same length and every key of the first maps to a
deeply equal value in the second; slices are equal element by element. -/
def deepEqual : Value → Value → Bool
  | Value.null, Value.null => true
  | Value.bool a, Value.bool b => a == b
  | Value.number a, Value.number b => a == b
  | Value.str a, Value.str b => a == b
  | Value.object fields, Value.object others =>
    fields.length == others.length && fieldsDeepEqual fields others
  | Value.array elems, Value.array others => elemsDeepEqual elems others
  | _, _ => false
/-- Every field has a deeply equal value under its key in the map `others`. -/
def fieldsDeepEqual : List (GoString × Value) → GoMap → Bool
  | [], _ => true
  | (k, c) :: rest, others =>
    (match mapLookup k others with
      | some d => deepEqual c d
      | none => false) && fieldsDeepEqual rest others
/-- The elements are deeply equal one by one. -/
def elemsDeepEqual : List Value → List Value → Bool
  | [], [] => true
  | x :: xs, y :: ys => deepEqual x y && elemsDeepEqual xs ys
  | _, _ => false
end

/-- The pair `(map[string]any, error)` that the source function `Flatten`
returns: the accumulated map and, always, a nil error. -/
def FlattenResult (nested : Value) : GoMap × Option GoError := (Flatten nested, none)

/-! ## Conflicts between paths -/

/-- Whether a segment is a field (it needs an object) rather than an index
(it needs an array). -/
def isField : KeyPart → Bool
  | KeyPart.str _ => true
  | KeyPart.int _ => false

/-- The shape of a container: `some true` for an object, `some false` for an
array, `none` for a scalar or nil. -/
def shapeOf : Value → Option Bool
  | Value.object _ => some true
  | Value.array _ => some false
  | _ => none

/-- Two paths require the same position to be both an object and an array:
they share a prefix that is followed by a field in one and by an index in the
other. -/
def ObjectArrayConflict (p q : List KeyPart) : Prop :=
  ∃ c s₁ s₂ r₁ r₂, p = c ++ s₁ :: r₁ ∧ q = c ++ s₂ :: r₂ ∧ isField s₁ ≠ isField s₂

/-- A boolean, a number or a string: a value that is neither nil nor a
container, so that no path can be merged through it. -/
def isScalar : Value → Bool
  | Value.bool _ => true
  | Value.number _ => true
  | Value.str _ => true
  | _ => false

/-- No merge along `c ++ s :: _` can succeed in the tree `t`: some prefix of
`c` holds a scalar, or `c` itself holds a container of the shape that `s`
does not accept. -/
def Blocked (t : Value) (c : List KeyPart) (s : KeyPart) : Prop :=
  ∃ r v, r <+: c ∧ valueAt t r = some v
    ∧ (isScalar v = true ∨ (r = c ∧ shapeOf v = some (!isField s)))

/-- Two paths that can both be merged into one tree whatever the order:
neither is a prefix of the other and they do not conflict. -/
def CompatiblePaths (p q : List KeyPart) : Prop :=
  ¬ p <+: q ∧ ¬ q <+: p ∧ ¬ ObjectArrayConflict p q

/-- Executable form of `ObjectArrayConflict`: the first segments at which
the two paths differ are a field and an index. -/
def conflictB : List KeyPart → List KeyPart → Bool
  | a :: p, b :: q => if a = b then conflictB p q else isField a != isField b
  | _, _ => false

/-! ## Field names and orders of visiting -/

/-- A field name that cannot make two keys of `flatten` coincide: not empty
and without `.` and `[`. -/
def flatName (name : GoString) : Bool :=
  name ≠ [] && !name.contains '.' && !name.contains '['

/-- A segment whose field name is a `flatName`; an index is in the range of
`int`. -/
def flatPart : KeyPart → Bool
  | KeyPart.str name => flatName name
  | KeyPart.int index => decide (minInt ≤ index ∧ index ≤ maxInt)

/-- The same value with the fields of its objects, at any depth, listed in
another order. The order of the list is the order in which `range` visits the
map, so the two values are one Go value visited in two orders. -/
inductive Reorder : Value → Value → Prop where
  | refl (v : Value) : Reorder v v
  | trans {a b c : Value} : Reorder a b → Reorder b c → Reorder a c
  | perm {fields fields' : List (GoString × Value)} :
      fields.Perm fields' → Reorder (Value.object fields) (Value.object fields')
  | field {pre post : List (GoString × Value)} {name : GoString} {c c' : Value} :
      Reorder c c' →
      Reorder (Value.object (pre ++ (name, c) :: post))
        (Value.object (pre ++ (name, c') :: post))
  | elem {pre post : List Value} {c c' : Value} :
      Reorder c c' →
      Reorder (Value.array (pre ++ c :: post)) (Value.array (pre ++ c' :: post))

/-! ## Unflatten under an allocation limit

The definitions above let a slice grow to any length. A Go runtime cannot:
`append` does not return when the slice would need more elements than can be
allocated. The definitions below are the same code run with a `limit` on the
number of elements of a slice. -/

/-- The ways a run of `Unflatten` can end without returning: a run-time panic
of the code, or the runtime failing to allocate. -/
inductive Fault where
  | panic (p : Panic)
  | outOfMemory
  deriving DecidableEq

/-- The outcome of a run in which no allocation fails. -/
def withinLimit {α : Type} : Except Panic α → Except Fault α
  | Except.ok a => Except.ok a
  | Except.error p => Except.error (Fault.panic p)

/-- Source function `expandSliceToSize` on a runtime that cannot grow a slice
beyond `limit` elements: the loop body does not run when `size` is at most the
length; otherwise the appends reach `size` when `size` is within the limit,
and fail (`none`) when it is not. -/
def expandSliceToSizeWithin (limit : Nat) (slice : List Value) (size : Int) :
    Option (List Value) :=
  if size ≤ slice.length then some slice
  else if size ≤ limit then some (expandSliceToSize slice size)
  else none

/-- Source function `unflatten` (with `unflattenSliceKey` and
`unflattenNestedKey` in place, as in `unflatten` above) on a runtime that
cannot grow a slice beyond `limit` elements. -/
def unflattenWithin (limit : Nat) : List KeyPart → Value → Value → Except Fault Value
  | [], _, _ => Except.error (Fault.panic Panic.indexOutOfRange)
  | KeyPart.int key :: keyParts, value, result =>
    match asSlice result with
    | Except.error p => Except.error (Fault.panic p)
    | Except.ok slice =>
      match expandSliceToSizeWithin limit slice (wrapInt (key + 1)) with
      | none => Except.error Fault.outOfMemory
      | some resultSlice =>
        if 0 ≤ key ∧ key < resultSlice.length then
          match keyParts with
          | [] => Except.ok (Value.array (resultSlice.set key.toNat value))
          | _ :: _ =>
            match unflattenWithin limit keyParts value
                (resultSlice.getD key.toNat Value.null) with
            | Except.error f => Except.error f
            | Except.ok child => Except.ok (Value.array (resultSlice.set key.toNat child))
        else Except.error (Fault.panic Panic.indexOutOfRange)
  | KeyPart.str key :: keyParts, value, result =>
    match asMap result with
    | Except.error p => Except.error (Fault.panic p)
    | Except.ok resultMap =>
      match keyParts with
      | [] => Except.ok (Value.object (mapAssign resultMap key value))
      | _ :: _ =>
        match unflattenWithin limit keyParts value (mapIndex resultMap key) with
        | Except.error f => Except.error f
        | Except.ok child => Except.ok (Value.object (mapAssign resultMap key child))

/-- The loop of `Unflatten` on a runtime that cannot grow a slice beyond
`limit` elements. -/
def unflattenLoopWithin (limit : Nat) : GoMap → Value → Except Fault (Value × Option GoError)
  | [], result => Except.ok (result, none)
  | (key, value) :: rest, result =>
    match splitFlatKey key with
    | Except.error err => Except.ok (Value.null, some err)
    | Except.ok keyParts =>
      match unflattenWithin limit keyParts value result with
      | Except.error f => Except.error f
      | Except.ok result => unflattenLoopWithin limit rest result

/-- Source function `Unflatten` on a runtime that cannot grow a slice beyond
`limit` elements: the returned pair `(any, error)`, a panic, or a failed
allocation. -/
def UnflattenWithin (limit : Nat) (flattened : GoMap) :
    Except Fault (Value × Option GoError) :=
  if flattened.length = 0 then Except.ok (Value.object [], none)
  else unflattenLoopWithin limit flattened Value.null

/-! # Theorems -/

/-! ## Facts about the map representation -/

theorem keyLt_irrefl (a : GoString) : keyLt a a = false := by
  induction a with
  | nil => rfl
  | cons c cs ih => simp [keyLt, ih]

theorem keyLt_asymm : ∀ a b : GoString, keyLt a b = true → keyLt b a = false
  | [], [], h => by simp [keyLt] at h
  | [], _ :: _, _ => by simp [keyLt]
  | _ :: _, [], h => by simp [keyLt] at h
  | a :: as, b :: bs, h => by
    simp only [keyLt, Bool.or_eq_true, decide_eq_true_eq, Bool.and_eq_true, beq_iff_eq] at h
    simp only [keyLt, Bool.or_eq_false_iff, decide_eq_false_iff_not, Bool.and_eq_false_imp,
      beq_iff_eq]
    rcases h with h | ⟨rfl, h⟩
    · exact ⟨lt_asymm h, fun e => absurd h (e ▸ lt_irrefl _)⟩
    · exact ⟨lt_irrefl _, fun _ => keyLt_asymm as bs h⟩

theorem keyLt_trans : ∀ a b c : GoString, keyLt a b = true → keyLt b c = true → keyLt a c = true
  | [], [], _, h, _ => by simp [keyLt] at h
  | [], _ :: _, [], _, h => by simp [keyLt] at h
  | [], _ :: _, _ :: _, _, _ => by simp [keyLt]
  | _ :: _, [], _, h, _ => by simp [keyLt] at h
  | _ :: _, _ :: _, [], _, h => by simp [keyLt] at h
  | a :: as, b :: bs, c :: cs, h₁, h₂ => by
    simp only [keyLt, Bool.or_eq_true, decide_eq_true_eq, Bool.and_eq_true, beq_iff_eq] at h₁ h₂ ⊢
    rcases h₁ with h₁ | ⟨rfl, h₁⟩
    · rcases h₂ with h₂ | ⟨rfl, _⟩
      · exact Or.inl (lt_trans h₁ h₂)
      · exact Or.inl h₁
    · rcases h₂ with h₂ | ⟨rfl, h₂⟩
      · exact Or.inl h₂
      · exact Or.inr ⟨rfl, keyLt_trans as bs cs h₁ h₂⟩

theorem keyLt_total : ∀ a b : GoString, a ≠ b → keyLt a b = true ∨ keyLt b a = true
  | [], [], h => absurd rfl h
  | [], _ :: _, _ => by simp [keyLt]
  | _ :: _, [], _ => by simp [keyLt]
  | a :: as, b :: bs, h => by
    simp only [keyLt, Bool.or_eq_true, decide_eq_true_eq, Bool.and_eq_true, beq_iff_eq]
    rcases lt_trichotomy a b with hab | rfl | hab
    · exact Or.inl (Or.inl hab)
    · have hne : as ≠ bs := fun e => h (by rw [e])
      rcases keyLt_total as bs hne with h' | h'
      · exact Or.inl (Or.inr ⟨rfl, h'⟩)
      · exact Or.inr (Or.inr ⟨rfl, h'⟩)
    · exact Or.inr (Or.inl hab)

theorem mapHas_eq_isSome (key : GoString) (m : GoMap) :
    mapHas key m = (mapLookup key m).isSome := by
  induction m with
  | nil => rfl
  | cons e m ih =>
    obtain ⟨k, v⟩ := e
    by_cases h : k = key <;> simp [mapHas, mapLookup, h, ih]

theorem mapHas_iff_mem_keys (key : GoString) (m : GoMap) :
    mapHas key m = true ↔ key ∈ m.map Prod.fst := by
  induction m with
  | nil => simp [mapHas]
  | cons e m ih =>
    obtain ⟨k, v⟩ := e
    simp only [mapHas, Bool.or_eq_true, beq_iff_eq, ih, List.map_cons, List.mem_cons]
    constructor
    · rintro (h | h)
      · exact Or.inl h.symm
      · exact Or.inr h
    · rintro (h | h)
      · exact Or.inl h.symm
      · exact Or.inr h

theorem mapHas_mapReplace (key k : GoString) (v : Value) (m : GoMap) :
    mapHas key (mapReplace k v m) = mapHas key m := by
  induction m with
  | nil => rfl
  | cons e m ih =>
    obtain ⟨k', v'⟩ := e
    by_cases h : k' = k
    · subst h; simp [mapReplace, mapHas]
    · simp [mapReplace, mapHas, h, ih]

theorem mapHas_mapInsert (key k : GoString) (v : Value) (m : GoMap) :
    mapHas key (mapInsert k v m) = (k == key || mapHas key m) := by
  induction m with
  | nil => simp [mapInsert, mapHas]
  | cons e m ih =>
    obtain ⟨k', v'⟩ := e
    by_cases h : keyLt k k' = true
    · simp [mapInsert, mapHas, h]
    · simp only [mapInsert, h, mapHas, ih]
      cases k' == key <;> cases k == key <;> simp

theorem mapHas_mapAssign (key k : GoString) (v : Value) (m : GoMap) :
    mapHas key (mapAssign m k v) = (k == key || mapHas key m) := by
  unfold mapAssign
  by_cases h : mapHas k m = true
  · simp only [h, if_true, mapHas_mapReplace]
    by_cases hk : k = key
    · subst hk; simp [h]
    · simp [hk]
  · simp [h, mapHas_mapInsert]

theorem mapLookup_mapReplace_self (k : GoString) (v : Value) (m : GoMap)
    (h : mapHas k m = true) : mapLookup k (mapReplace k v m) = some v := by
  induction m with
  | nil => simp [mapHas] at h
  | cons e m ih =>
    obtain ⟨k', v'⟩ := e
    by_cases hk : k' = k
    · simp [mapReplace, mapLookup, hk]
    · simp [mapHas, hk] at h
      simp [mapReplace, mapLookup, hk, ih h]

theorem mapLookup_mapReplace_ne (key k : GoString) (v : Value) (m : GoMap) (hne : key ≠ k) :
    mapLookup key (mapReplace k v m) = mapLookup key m := by
  induction m with
  | nil => rfl
  | cons e m ih =>
    obtain ⟨k', v'⟩ := e
    by_cases hk : k' = k
    · subst hk
      simp [mapReplace, mapLookup, Ne.symm hne]
    · by_cases hk' : k' = key
      · subst hk'; simp [mapReplace, mapLookup, hk]
      · simp [mapReplace, mapLookup, hk, hk', ih]

theorem mapLookup_mapInsert_self (k : GoString) (v : Value) (m : GoMap)
    (h : mapHas k m = false) : mapLookup k (mapInsert k v m) = some v := by
  induction m with
  | nil => simp [mapInsert, mapLookup]
  | cons e m ih =>
    obtain ⟨k', v'⟩ := e
    simp [mapHas] at h
    by_cases hlt : keyLt k k' = true
    · simp [mapInsert, hlt, mapLookup]
    · simp [mapInsert, hlt, mapLookup, h.1, ih h.2]

theorem mapLookup_mapInsert_ne (key k : GoString) (v : Value) (m : GoMap) (hne : key ≠ k) :
    mapLookup key (mapInsert k v m) = mapLookup key m := by
  induction m with
  | nil => simp [mapInsert, mapLookup, Ne.symm hne]
  | cons e m ih =>
    obtain ⟨k', v'⟩ := e
    by_cases hlt : keyLt k k' = true
    · simp [mapInsert, hlt, mapLookup, Ne.symm hne]
    · by_cases hk' : k' = key
      · subst hk'; simp [mapInsert, hlt, mapLookup]
      · simp [mapInsert, hlt, mapLookup, hk', ih]

theorem mapLookup_mapAssign_self (k : GoString) (v : Value) (m : GoMap) :
    mapLookup k (mapAssign m k v) = some v := by
  unfold mapAssign
  by_cases h : mapHas k m = true
  · simp [h, mapLookup_mapReplace_self]
  · simp [h, mapLookup_mapInsert_self]

theorem mapLookup_mapAssign_ne (key k : GoString) (v : Value) (m : GoMap) (hne : key ≠ k) :
    mapLookup key (mapAssign m k v) = mapLookup key m := by
  unfold mapAssign
  by_cases h : mapHas k m = true
  · simp [h, mapLookup_mapReplace_ne _ _ _ _ hne]
  · simp [h, mapLookup_mapInsert_ne _ _ _ _ hne]

theorem mapIndex_mapAssign_self (k : GoString) (v : Value) (m : GoMap) :
    mapIndex (mapAssign m k v) k = v := by
  simp [mapIndex, mapLookup_mapAssign_self]

theorem mapIndex_mapAssign_ne (key k : GoString) (v : Value) (m : GoMap) (hne : key ≠ k) :
    mapIndex (mapAssign m k v) key = mapIndex m key := by
  simp [mapIndex, mapLookup_mapAssign_ne _ _ _ _ hne]

theorem mapReplace_mapReplace_self (k : GoString) (v w : Value) (m : GoMap) :
    mapReplace k w (mapReplace k v m) = mapReplace k w m := by
  induction m with
  | nil => rfl
  | cons e m ih =>
    obtain ⟨k', v'⟩ := e
    by_cases hk : k' = k
    · simp [mapReplace, hk]
    · simp [mapReplace, hk, ih]

theorem mapReplace_mapInsert_self (k : GoString) (v w : Value) (m : GoMap)
    (h : mapHas k m = false) : mapReplace k w (mapInsert k v m) = mapInsert k w m := by
  induction m with
  | nil => simp [mapInsert, mapReplace]
  | cons e m ih =>
    obtain ⟨k', v'⟩ := e
    simp [mapHas] at h
    by_cases hlt : keyLt k k' = true
    · simp [mapInsert, hlt, mapReplace]
    · simp [mapInsert, hlt, mapReplace, h.1, ih h.2]

theorem mapAssign_mapAssign_self (k : GoString) (v w : Value) (m : GoMap) :
    mapAssign (mapAssign m k v) k w = mapAssign m k w := by
  have h1 : mapHas k (mapAssign m k v) = true := by simp [mapHas_mapAssign]
  rw [mapAssign, if_pos h1]
  unfold mapAssign
  by_cases h : mapHas k m = true
  · simp [h, mapReplace_mapReplace_self]
  · simp [h, mapReplace_mapInsert_self]

theorem mapReplace_comm (k k' : GoString) (v w : Value) (m : GoMap) (hne : k ≠ k') :
    mapReplace k' w (mapReplace k v m) = mapReplace k v (mapReplace k' w m) := by
  induction m with
  | nil => rfl
  | cons e m ih =>
    obtain ⟨a, x⟩ := e
    by_cases h1 : a = k
    · subst h1; simp [mapReplace, hne]
    · by_cases h2 : a = k'
      · subst h2; simp [mapReplace, h1]
      · simp [mapReplace, h1, h2, ih]

theorem mapReplace_mapInsert_comm (k k' : GoString) (v w : Value) (m : GoMap) (hne : k ≠ k') :
    mapReplace k' w (mapInsert k v m) = mapInsert k v (mapReplace k' w m) := by
  induction m with
  | nil => simp [mapInsert, mapReplace, hne]
  | cons e m ih =>
    obtain ⟨a, x⟩ := e
    by_cases hlt : keyLt k a = true
    · by_cases h2 : a = k'
      · subst h2; simp [mapInsert, hlt, mapReplace, hne]
      · simp [mapInsert, hlt, mapReplace, hne, h2]
    · by_cases h2 : a = k'
      · subst h2; simp [mapInsert, hlt, mapReplace]
      · simp [mapInsert, hlt, mapReplace, h2, ih]

theorem mapInsert_comm (k k' : GoString) (v w : Value) (m : GoMap) (hne : k ≠ k') :
    mapInsert k' w (mapInsert k v m) = mapInsert k v (mapInsert k' w m) := by
  induction m with
  | nil =>
    rcases keyLt_total k k' hne with h | h
    · simp [mapInsert, h, keyLt_asymm _ _ h]
    · simp [mapInsert, h, keyLt_asymm _ _ h]
  | cons e m ih =>
    obtain ⟨a, x⟩ := e
    by_cases h1 : keyLt k a = true <;> by_cases h2 : keyLt k' a = true
    · rcases keyLt_total k k' hne with h | h
      · simp [mapInsert, h1, h2, h, keyLt_asymm _ _ h]
      · simp [mapInsert, h1, h2, h, keyLt_asymm _ _ h]
    · have h3 : keyLt k' k = false := by
        cases h : keyLt k' k
        · rfl
        · exact absurd (keyLt_trans _ _ _ h h1) h2
      simp [mapInsert, h1, h2, h3]
    · have h3 : keyLt k k' = false := by
        cases h : keyLt k k'
        · rfl
        · exact absurd (keyLt_trans _ _ _ h h2) h1
      simp [mapInsert, h1, h2, h3]
    · simp [mapInsert, h1, h2, ih]

theorem mapAssign_comm (k k' : GoString) (v w : Value) (m : GoMap) (hne : k ≠ k') :
    mapAssign (mapAssign m k v) k' w = mapAssign (mapAssign m k' w) k v := by
  have e1 : mapHas k' (mapAssign m k v) = mapHas k' m := by
    simp [mapHas_mapAssign, hne]
  have e2 : mapHas k (mapAssign m k' w) = mapHas k m := by
    simp [mapHas_mapAssign, Ne.symm hne]
  rw [mapAssign, e1]
  conv_rhs => rw [mapAssign, e2]
  unfold mapAssign
  by_cases h1 : mapHas k m = true <;> by_cases h2 : mapHas k' m = true
  · simp [h1, h2, mapReplace_comm _ _ _ _ _ hne]
  · simp [h1, h2, mapReplace_mapInsert_comm _ _ _ _ _ (Ne.symm hne)]
  · simp [h1, h2, mapReplace_mapInsert_comm _ _ _ _ _ hne]
  · simp [h1, h2, mapInsert_comm _ _ _ _ _ hne]

/-! ## Decimal numerals -/

theorem digitChar_isDigit (d : Nat) (h : d < 10) :
    (Nat.digitChar d).isDigit = true ∧ (Nat.digitChar d).toNat - '0'.toNat = d := by
  interval_cases d <;> decide

theorem parseDigits_toDigitsCore (fuel : Nat) :
    ∀ (n : Nat) (ds : List Char), n < fuel →
      parseDigits (Nat.toDigitsCore 10 fuel n ds) 0 = parseDigits ds n := by
  induction fuel with
  | zero => intro n ds h; omega
  | succ fuel ih =>
    intro n ds h
    have hd := digitChar_isDigit (n % 10) (Nat.mod_lt _ (by decide))
    by_cases h0 : n / 10 = 0
    · have hn : n % 10 = n := by omega
      rw [hn] at hd
      simp only [Nat.toDigitsCore, h0, if_true, parseDigits, hd.1, hd.2, Nat.zero_mul,
        Nat.zero_add, hn]
    · have hlt : n / 10 < fuel := by omega
      simp only [Nat.toDigitsCore, h0, if_false]
      rw [ih (n / 10) _ hlt]
      have hn : n / 10 * 10 + n % 10 = n := by omega
      simp only [parseDigits, hd.1, if_true, hd.2, hn]

theorem parseDigits_toDigits (n : Nat) : parseDigits (Nat.toDigits 10 n) 0 = some n := by
  have h := parseDigits_toDigitsCore (n + 1) n [] (Nat.lt_succ_self n)
  simpa [Nat.toDigits, parseDigits] using h

theorem toDigitsCore_all_digits (fuel : Nat) :
    ∀ (n : Nat) (ds : List Char), (∀ c ∈ ds, c.isDigit = true) →
      ∀ c ∈ Nat.toDigitsCore 10 fuel n ds, c.isDigit = true := by
  induction fuel with
  | zero => intro n ds h; simpa [Nat.toDigitsCore] using h
  | succ fuel ih =>
    intro n ds h
    have hd := (digitChar_isDigit (n % 10) (Nat.mod_lt _ (by decide))).1
    have h' : ∀ c ∈ Nat.digitChar (n % 10) :: ds, c.isDigit = true := by
      intro c hc
      rcases List.mem_cons.1 hc with rfl | hc
      · exact hd
      · exact h c hc
    by_cases h0 : n / 10 = 0
    · simpa only [Nat.toDigitsCore, h0, if_true] using h'
    · simpa only [Nat.toDigitsCore, h0, if_false] using ih (n / 10) _ h'

theorem toDigitsCore_ne_nil (fuel n : Nat) (ds : List Char) :
    Nat.toDigitsCore 10 (fuel + 1) n ds ≠ [] := by
  induction fuel generalizing n ds with
  | zero =>
    by_cases h0 : n / 10 = 0 <;> simp [Nat.toDigitsCore, h0]
  | succ fuel ih =>
    by_cases h0 : n / 10 = 0
    · simp [Nat.toDigitsCore, h0]
    · rw [Nat.toDigitsCore]
      simp only [h0, if_false]
      exact ih _ _

theorem toDigits_all_digits (n : Nat) : ∀ c ∈ Nat.toDigits 10 n, c.isDigit = true :=
  toDigitsCore_all_digits (n + 1) n [] (by simp)

theorem toDigits_ne_nil (n : Nat) : Nat.toDigits 10 n ≠ [] :=
  toDigitsCore_ne_nil n n []


theorem formatInt_chars (i : Int) : ∀ c ∈ formatInt i, isNumeralChar c = true := by
  intro c hc
  cases i with
  | ofNat n => simp [isNumeralChar, toDigits_all_digits n c hc]
  | negSucc n =>
    rcases List.mem_cons.1 hc with rfl | hc
    · decide
    · simp [isNumeralChar, toDigits_all_digits (n + 1) c hc]

theorem formatInt_ne_nil (i : Int) : formatInt i ≠ [] := by
  cases i with
  | ofNat n => exact toDigits_ne_nil n
  | negSucc n => simp [formatInt]

theorem Atoi_formatInt (i : Int) (hlo : minInt ≤ i) (hhi : i ≤ maxInt) :
    Atoi (formatInt i) = some i := by
  cases i with
  | ofNat n =>
    have hne := toDigits_ne_nil n
    have hall := toDigits_all_digits n
    have hp := parseDigits_toDigits n
    have hlt : (n : Int) < 2 ^ 63 := by
      have : (Int.ofNat n) ≤ 2 ^ 63 - 1 := hhi
      simp only [Int.ofNat_eq_coe] at this
      omega
    have hlt' : n < 9223372036854775808 := by omega
    show Atoi (Nat.toDigits 10 n) = some (Int.ofNat n)
    cases hds : Nat.toDigits 10 n with
    | nil => exact absurd hds hne
    | cons c cs =>
      have hc : c.isDigit = true := hall c (by rw [hds]; simp)
      have h1 : c ≠ '-' := by rintro rfl; revert hc; decide
      have h2 : c ≠ '+' := by rintro rfl; revert hc; decide
      rw [hds] at hp
      unfold Atoi
      split
      · rename_i heq; cases heq; exact absurd rfl h1
      · split
        · rename_i heq; cases heq; exact absurd rfl h1
        · rename_i heq; cases heq; exact absurd rfl h2
        · simp [hp, hlt']
  | negSucc n =>
    have hne := toDigits_ne_nil (n + 1)
    have hp := parseDigits_toDigits (n + 1)
    have hle : ((n + 1 : Nat) : Int) ≤ 2 ^ 63 := by
      have : -(2 ^ 63 : Int) ≤ Int.negSucc n := hlo
      rw [Int.negSucc_eq] at this
      omega
    show Atoi ('-' :: Nat.toDigits 10 (n + 1)) = some (Int.negSucc n)
    unfold Atoi
    simp only [hne, if_false, hp, hle, if_true]
    rfl

/-! ## The key grammar -/

theorem fieldsAux_append (f : Char → Bool) (s : GoString) (hs : ∀ c ∈ s, f c = false) :
    ∀ (rest cur : GoString), fieldsAux f (s ++ rest) cur = fieldsAux f rest (cur ++ s) := by
  induction s with
  | nil => intro rest cur; simp
  | cons c s ih =>
    intro rest cur
    have hc : f c = false := hs c (by simp)
    have hs' : ∀ c ∈ s, f c = false := fun d hd => hs d (by simp [hd])
    show fieldsAux f (c :: (s ++ rest)) cur = _
    rw [fieldsAux]
    simp only [hc, Bool.false_eq_true, if_false]
    rw [ih hs']
    simp

theorem fieldsAux_sep (f : Char → Bool) (c : Char) (hc : f c = true) (rest cur : GoString) :
    fieldsAux f (c :: rest) cur = (if cur = [] then [] else [cur]) ++ fieldsAux f rest [] := by
  by_cases h : cur = [] <;> simp [fieldsAux, hc, h]

theorem goodName_spec {name : GoString} (h : goodName name = true) :
    name ≠ [] ∧ (∀ c ∈ name, keySeparator c = false) ∧ HasSuffix name [']'] = false := by
  simp only [goodName, Bool.and_eq_true, decide_eq_true_eq, Bool.not_eq_true',
    List.contains_eq_any_beq, List.any_eq_false, beq_iff_eq] at h
  obtain ⟨⟨⟨h1, h2⟩, h3⟩, h4⟩ := h
  refine ⟨h1, ?_, h4⟩
  intro c hc
  have e1 : c ≠ '.' := fun e => h2 c hc e.symm
  have e2 : c ≠ '[' := fun e => h3 c hc e.symm
  simp [keySeparator, delimiter, e1, e2]

theorem partText_nosep (seg : KeyPart) (h : goodPart seg = true) :
    ∀ c ∈ partText seg, keySeparator c = false := by
  cases seg with
  | str name => exact (goodName_spec h).2.1
  | int index =>
    intro c hc
    simp only [partText, List.mem_append, List.mem_singleton] at hc
    rcases hc with hc | rfl
    · have hn := formatInt_chars index c hc
      simp only [isNumeralChar, Bool.or_eq_true, beq_iff_eq] at hn
      rcases hn with hn | rfl
      · have e1 : c ≠ '.' := by rintro rfl; revert hn; decide
        have e2 : c ≠ '[' := by rintro rfl; revert hn; decide
        simp [keySeparator, delimiter, e1, e2]
      · decide
    · decide

theorem partText_ne_nil (seg : KeyPart) (h : goodPart seg = true) : partText seg ≠ [] := by
  cases seg with
  | str name => exact (goodName_spec h).1
  | int index => simp [partText]

theorem grammarSegment_false (seg : KeyPart) :
    ∃ c, keySeparator c = true ∧ grammarSegment false seg = c :: partText seg := by
  cases seg with
  | str name => exact ⟨'.', by decide, rfl⟩
  | int index => exact ⟨'[', by decide, rfl⟩

theorem fieldsAux_grammarTail (p : List KeyPart) (hp : ∀ seg ∈ p, goodPart seg = true) :
    ∀ cur : GoString, fieldsAux keySeparator (grammarTail p) cur
      = (if cur = [] then [] else [cur]) ++ p.map partText := by
  induction p with
  | nil => intro cur; by_cases h : cur = [] <;> simp [grammarTail, fieldsAux, h]
  | cons seg rest ih =>
    intro cur
    have hseg := hp seg (by simp)
    have hrest : ∀ s ∈ rest, goodPart s = true := fun s hs => hp s (by simp [hs])
    obtain ⟨c, hc, e⟩ := grammarSegment_false seg
    rw [grammarTail, e, List.cons_append, fieldsAux_sep _ _ hc,
      fieldsAux_append _ _ (partText_nosep seg hseg), ih hrest]
    simp [partText_ne_nil seg hseg]

theorem FieldsFunc_grammarKey (p : List KeyPart) (hp : ∀ seg ∈ p, goodPart seg = true) :
    FieldsFunc (grammarKey p) keySeparator = p.map partText := by
  cases p with
  | nil => rfl
  | cons seg rest =>
    have hseg := hp seg (by simp)
    have hrest : ∀ s ∈ rest, goodPart s = true := fun s hs => hp s (by simp [hs])
    have hne := partText_ne_nil seg hseg
    cases seg with
    | str name =>
      show fieldsAux keySeparator (name ++ grammarTail rest) [] = _
      have hns : ∀ c ∈ name, keySeparator c = false := partText_nosep _ hseg
      rw [fieldsAux_append _ _ hns, fieldsAux_grammarTail _ hrest]
      simp only [partText] at hne
      simp [hne, partText]
    | int index =>
      show fieldsAux keySeparator ('[' :: ((formatInt index ++ [']']) ++ grammarTail rest)) [] = _
      have hns : ∀ c ∈ formatInt index ++ [']'], keySeparator c = false :=
        partText_nosep _ hseg
      rw [fieldsAux_sep _ _ (by decide), fieldsAux_append _ _ hns,
        fieldsAux_grammarTail _ hrest]
      simp only [partText] at hne
      simp [hne, partText]

theorem splitParts_partText (key : GoString) (p : List KeyPart)
    (hp : ∀ seg ∈ p, goodPart seg = true) :
    ∀ acc : List KeyPart, splitParts key (p.map partText) acc = Except.ok (acc ++ p) := by
  induction p with
  | nil => intro acc; simp [splitParts]
  | cons seg rest ih =>
    intro acc
    have hseg := hp seg (by simp)
    have hrest : ∀ s ∈ rest, goodPart s = true := fun s hs => hp s (by simp [hs])
    cases seg with
    | str name =>
      have h := (goodName_spec hseg).2.2
      simp only [List.map_cons, partText, splitParts, h, Bool.false_eq_true, if_false]
      rw [ih hrest]
      simp
    | int index =>
      have hr : minInt ≤ index ∧ index ≤ maxInt := by simpa [goodPart] using hseg
      have h1 : HasSuffix (formatInt index ++ [']']) [']'] = true := by
        simp [HasSuffix]
      have h2 : TrimSuffix (formatInt index ++ [']']) [']'] = formatInt index := by
        simp [TrimSuffix, h1]
      simp only [List.map_cons, partText, splitParts, h1, if_true, h2,
        Atoi_formatInt index hr.1 hr.2]
      rw [ih hrest]
      simp

theorem encodeFrom_of_ne_nil (p : List KeyPart) :
    ∀ key : GoString, key ≠ [] → encodeFrom key p = key ++ grammarTail p := by
  induction p with
  | nil => intro key _; simp [encodeFrom, grammarTail]
  | cons seg rest ih =>
    intro key hkey
    cases seg with
    | str name =>
      have h : getFlattenedNestedKey key name = key ++ '.' :: name := by
        simp [getFlattenedNestedKey, hkey, delimiter]
      rw [encodeFrom, h, ih _ (by simp [hkey])]
      simp [grammarTail, grammarSegment]
    | int index =>
      rw [encodeFrom, ih _ (by simp [getFlattenedSliceKey])]
      simp [grammarTail, grammarSegment, getFlattenedSliceKey]

theorem encode_eq_grammarKey (p : List KeyPart)
    (h : ∀ name rest, p ≠ KeyPart.str [] :: KeyPart.str name :: rest) :
    encode p = grammarKey p := by
  cases p with
  | nil => rfl
  | cons seg rest =>
    cases seg with
    | int index =>
      show encodeFrom (getFlattenedSliceKey [] index) rest = _
      rw [encodeFrom_of_ne_nil _ _ (by simp [getFlattenedSliceKey])]
      simp [grammarKey, grammarSegment, getFlattenedSliceKey]
    | str name =>
      show encodeFrom (getFlattenedNestedKey [] name) rest = _
      have e : getFlattenedNestedKey [] name = name := by simp [getFlattenedNestedKey]
      rw [e]
      by_cases hn : name = []
      · subst hn
        cases rest with
        | nil => rfl
        | cons seg' rest' =>
          cases seg' with
          | str name' => exact absurd rfl (h name' rest')
          | int index =>
            show encodeFrom (getFlattenedSliceKey [] index) rest' = _
            rw [encodeFrom_of_ne_nil _ _ (by simp [getFlattenedSliceKey])]
            simp [grammarKey, grammarSegment, grammarTail, getFlattenedSliceKey]
      · rw [encodeFrom_of_ne_nil _ _ hn]
        simp [grammarKey, grammarSegment]

theorem encode_eq_grammarKey_of_good (p : List KeyPart)
    (hp : ∀ seg ∈ p, goodPart seg = true) : encode p = grammarKey p := by
  apply encode_eq_grammarKey
  intro name rest e
  have h := hp (KeyPart.str []) (by rw [e]; simp)
  simp [goodPart, goodName] at h

theorem splitFlatKey_encode (p : List KeyPart) (hp : ∀ seg ∈ p, goodPart seg = true) :
    splitFlatKey (encode p) = Except.ok p := by
  rw [splitFlatKey, encode_eq_grammarKey_of_good p hp, FieldsFunc_grammarKey p hp,
    splitParts_partText _ p hp]
  simp

/-! ## Claims about the key grammar and the empty input -/

/-- C5 (amended): for every path that does not begin with an empty-named field
followed by another field, the key `Flatten` builds is the concatenation of
the specification's grammar: a field is written bare when it is the first
segment and as `.` and its name otherwise, an index as `[`, its decimal
numeral and `]`, with no separator before it. -/
theorem encoder_key_grammar (p : List KeyPart)
    (h : ∀ name rest, p ≠ KeyPart.str [] :: KeyPart.str name :: rest) :
    encode p = grammarKey p :=
  encode_eq_grammarKey p h

/-- Witness of C5: the paths `a.b`, `a[0]` and `[0].a` of the claim. -/
theorem encoder_key_grammar_witness :
    encode [KeyPart.str "a".toList, KeyPart.int 0]
        = grammarKey [KeyPart.str "a".toList, KeyPart.int 0]
      ∧ grammarKey [KeyPart.str "a".toList, KeyPart.str "b".toList] = "a.b".toList
      ∧ grammarKey [KeyPart.str "a".toList, KeyPart.int 0] = "a[0]".toList
      ∧ grammarKey [KeyPart.int 0, KeyPart.str "a".toList] = "[0].a".toList :=
  ⟨encoder_key_grammar _ (by intro name rest e; cases e), by decide, by decide, by decide⟩

/-- Counterexample to C5 as stated: below a field with the empty name the
next field is written bare, not with a leading `.`; `Flatten` of
`{"": {"b": 1}}` has the key `b`. -/
theorem encoder_key_grammar_counterexample :
    encode [KeyPart.str [], KeyPart.str "b".toList] = "b".toList
      ∧ grammarKey [KeyPart.str [], KeyPart.str "b".toList] = ".b".toList
      ∧ Flatten (Value.object [([], Value.object [("b".toList, Value.number 1)])])
          = [("b".toList, Value.number 1)] := by
  decide

/-- C6 (amended): for every path whose field names are non-empty, contain
neither `.` nor `[` and do not end in `]`, and whose indices are in the range
of `int`, `splitFlatKey` applied to the encoded key returns exactly that
path. -/
theorem decode_encode (p : List KeyPart)
    (hnames : ∀ name, KeyPart.str name ∈ p →
      name ≠ [] ∧ '.' ∉ name ∧ '[' ∉ name ∧ HasSuffix name [']'] = false)
    (hindex : ∀ i, KeyPart.int i ∈ p → minInt ≤ i ∧ i ≤ maxInt) :
    splitFlatKey (encode p) = Except.ok p := by
  apply splitFlatKey_encode
  intro seg hseg
  cases seg with
  | str name =>
    obtain ⟨h1, h2, h3, h4⟩ := hnames name hseg
    simp [goodPart, goodName, h1, h2, h3, h4]
  | int i => simpa [goodPart] using hindex i hseg

/-- Witness of C6: the path of the key `a.d[1]`. -/
theorem decode_encode_witness :
    splitFlatKey (encode [KeyPart.str "a".toList, KeyPart.str "d".toList, KeyPart.int 1])
      = Except.ok [KeyPart.str "a".toList, KeyPart.str "d".toList, KeyPart.int 1] :=
  decode_encode _
    (by
      intro name h
      simp only [List.mem_cons, KeyPart.str.injEq, List.mem_singleton, reduceCtorEq,
        or_false, List.not_mem_nil] at h
      rcases h with rfl | rfl <;> decide)
    (by
      intro i h
      simp only [List.mem_cons, reduceCtorEq, KeyPart.int.injEq, List.mem_singleton,
        false_or, List.not_mem_nil, or_false] at h
      subst h
      decide)

/-- Counterexample to C6 as stated: the field names `7]` and the empty name
contain neither `.` nor `[`, `Flatten` produces their paths, and decoding the
encoded key returns another path. -/
theorem decode_encode_counterexample :
    Flatten (Value.object [("7]".toList, Value.number 1)]) = [("7]".toList, Value.number 1)]
      ∧ encode [KeyPart.str "7]".toList] = "7]".toList
      ∧ splitFlatKey (encode [KeyPart.str "7]".toList]) = Except.ok [KeyPart.int 7]
      ∧ Flatten (Value.array [Value.object [([], Value.number 1)]])
          = [("[0].".toList, Value.number 1)]
      ∧ encode [KeyPart.int 0, KeyPart.str []] = "[0].".toList
      ∧ splitFlatKey (encode [KeyPart.int 0, KeyPart.str []]) = Except.ok [KeyPart.int 0] := by
  decide

/-- C9: `Flatten` of a root empty object and of a root empty array is the map
with no entries, and `Unflatten` of the map with no entries returns the empty
object with a nil error. -/
theorem empty_input :
    Flatten (Value.object []) = []
      ∧ Flatten (Value.array []) = []
      ∧ Unflatten [] = Except.ok (Value.object [], none) := by
  decide

/-- C10, the code at the failing input: `splitFlatKey` accepts the key `a[-1]`
and returns the index `-1`; `Unflatten` then panics on `resultSlice[key]`. -/
theorem negative_index_accepted :
    splitFlatKey "a[-1]".toList = Except.ok [KeyPart.str "a".toList, KeyPart.int (-1)]
      ∧ Unflatten [("a[-1]".toList, Value.number 1)] = Except.error Panic.indexOutOfRange := by
  decide

/-! ## Rejection of invalid keys -/

theorem splitParts_error (key : GoString) (parts : List GoString)
    (h : ∃ part ∈ parts, HasSuffix part [']'] = true ∧ Atoi (TrimSuffix part [']']) = none) :
    ∀ acc, ∃ part, splitParts key parts acc = Except.error (GoError.invalidKey part key) := by
  induction parts with
  | nil => obtain ⟨part, hmem, _⟩ := h; simp at hmem
  | cons a rest ih =>
    intro acc
    by_cases hs : HasSuffix a [']'] = true
    · cases ha : Atoi (TrimSuffix a [']']) with
      | none => exact ⟨a, by simp [splitParts, hs, ha]⟩
      | some index =>
        have h' : ∃ part ∈ rest,
            HasSuffix part [']'] = true ∧ Atoi (TrimSuffix part [']']) = none := by
          obtain ⟨part, hmem, h1, h2⟩ := h
          rcases List.mem_cons.1 hmem with rfl | hmem
          · rw [ha] at h2; cases h2
          · exact ⟨part, hmem, h1, h2⟩
        obtain ⟨part, hp⟩ := ih h' (acc ++ [KeyPart.int index])
        exact ⟨part, by simp [splitParts, hs, ha, hp]⟩
    · have h' : ∃ part ∈ rest,
          HasSuffix part [']'] = true ∧ Atoi (TrimSuffix part [']']) = none := by
        obtain ⟨part, hmem, h1, h2⟩ := h
        rcases List.mem_cons.1 hmem with rfl | hmem
        · exact absurd h1 hs
        · exact ⟨part, hmem, h1, h2⟩
      obtain ⟨part, hp⟩ := ih h' (acc ++ [KeyPart.str a])
      exact ⟨part, by simp [splitParts, hs, hp]⟩

theorem splitFlatKey_error (key : GoString) (h : hasUnparsableIndex key = true) :
    ∃ part, splitFlatKey key = Except.error (GoError.invalidKey part key) := by
  apply splitParts_error
  simpa [hasUnparsableIndex] using h

theorem unflattenLoop_cons_error (k : GoString) (v : Value) (rest : GoMap) (t : Value)
    (err : GoError) (h : splitFlatKey k = Except.error err) :
    unflattenLoop ((k, v) :: rest) t = Except.ok (Value.null, some err) := by
  simp [unflattenLoop, h]

theorem unflattenLoop_cons_panic (k : GoString) (v : Value) (rest : GoMap) (t : Value)
    (ps : List KeyPart) (p : Panic) (h : splitFlatKey k = Except.ok ps)
    (h' : unflatten ps v t = Except.error p) :
    unflattenLoop ((k, v) :: rest) t = Except.error p := by
  simp [unflattenLoop, h, h']

theorem unflattenLoop_cons_ok (k : GoString) (v : Value) (rest : GoMap) (t t' : Value)
    (ps : List KeyPart) (h : splitFlatKey k = Except.ok ps)
    (h' : unflatten ps v t = Except.ok t') :
    unflattenLoop ((k, v) :: rest) t = unflattenLoop rest t' := by
  simp [unflattenLoop, h, h']

theorem unflattenLoop_append (pre rest : GoMap) :
    ∀ t, unflattenLoop (pre ++ rest) t =
      match unflattenLoop pre t with
      | Except.ok (t', none) => unflattenLoop rest t'
      | r => r := by
  induction pre with
  | nil => intro t; simp [unflattenLoop]
  | cons e pre ih =>
    intro t
    obtain ⟨k, v⟩ := e
    rw [List.cons_append]
    cases hk : splitFlatKey k with
    | error err =>
      rw [unflattenLoop_cons_error _ _ _ _ _ hk, unflattenLoop_cons_error _ _ _ _ _ hk]
    | ok keyParts =>
      cases hu : unflatten keyParts v t with
      | error p =>
        rw [unflattenLoop_cons_panic _ _ _ _ _ _ hk hu, unflattenLoop_cons_panic _ _ _ _ _ _ hk hu]
      | ok t' =>
        rw [unflattenLoop_cons_ok _ _ _ _ _ _ hk hu, unflattenLoop_cons_ok _ _ _ _ _ _ hk hu]
        exact ih t'

theorem unflattenLoop_invalid (m : GoMap) (key : GoString) (value : Value)
    (hmem : (key, value) ∈ m) (hbad : hasUnparsableIndex key = true) :
    ∀ t, (∃ e, unflattenLoop m t = Except.ok (Value.null, some e) ∧ e.isErrInvalidKey = true)
      ∨ (∃ p, unflattenLoop m t = Except.error p) := by
  induction m with
  | nil => simp at hmem
  | cons e m ih =>
    intro t
    obtain ⟨k, v⟩ := e
    cases hk : splitFlatKey k with
    | error err =>
      rw [unflattenLoop_cons_error _ _ _ _ _ hk]
      cases err
      exact Or.inl ⟨_, rfl, rfl⟩
    | ok keyParts =>
      cases hu : unflatten keyParts v t with
      | error p =>
        rw [unflattenLoop_cons_panic _ _ _ _ _ _ hk hu]
        exact Or.inr ⟨p, rfl⟩
      | ok t' =>
        rw [unflattenLoop_cons_ok _ _ _ _ _ _ hk hu]
        rcases List.mem_cons.1 hmem with h | h
        · cases h
          obtain ⟨part, hp⟩ := splitFlatKey_error key hbad
          rw [hp] at hk
          cases hk
        · exact ih h t'

theorem Unflatten_of_ne_nil (m : GoMap) (h : m ≠ []) :
    Unflatten m = unflattenLoop m Value.null := by
  cases m with
  | nil => exact absurd rfl h
  | cons e m => simp [Unflatten]

/-- C3 (amended): for every map that contains a key with an index part
whose content is not parsable as an integer, `Unflatten` never returns a
value (its outcome is nil with an error that is `ErrInvalidKey`, or a panic);
when the entries processed before that key are merged without failure, it
returns nil with the `ErrInvalidKey` error of that key. -/
theorem invalid_key_rejected (m : GoMap) (key : GoString) (value : Value)
    (hmem : (key, value) ∈ m) (hbad : hasUnparsableIndex key = true) :
    ((∃ e, Unflatten m = Except.ok (Value.null, some e) ∧ e.isErrInvalidKey = true)
        ∨ (∃ p, Unflatten m = Except.error p))
      ∧ ∀ pre post t, m = pre ++ (key, value) :: post →
          unflattenLoop pre Value.null = Except.ok (t, none) →
          ∃ part, Unflatten m = Except.ok (Value.null, some (GoError.invalidKey part key)) := by
  have hne : m ≠ [] := by rintro rfl; simp at hmem
  rw [Unflatten_of_ne_nil m hne]
  refine ⟨unflattenLoop_invalid m key value hmem hbad _, ?_⟩
  intro pre post t hm hpre
  obtain ⟨part, hp⟩ := splitFlatKey_error key hbad
  refine ⟨part, ?_⟩
  rw [hm, unflattenLoop_append, hpre]
  exact unflattenLoop_cons_error _ _ _ _ _ hp

/-- Witness of C3: the map `{"a[not_an_int].b": true}` of the test
`TestUnflattenErrorOnInvalidKey`. -/
theorem invalid_key_rejected_witness :
    ((∃ e, Unflatten [("a[not_an_int].b".toList, Value.bool true)]
          = Except.ok (Value.null, some e) ∧ e.isErrInvalidKey = true)
        ∨ (∃ p, Unflatten [("a[not_an_int].b".toList, Value.bool true)] = Except.error p))
      ∧ ∀ pre post t,
          [("a[not_an_int].b".toList, Value.bool true)]
            = pre ++ ("a[not_an_int].b".toList, Value.bool true) :: post →
          unflattenLoop pre Value.null = Except.ok (t, none) →
          ∃ part, Unflatten [("a[not_an_int].b".toList, Value.bool true)]
            = Except.ok (Value.null, some (GoError.invalidKey part "a[not_an_int].b".toList)) :=
  invalid_key_rejected _ "a[not_an_int].b".toList (Value.bool true) (by simp) (by decide)

/-- Counterexample to C3 as stated: the map
`{"b.c": 1, "b[0]": 2, "a[not_an_int].b": true}` contains the invalid key, and
when the entries of `b.c` and `b[0]` are processed first `Unflatten` panics
on the type assertion `result.([]any)` instead of returning an error. -/
theorem invalid_key_rejected_counterexample :
    hasUnparsableIndex "a[not_an_int].b".toList = true
      ∧ Unflatten [("b.c".toList, Value.number 1), ("b[0]".toList, Value.number 2),
            ("a[not_an_int].b".toList, Value.bool true)]
          = Except.error Panic.typeAssertion
      ∧ Unflatten [("a[not_an_int].b".toList, Value.bool true), ("b.c".toList, Value.number 1),
            ("b[0]".toList, Value.number 2)]
          = Except.ok (Value.null,
              some (GoError.invalidKey "not_an_int]".toList "a[not_an_int].b".toList)) := by
  decide

/-! ## Slices -/

theorem wrapInt_le (x : Int) : wrapInt x ≤ maxInt := by
  simp only [wrapInt, maxInt]
  omega

theorem wrapInt_succ (i : Int) (h0 : 0 ≤ i) (h1 : i < maxInt) : wrapInt (i + 1) = i + 1 := by
  simp only [wrapInt, maxInt] at *
  omega

theorem length_expandSliceToSize (xs : List Value) (n : Int) :
    (expandSliceToSize xs n).length = xs.length + (n - xs.length).toNat := by
  simp [expandSliceToSize]

theorem getD_expandSliceToSize (xs : List Value) (n : Int) (j : Nat) :
    (expandSliceToSize xs n).getD j Value.null = xs.getD j Value.null := by
  simp only [expandSliceToSize, List.getD_eq_getElem?_getD]
  by_cases h : j < xs.length
  · rw [List.getElem?_append_left h]
  · have hx : xs[j]? = none := List.getElem?_eq_none (by omega)
    rw [List.getElem?_append_right (by omega), hx]
    simp only [List.getElem?_replicate, Option.getD_none]
    split <;> rfl

theorem unflatten_int (key : Int) (keyParts : List KeyPart) (value result : Value) :
    unflatten (KeyPart.int key :: keyParts) value result
      = unflattenSliceKey key keyParts value result := by
  cases keyParts <;> cases result <;> rfl

theorem unflatten_str (key : GoString) (keyParts : List KeyPart) (value result : Value) :
    unflatten (KeyPart.str key :: keyParts) value result
      = unflattenNestedKey key keyParts value result := by
  cases keyParts <;> cases result <;> rfl

theorem unflattenSliceKey_ok (key : Int) (keyParts : List KeyPart) (value result t : Value)
    (h : unflattenSliceKey key keyParts value result = Except.ok t) :
    ∃ slice child, asSlice result = Except.ok slice
      ∧ 0 ≤ key ∧ key < (expandSliceToSize slice (wrapInt (key + 1))).length
      ∧ t = Value.array ((expandSliceToSize slice (wrapInt (key + 1))).set key.toNat child) := by
  unfold unflattenSliceKey at h
  cases hs : asSlice result with
  | error p => simp [hs] at h
  | ok slice =>
    simp only [hs] at h
    by_cases hb : 0 ≤ key ∧ key < (expandSliceToSize slice (wrapInt (key + 1))).length
    · simp only [hb, and_self, if_true] at h
      by_cases hk : keyParts.length = 0
      · simp only [hk, if_true, Except.ok.injEq] at h
        exact ⟨slice, value, rfl, hb.1, hb.2, h.symm⟩
      · simp only [hk, if_false] at h
        split at h
        · cases h
        · rename_i child _
          simp only [Except.ok.injEq] at h
          exact ⟨slice, child, rfl, hb.1, hb.2, h.symm⟩
    · simp [hb] at h

/-- One entry whose key starts with the index `i`, merged into a slice. -/
theorem unflatten_int_step (i : Int) (ps : List KeyPart) (x t t' : Value) (xs : List Value)
    (h : unflatten (KeyPart.int i :: ps) x t = Except.ok t')
    (hxs : asSlice t = Except.ok xs) (hlen : (xs.length : Int) ≤ maxInt) :
    ∃ ys, t' = Value.array ys ∧ 0 ≤ i ∧ (ys.length : Int) ≤ maxInt
      ∧ (ys.length : Int) = max (xs.length : Int) (i + 1)
      ∧ ∀ j : Nat, (j : Int) ≠ i → ys.getD j Value.null = xs.getD j Value.null := by
  rw [unflatten_int] at h
  obtain ⟨slice, child, hs, h0, h1, ht⟩ := unflattenSliceKey_ok _ _ _ _ _ h
  rw [hxs] at hs
  cases hs
  have hw := wrapInt_le (i + 1)
  have hlt : i < maxInt := by
    by_contra hge
    rw [length_expandSliceToSize] at h1
    omega
  rw [length_expandSliceToSize, wrapInt_succ i h0 hlt] at h1
  refine ⟨_, ht, h0, ?_, ?_, ?_⟩
  · rw [List.length_set, length_expandSliceToSize, wrapInt_succ i h0 hlt]
    omega
  · rw [List.length_set, length_expandSliceToSize, wrapInt_succ i h0 hlt]
    omega
  · intro j hj
    have hne : i.toNat ≠ j := by omega
    rw [List.getD_eq_getElem?_getD, List.getElem?_set_ne hne, ← List.getD_eq_getElem?_getD,
      getD_expandSliceToSize]

/-! ## Sparse arrays -/

theorem firstIndex_eq_some (key : GoString) (i : Int) (h : firstIndex key = some i) :
    ∃ ps, splitFlatKey key = Except.ok (KeyPart.int i :: ps) := by
  unfold firstIndex at h
  split at h
  · rename_i index ps heq
    cases h
    exact ⟨ps, heq⟩
  · cases h

theorem sparse_loop (m : GoMap) :
    ∀ (t r : Value) (xs : List Value), unflattenLoop m t = Except.ok (r, none) →
      asSlice t = Except.ok xs → (xs.length : Int) ≤ maxInt →
      (∀ e ∈ m, (firstIndex e.1).isSome = true) →
      ∃ ys, asSlice r = Except.ok ys ∧ (m ≠ [] → r = Value.array ys)
        ∧ (ys.length : Int) ≤ maxInt ∧ xs.length ≤ ys.length
        ∧ (∀ e ∈ m, ∀ i, firstIndex e.1 = some i → 0 ≤ i ∧ i < ys.length)
        ∧ (ys.length = xs.length ∨ ∃ e ∈ m, firstIndex e.1 = some ((ys.length : Int) - 1))
        ∧ ∀ j : Nat, (∀ e ∈ m, firstIndex e.1 ≠ some (j : Int)) →
            ys.getD j Value.null = xs.getD j Value.null := by
  induction m with
  | nil =>
    intro t r xs h hxs hlen _
    simp only [unflattenLoop, Except.ok.injEq, Prod.mk.injEq, and_true] at h
    subst h
    exact ⟨xs, hxs, fun h => absurd rfl h, hlen, le_refl _, by simp, Or.inl rfl, fun _ _ => rfl⟩
  | cons e m ih =>
    intro t r xs h hxs hlen hkeys
    obtain ⟨k, v⟩ := e
    have hk := hkeys (k, v) (by simp)
    obtain ⟨i, hi⟩ := Option.isSome_iff_exists.1 hk
    obtain ⟨ps, hps⟩ := firstIndex_eq_some k i hi
    cases hu : unflatten (KeyPart.int i :: ps) v t with
    | error p =>
      rw [unflattenLoop_cons_panic _ _ _ _ _ _ hps hu] at h
      cases h
    | ok t1 =>
      rw [unflattenLoop_cons_ok _ _ _ _ _ _ hps hu] at h
      obtain ⟨ys1, ht1, h0, hlen1, hl1, hg1⟩ := unflatten_int_step i ps v t t1 xs hu hxs hlen
      have hs1 : asSlice t1 = Except.ok ys1 := by rw [ht1]; rfl
      obtain ⟨ys, hr, harr, hlen2, hle, hall, hmaxi, hg⟩ :=
        ih t1 r ys1 h hs1 hlen1 (fun e he => hkeys e (by simp [he]))
      have hrarr : r = Value.array ys := by
        by_cases hm : m = []
        · subst hm
          simp only [unflattenLoop, Except.ok.injEq, Prod.mk.injEq, and_true] at h
          rw [← h, ht1] at hr ⊢
          simp only [asSlice, Except.ok.injEq] at hr
          rw [hr]
        · exact harr hm
      refine ⟨ys, hr, fun _ => hrarr, hlen2, by omega, ?_, ?_, ?_⟩
      · intro e he j hj
        rcases List.mem_cons.1 he with rfl | he
        · rw [hi] at hj
          cases hj
          exact ⟨h0, by omega⟩
        · exact hall e he j hj
      · rcases hmaxi with hm | ⟨e, he, hj⟩
        · by_cases hx : ys.length = xs.length
          · exact Or.inl hx
          · refine Or.inr ⟨(k, v), by simp, ?_⟩
            rw [hi]
            have : (ys.length : Int) = i + 1 := by omega
            simp only [Option.some.injEq]
            omega
        · exact Or.inr ⟨e, by simp [he], hj⟩
      · intro j hj
        have hji : (j : Int) ≠ i := by
          intro e
          exact hj (k, v) (by simp) (by rw [hi, e])
        rw [hg j (fun e he => hj e (by simp [he])), hg1 j hji]

/-- C7: for every map on which `Unflatten` succeeds and whose keys all start
with an index segment, the result is an array whose length is exactly one
more than the maximum first index among the keys, and every position that
no key references holds nil. -/
theorem sparse_array (m : GoMap) (r : Value) (top : Int)
    (hok : Unflatten m = Except.ok (r, none))
    (hkeys : ∀ e ∈ m, (firstIndex e.1).isSome = true)
    (htop : ∃ e ∈ m, firstIndex e.1 = some top)
    (hmax : ∀ e ∈ m, ∀ i, firstIndex e.1 = some i → i ≤ top) :
    ∃ xs, r = Value.array xs ∧ (xs.length : Int) = top + 1
      ∧ ∀ j : Nat, j < xs.length → (∀ e ∈ m, firstIndex e.1 ≠ some (j : Int)) →
          xs[j]? = some Value.null := by
  have hne : m ≠ [] := by
    rintro rfl
    obtain ⟨e, he, _⟩ := htop
    simp at he
  rw [Unflatten_of_ne_nil m hne] at hok
  obtain ⟨ys, _, harr, _, _, hall, hmaxi, hg⟩ :=
    sparse_loop m Value.null r [] hok rfl (by simp [maxInt]) hkeys
  refine ⟨ys, harr hne, ?_, ?_⟩
  · obtain ⟨e, he, hi⟩ := htop
    have h1 := hall e he top hi
    rcases hmaxi with h0 | ⟨e', he', hj⟩
    · simp only [List.length_nil] at h0
      omega
    · have := hmax e' he' _ hj
      omega
  · intro j hj hun
    have h := hg j hun
    rw [List.getD_eq_getElem?_getD, List.getD_eq_getElem?_getD] at h
    simp only [List.getElem?_nil, Option.getD_none] at h
    rw [List.getElem?_eq_getElem hj] at h ⊢
    simpa using h

/-- Witness of C7: the keys `[2].a` and `[4].b` give a five-element array with
nil at the positions 0, 1 and 3. -/
theorem sparse_array_witness :
    ∃ xs, Value.array [Value.null, Value.null, Value.object [("a".toList, Value.number 1)],
          Value.null, Value.object [("b".toList, Value.str "x".toList)]] = Value.array xs
      ∧ (xs.length : Int) = 4 + 1
      ∧ ∀ j : Nat, j < xs.length →
          (∀ e ∈ [("[2].a".toList, Value.number 1), ("[4].b".toList, Value.str "x".toList)],
            firstIndex e.1 ≠ some (j : Int)) →
          xs[j]? = some Value.null :=
  sparse_array [("[2].a".toList, Value.number 1), ("[4].b".toList, Value.str "x".toList)]
    _ 4 (by decide) (by decide) (by decide) (by decide)

/-! ## One merge -/

theorem asMap_of_optMap {t : Value} {m : GoMap} (h : optMap t = some m) :
    asMap t = Except.ok m := by
  cases t <;> simp_all [optMap, asMap]

theorem asMap_of_optMap_none {t : Value} (h : optMap t = none) :
    asMap t = Except.error Panic.typeAssertion := by
  cases t <;> simp_all [optMap, asMap]

theorem asSlice_of_optSlice {t : Value} {s : List Value} (h : optSlice t = some s) :
    asSlice t = Except.ok s := by
  cases t <;> simp_all [optSlice, asSlice]

theorem asSlice_of_optSlice_none {t : Value} (h : optSlice t = none) :
    asSlice t = Except.error Panic.typeAssertion := by
  cases t <;> simp_all [optSlice, asSlice]

theorem merge_nil (x t : Value) : merge [] x t = none := rfl

theorem merge_str (k : GoString) (ps : List KeyPart) (x t : Value) :
    merge (KeyPart.str k :: ps) x t
      = (optMap t).bind (fun m =>
          (mergeChild ps x (mapIndex m k)).map (fun c => Value.object (mapAssign m k c))) := by
  unfold merge
  rw [unflatten_str]
  unfold unflattenNestedKey
  cases hm : optMap t with
  | none => simp [asMap_of_optMap_none hm]
  | some m =>
    simp only [asMap_of_optMap hm, Option.some_bind]
    cases ps with
    | nil => simp [mergeChild]
    | cons q qs =>
      cases h : unflatten (q :: qs) x (mapIndex m k) <;> simp [mergeChild, merge, h]

theorem merge_int (i : Int) (ps : List KeyPart) (x t : Value) :
    merge (KeyPart.int i :: ps) x t
      = (optSlice t).bind (fun s =>
          if 0 ≤ i ∧ i < (expandSliceToSize s (wrapInt (i + 1))).length then
            (mergeChild ps x ((expandSliceToSize s (wrapInt (i + 1))).getD i.toNat Value.null)).map
              (fun c => Value.array ((expandSliceToSize s (wrapInt (i + 1))).set i.toNat c))
          else none) := by
  unfold merge
  rw [unflatten_int]
  unfold unflattenSliceKey
  cases hs : optSlice t with
  | none => simp [asSlice_of_optSlice_none hs]
  | some s =>
    simp only [asSlice_of_optSlice hs, Option.some_bind]
    by_cases hb : 0 ≤ i ∧ i < (expandSliceToSize s (wrapInt (i + 1))).length
    · simp only [hb, and_self, if_true]
      cases ps with
      | nil => simp [mergeChild]
      | cons q qs =>
        cases h : unflatten (q :: qs) x
            ((expandSliceToSize s (wrapInt (i + 1))).getD i.toNat Value.null) <;>
          rw [List.getD_eq_getElem?_getD] at h <;>
          simp [mergeChild, merge, h]
    · simp [hb]

/-! ## Two merges into one slice -/

theorem expandSliceToSize_set (l : List Value) (n : Nat) (c : Value) (w : Int)
    (h : n < l.length) :
    expandSliceToSize (l.set n c) w = (expandSliceToSize l w).set n c := by
  simp [expandSliceToSize, List.set_append, h]

theorem expandSliceToSize_comm (s : List Value) (a b : Int) :
    expandSliceToSize (expandSliceToSize s a) b = expandSliceToSize (expandSliceToSize s b) a := by
  simp only [expandSliceToSize, List.append_assoc, List.length_append, List.length_replicate,
    List.append_replicate_replicate]
  congr 2
  push_cast
  omega

theorem expandSliceToSize_self (s : List Value) (a : Int) :
    expandSliceToSize (expandSliceToSize s a) a = expandSliceToSize s a := by
  simp only [expandSliceToSize, List.append_assoc, List.length_append, List.length_replicate,
    List.append_replicate_replicate]
  congr 2
  push_cast
  omega

theorem inBounds_expand (s : List Value) (i j : Int) :
    (0 ≤ j ∧ j < (expandSliceToSize (expandSliceToSize s (wrapInt (i + 1)))
        (wrapInt (j + 1))).length)
      ↔ (0 ≤ j ∧ j < (expandSliceToSize s (wrapInt (j + 1))).length) := by
  have hi := wrapInt_le (i + 1)
  have hj := wrapInt_le (j + 1)
  simp only [length_expandSliceToSize]
  by_cases h0 : 0 ≤ j
  · by_cases h1 : j < maxInt
    · rw [wrapInt_succ j h0 h1]
      constructor <;> intro _ <;> refine ⟨h0, ?_⟩ <;> push_cast <;> omega
    · constructor <;> rintro ⟨_, h⟩ <;> refine ⟨h0, ?_⟩ <;> push_cast at h ⊢ <;> omega
  · constructor <;> rintro ⟨h, _⟩ <;> exact absurd h h0

/-- Two merges at different indices of one slice, in normal form. -/
theorem slice_two (s : List Value) (i j : Int) (hij : i ≠ j) (A B : Value → Option Value) :
    ((if 0 ≤ i ∧ i < (expandSliceToSize s (wrapInt (i + 1))).length then
        (A ((expandSliceToSize s (wrapInt (i + 1))).getD i.toNat Value.null)).map
          (fun c => Value.array ((expandSliceToSize s (wrapInt (i + 1))).set i.toNat c))
      else none).bind (fun t' => (optSlice t').bind (fun s' =>
        if 0 ≤ j ∧ j < (expandSliceToSize s' (wrapInt (j + 1))).length then
          (B ((expandSliceToSize s' (wrapInt (j + 1))).getD j.toNat Value.null)).map
            (fun d => Value.array ((expandSliceToSize s' (wrapInt (j + 1))).set j.toNat d))
        else none)))
      = if (0 ≤ i ∧ i < (expandSliceToSize s (wrapInt (i + 1))).length)
          ∧ (0 ≤ j ∧ j < (expandSliceToSize s (wrapInt (j + 1))).length) then
          (A (s.getD i.toNat Value.null)).bind (fun c =>
            (B (s.getD j.toNat Value.null)).map (fun d =>
              Value.array (((expandSliceToSize (expandSliceToSize s (wrapInt (i + 1)))
                (wrapInt (j + 1))).set i.toNat c).set j.toNat d)))
        else none := by
  by_cases hi : 0 ≤ i ∧ i < (expandSliceToSize s (wrapInt (i + 1))).length
  · simp only [hi, and_self, if_true, true_and, getD_expandSliceToSize]
    cases hA : A (s.getD i.toNat Value.null) with
    | none => simp
    | some c =>
      have hlt : i.toNat < (expandSliceToSize s (wrapInt (i + 1))).length := by omega
      simp only [Option.map_some', Option.some_bind, optSlice,
        expandSliceToSize_set _ _ _ _ hlt, List.length_set, inBounds_expand s i j]
      by_cases hj : 0 ≤ j ∧ j < (expandSliceToSize s (wrapInt (j + 1))).length
      · have hne : i.toNat ≠ j.toNat := by omega
        simp only [hj, and_self, if_true]
        rw [List.getD_eq_getElem?_getD, List.getElem?_set_ne hne, ← List.getD_eq_getElem?_getD,
          getD_expandSliceToSize]
      · simp [hj]
  · simp [hi]

theorem slice_comm (s : List Value) (i j : Int) (hij : i ≠ j) (A B : Value → Option Value) :
    ((if 0 ≤ i ∧ i < (expandSliceToSize s (wrapInt (i + 1))).length then
        (A ((expandSliceToSize s (wrapInt (i + 1))).getD i.toNat Value.null)).map
          (fun c => Value.array ((expandSliceToSize s (wrapInt (i + 1))).set i.toNat c))
      else none).bind (fun t' => (optSlice t').bind (fun s' =>
        if 0 ≤ j ∧ j < (expandSliceToSize s' (wrapInt (j + 1))).length then
          (B ((expandSliceToSize s' (wrapInt (j + 1))).getD j.toNat Value.null)).map
            (fun d => Value.array ((expandSliceToSize s' (wrapInt (j + 1))).set j.toNat d))
        else none)))
      = ((if 0 ≤ j ∧ j < (expandSliceToSize s (wrapInt (j + 1))).length then
        (B ((expandSliceToSize s (wrapInt (j + 1))).getD j.toNat Value.null)).map
          (fun d => Value.array ((expandSliceToSize s (wrapInt (j + 1))).set j.toNat d))
      else none).bind (fun t' => (optSlice t').bind (fun s' =>
        if 0 ≤ i ∧ i < (expandSliceToSize s' (wrapInt (i + 1))).length then
          (A ((expandSliceToSize s' (wrapInt (i + 1))).getD i.toNat Value.null)).map
            (fun c => Value.array ((expandSliceToSize s' (wrapInt (i + 1))).set i.toNat c))
        else none))) := by
  rw [slice_two s i j hij A B, slice_two s j i (Ne.symm hij) B A]
  by_cases hi : 0 ≤ i ∧ i < (expandSliceToSize s (wrapInt (i + 1))).length
  · by_cases hj : 0 ≤ j ∧ j < (expandSliceToSize s (wrapInt (j + 1))).length
    · have hne : i.toNat ≠ j.toNat := by omega
      simp only [hi, hj, and_self, if_true]
      rw [expandSliceToSize_comm s (wrapInt (j + 1)) (wrapInt (i + 1))]
      cases A (s.getD i.toNat Value.null) with
      | none => cases B (s.getD j.toNat Value.null) <;> simp
      | some c =>
        cases B (s.getD j.toNat Value.null) with
        | none => simp
        | some d => simp [List.set_comm c d _ hne]
    · simp [hj]
  · simp [hi]

/-! ## Merges of two independent paths commute -/

theorem object_then_str_same (m : GoMap) (k : GoString) (qs : List KeyPart) (y : Value)
    (A : Option Value) :
    (A.map (fun c => Value.object (mapAssign m k c))).bind (merge (KeyPart.str k :: qs) y)
      = (A.bind (mergeChild qs y)).map (fun d => Value.object (mapAssign m k d)) := by
  cases A with
  | none => rfl
  | some c =>
    simp only [Option.map_some', Option.some_bind, merge_str, optMap, mapIndex_mapAssign_self,
      mapAssign_mapAssign_self]

theorem object_then_str_ne (m : GoMap) (k k' : GoString) (hne : k ≠ k') (qs : List KeyPart)
    (y : Value) (A : Option Value) :
    (A.map (fun c => Value.object (mapAssign m k c))).bind (merge (KeyPart.str k' :: qs) y)
      = A.bind (fun c => (mergeChild qs y (mapIndex m k')).map
          (fun d => Value.object (mapAssign (mapAssign m k c) k' d))) := by
  cases A with
  | none => rfl
  | some c =>
    simp only [Option.map_some', Option.some_bind, merge_str, optMap,
      mapIndex_mapAssign_ne k' k c m (Ne.symm hne)]

theorem object_then_int (F : Value → GoMap) (j : Int) (qs : List KeyPart) (y : Value)
    (A : Option Value) :
    (A.map (fun c => Value.object (F c))).bind (merge (KeyPart.int j :: qs) y) = none := by
  cases A with
  | none => rfl
  | some c => simp only [Option.map_some', Option.some_bind, merge_int, optSlice, Option.none_bind]

theorem array_then_str (b : Prop) [Decidable b] (F : Value → List Value) (k : GoString)
    (qs : List KeyPart) (y : Value) (A : Option Value) :
    (if b then A.map (fun c => Value.array (F c)) else none).bind
      (merge (KeyPart.str k :: qs) y) = none := by
  by_cases h : b
  · cases A with
    | none => simp [h]
    | some c => simp only [h, if_true, Option.map_some', Option.some_bind, merge_str, optMap,
        Option.none_bind]
  · simp [h]

theorem array_then_int_same (s : List Value) (i : Int) (qs : List KeyPart) (y : Value)
    (A : Option Value) :
    (if 0 ≤ i ∧ i < (expandSliceToSize s (wrapInt (i + 1))).length then
        A.map (fun c => Value.array ((expandSliceToSize s (wrapInt (i + 1))).set i.toNat c))
      else none).bind (merge (KeyPart.int i :: qs) y)
      = if 0 ≤ i ∧ i < (expandSliceToSize s (wrapInt (i + 1))).length then
          (A.bind (mergeChild qs y)).map
            (fun d => Value.array ((expandSliceToSize s (wrapInt (i + 1))).set i.toNat d))
        else none := by
  by_cases hi : 0 ≤ i ∧ i < (expandSliceToSize s (wrapInt (i + 1))).length
  · have hlt : i.toNat < (expandSliceToSize s (wrapInt (i + 1))).length := by omega
    cases A with
    | none => simp [hi]
    | some c =>
      simp only [hi, and_self, if_true, Option.map_some', Option.some_bind, merge_int, optSlice,
        expandSliceToSize_set _ _ _ _ hlt, expandSliceToSize_self, List.length_set,
        List.set_set]
      rw [List.getD_eq_getElem?_getD, List.getElem?_set_self hlt]
      rfl
  · simp [hi]

theorem not_prefix_cons {a : KeyPart} {ps qs : List KeyPart} (h : ¬ (a :: ps) <+: (a :: qs)) :
    ¬ ps <+: qs := by
  intro h'
  exact h (List.cons_prefix_cons.2 ⟨rfl, h'⟩)

theorem merge_comm : ∀ (p q : List KeyPart), ¬ p <+: q → ¬ q <+: p → ∀ (x y t : Value),
    (merge p x t).bind (merge q y) = (merge q y t).bind (merge p x)
  | [], _, h, _, _, _, _ => absurd List.nil_prefix h
  | _ :: _, [], _, h, _, _, _ => absurd List.nil_prefix h
  | KeyPart.str k :: ps, KeyPart.int j :: qs, _, _, x, y, t => by
    rw [merge_str, merge_int]
    cases optMap t <;> cases optSlice t <;>
      simp only [Option.some_bind, Option.none_bind, object_then_int, array_then_str]
  | KeyPart.int i :: ps, KeyPart.str k :: qs, _, _, x, y, t => by
    rw [merge_str, merge_int]
    cases optMap t <;> cases optSlice t <;>
      simp only [Option.some_bind, Option.none_bind, object_then_int, array_then_str]
  | KeyPart.str k :: ps, KeyPart.str k' :: qs, hpq, hqp, x, y, t => by
    rw [merge_str k ps, merge_str k' qs]
    cases optMap t with
    | none => rfl
    | some m =>
      simp only [Option.some_bind]
      by_cases hk : k = k'
      · subst hk
        rw [object_then_str_same, object_then_str_same]
        have h1 := not_prefix_cons hpq
        have h2 := not_prefix_cons hqp
        cases ps with
        | nil => exact absurd List.nil_prefix h1
        | cons a ps' =>
          cases qs with
          | nil => exact absurd List.nil_prefix h2
          | cons b qs' =>
            have ih := merge_comm (a :: ps') (b :: qs') h1 h2 x y (mapIndex m k)
            simp only [mergeChild]
            show Option.map _ ((merge (a :: ps') x (mapIndex m k)).bind (merge (b :: qs') y))
              = Option.map _ ((merge (b :: qs') y (mapIndex m k)).bind (merge (a :: ps') x))
            rw [ih]
      · rw [object_then_str_ne m k k' hk, object_then_str_ne m k' k (Ne.symm hk)]
        cases mergeChild ps x (mapIndex m k) with
        | none => cases mergeChild qs y (mapIndex m k') <;> rfl
        | some c =>
          cases mergeChild qs y (mapIndex m k') with
          | none => rfl
          | some d =>
            simp only [Option.some_bind, Option.map_some', mapAssign_comm k k' c d m hk]
  | KeyPart.int i :: ps, KeyPart.int j :: qs, hpq, hqp, x, y, t => by
    rw [merge_int i ps, merge_int j qs]
    cases optSlice t with
    | none => rfl
    | some s =>
      simp only [Option.some_bind]
      by_cases hij : i = j
      · subst hij
        rw [array_then_int_same, array_then_int_same]
        have h1 := not_prefix_cons hpq
        have h2 := not_prefix_cons hqp
        cases ps with
        | nil => exact absurd List.nil_prefix h1
        | cons a ps' =>
          cases qs with
          | nil => exact absurd List.nil_prefix h2
          | cons b qs' =>
            have ih := merge_comm (a :: ps') (b :: qs') h1 h2 x y
              ((expandSliceToSize s (wrapInt (i + 1))).getD i.toNat Value.null)
            simp only [mergeChild]
            show (if _ then Option.map _ ((merge (a :: ps') x _).bind (merge (b :: qs') y))
                else none)
              = (if _ then Option.map _ ((merge (b :: qs') y _).bind (merge (a :: ps') x))
                else none)
            rw [ih]
      · have e1 : merge (KeyPart.int j :: qs) y = fun t' => _ :=
          funext (merge_int j qs y)
        have e2 : merge (KeyPart.int i :: ps) x = fun t' => _ :=
          funext (merge_int i ps x)
        rw [e1, e2]
        exact slice_comm s i j hij (mergeChild ps x) (mergeChild qs y)

/-! ## Order of the entries -/

theorem foldl_mergeEntry_none (m : GoMap) : m.foldl mergeEntry none = none := by
  induction m with
  | nil => rfl
  | cons e m ih => simpa [List.foldl_cons, mergeEntry] using ih

theorem returnedValue_unflattenLoop (m : GoMap) :
    ∀ t, returnedValue (unflattenLoop m t) = m.foldl mergeEntry (some t) := by
  induction m with
  | nil => intro t; rfl
  | cons e m ih =>
    intro t
    obtain ⟨k, v⟩ := e
    rw [List.foldl_cons]
    cases hk : splitFlatKey k with
    | error err =>
      rw [unflattenLoop_cons_error _ _ _ _ _ hk]
      simp [mergeEntry, hk, foldl_mergeEntry_none, returnedValue]
    | ok ps =>
      cases hu : unflatten ps v t with
      | error p =>
        rw [unflattenLoop_cons_panic _ _ _ _ _ _ hk hu]
        simp [mergeEntry, hk, merge, hu, foldl_mergeEntry_none, returnedValue]
      | ok t' =>
        rw [unflattenLoop_cons_ok _ _ _ _ _ _ hk hu, ih t']
        simp [mergeEntry, hk, merge, hu]

theorem mergeEntry_comm (a b : GoString × Value) (h : IndependentKeys a.1 b.1)
    (z : Option Value) :
    mergeEntry (mergeEntry z a) b = mergeEntry (mergeEntry z b) a := by
  cases z with
  | none => rfl
  | some t =>
    cases ha : splitFlatKey a.1 with
    | error e1 =>
      have e : ∀ r, mergeEntry r a = none := by
        intro r
        cases r <;> simp [mergeEntry, ha]
      rw [e, e]
      rfl
    | ok p =>
      cases hb : splitFlatKey b.1 with
      | error e2 =>
        have e : ∀ r, mergeEntry r b = none := by
          intro r
          cases r <;> simp [mergeEntry, hb]
        rw [e, e]
        rfl
      | ok q =>
        obtain ⟨h1, h2⟩ := h p q ha hb
        have ea : ∀ r, mergeEntry r a = r.bind (merge p a.2) := by
          intro r
          cases r <;> simp [mergeEntry, ha]
        have eb : ∀ r, mergeEntry r b = r.bind (merge q b.2) := by
          intro r
          cases r <;> simp [mergeEntry, hb]
        rw [ea, eb, eb, ea]
        exact merge_comm p q h1 h2 a.2 b.2 t

theorem independentKeys_symm :
    Symmetric (fun a b : GoString × Value => IndependentKeys a.1 b.1) := by
  intro a b h p q hp hq
  exact (h q p hq hp).symm

theorem foldl_mergeEntry_perm (m m' : GoMap) (hperm : m.Perm m')
    (hind : m.Pairwise (fun a b => IndependentKeys a.1 b.1)) (z : Option Value) :
    m.foldl mergeEntry z = m'.foldl mergeEntry z := by
  apply List.Perm.foldl_eq' hperm
  intro a ha b hb z
  by_cases hab : a = b
  · rw [hab]
  · exact mergeEntry_comm a b (hind.forall independentKeys_symm ha hb hab) z

theorem returnedValue_Unflatten_perm (m m' : GoMap) (hperm : m.Perm m')
    (hind : m.Pairwise (fun a b => IndependentKeys a.1 b.1)) :
    returnedValue (Unflatten m) = returnedValue (Unflatten m') := by
  by_cases hm : m = []
  · subst hm
    rw [List.nil_perm.1 hperm]
  · have hm' : m' ≠ [] := by
      rintro rfl
      exact hm (List.perm_nil.1 hperm)
    rw [Unflatten_of_ne_nil m hm, Unflatten_of_ne_nil m' hm', returnedValue_unflattenLoop,
      returnedValue_unflattenLoop]
    exact foldl_mergeEntry_perm m m' hperm hind _

/-- C2 (amended): for every map in which no key decodes to a path that is a
prefix of (or equal to) the path of another key, any two orders in which
`Unflatten` processes the entries have the same outcome: the same returned
value, or both fail. -/
theorem order_independence (m m' : GoMap) (hperm : m.Perm m')
    (hind : m.Pairwise (fun a b => IndependentKeys a.1 b.1)) :
    SameOutcome (Unflatten m) (Unflatten m') :=
  returnedValue_Unflatten_perm m m' hperm hind

/-- Witness of C2: the entries `a.b` and `a.d[0]` in both orders. -/
theorem order_independence_witness :
    SameOutcome
      (Unflatten [("a.b".toList, Value.number 1), ("a.d[0]".toList, Value.bool false)])
      (Unflatten [("a.d[0]".toList, Value.bool false), ("a.b".toList, Value.number 1)]) :=
  order_independence _ _ (List.Perm.swap _ _ _)
    (by
      refine List.pairwise_pair.2 ?_
      intro p q hp hq
      have e1 : splitFlatKey "a.b".toList
          = Except.ok [KeyPart.str "a".toList, KeyPart.str "b".toList] := by decide
      have e2 : splitFlatKey "a.d[0]".toList
          = Except.ok [KeyPart.str "a".toList, KeyPart.str "d".toList, KeyPart.int 0] := by
        decide
      rw [e1] at hp
      rw [e2] at hq
      cases hp
      cases hq
      decide)

/-- Counterexample to C2 as stated: the map `{"a": nil, "a.b": 2}` unflattens
to `{"a": {"b": 2}}` when `a` is processed first and to `{"a": nil}` when
`a.b` is processed first. -/
theorem order_independence_counterexample :
    List.Perm [("a".toList, Value.null), ("a.b".toList, Value.number 2)]
        [("a.b".toList, Value.number 2), ("a".toList, Value.null)]
      ∧ Unflatten [("a".toList, Value.null), ("a.b".toList, Value.number 2)]
          = Except.ok (Value.object [("a".toList, Value.object [("b".toList, Value.number 2)])],
              none)
      ∧ Unflatten [("a.b".toList, Value.number 2), ("a".toList, Value.null)]
          = Except.ok (Value.object [("a".toList, Value.null)], none)
      ∧ ¬ SameOutcome (Unflatten [("a".toList, Value.null), ("a.b".toList, Value.number 2)])
          (Unflatten [("a.b".toList, Value.number 2), ("a".toList, Value.null)]) :=
  ⟨List.Perm.swap _ _ _, by decide, by decide, by decide⟩

/-! ## What `flatten` writes -/

theorem foldl_map_entries {β : Type} (f : β → GoString → Value → β) (g : List KeyPart → List KeyPart)
    (h : List KeyPart → GoString) (h' : List KeyPart → GoString)
    (hg : ∀ p, h (g p) = h' p) (es : List (List KeyPart × Value)) :
    ∀ r : β, (es.map (fun e => (g e.1, e.2))).foldl (fun r e => f r (h e.1) e.2) r
      = es.foldl (fun r e => f r (h' e.1) e.2) r := by
  induction es with
  | nil => intro r; rfl
  | cons e es ih =>
    intro r
    simp only [List.map_cons, List.foldl_cons, hg]
    exact ih _

mutual
theorem flatten_eq : ∀ (v : Value) (key : GoString) (result : GoMap), key ≠ [] →
    allNames goodName v = true →
    flatten v key result
      = (leafEntries v).foldl (fun r e => mapAssign r (encodeFrom key e.1) e.2) result
  | Value.null, key, result, _, _ => rfl
  | Value.bool _, key, result, _, _ => rfl
  | Value.number _, key, result, _, _ => rfl
  | Value.str _, key, result, _, _ => rfl
  | Value.object fields, key, result, hk, hn => by
    rw [flatten, leafEntries]
    cases fields with
    | nil => simp [hk, flattenFields, encodeFrom]
    | cons f fs =>
      have h := flattenFields_eq (f :: fs) key result (by simpa [allNames] using hn)
      simpa using h
  | Value.array elems, key, result, hk, hn => by
    rw [flatten, leafEntries]
    cases elems with
    | nil => simp [hk, flattenElems, encodeFrom]
    | cons x xs =>
      have h := flattenElems_eq (x :: xs) 0 key result (by simpa [allNames] using hn)
      simpa using h
theorem flattenFields_eq : ∀ (fs : List (GoString × Value)) (key : GoString) (result : GoMap),
    allNamesFields goodName fs = true →
    flattenFields fs key result
      = (fieldEntries fs).foldl (fun r e => mapAssign r (encodeFrom key e.1) e.2) result
  | [], key, result, _ => rfl
  | (k, c) :: rest, key, result, hn => by
    simp only [allNamesFields, Bool.and_eq_true] at hn
    obtain ⟨⟨hk, hc⟩, hrest⟩ := hn
    have hne : getFlattenedNestedKey key k ≠ [] := by
      have hk' := (goodName_spec hk).1
      unfold getFlattenedNestedKey
      split
      · exact hk'
      · simp
    rw [flattenFields, fieldEntries, List.foldl_append,
      flatten_eq c (getFlattenedNestedKey key k) result hne hc,
      flattenFields_eq rest key _ hrest]
    congr 1
    exact (foldl_map_entries (fun r k v => mapAssign r k v) (fun p => KeyPart.str k :: p)
      (encodeFrom key) (encodeFrom (getFlattenedNestedKey key k)) (fun _ => rfl)
      (leafEntries c) result).symm
theorem flattenElems_eq : ∀ (xs : List Value) (index : Nat) (key : GoString) (result : GoMap),
    allNamesElems goodName xs = true →
    flattenElems xs index key result
      = (elemEntries xs index).foldl (fun r e => mapAssign r (encodeFrom key e.1) e.2) result
  | [], _, key, result, _ => rfl
  | c :: rest, index, key, result, hn => by
    simp only [allNamesElems, Bool.and_eq_true] at hn
    obtain ⟨hc, hrest⟩ := hn
    have hne : getFlattenedSliceKey key index ≠ [] := by simp [getFlattenedSliceKey]
    rw [flattenElems, elemEntries, List.foldl_append,
      flatten_eq c (getFlattenedSliceKey key index) result hne hc,
      flattenElems_eq rest (index + 1) key _ hrest]
    congr 1
    exact (foldl_map_entries (fun r k v => mapAssign r k v) (fun p => KeyPart.int index :: p)
      (encodeFrom key) (encodeFrom (getFlattenedSliceKey key index)) (fun _ => rfl)
      (leafEntries c) result).symm
end

theorem Flatten_eq (v : Value) (hroot : isContainer v = true) (hn : allNames goodName v = true) :
    Flatten v = (rootEntries v).foldl (fun r e => mapAssign r (encode e.1) e.2) [] := by
  cases v with
  | object fields =>
    have h := flattenFields_eq fields [] [] (by simpa [allNames] using hn)
    simpa [Flatten, flatten, rootEntries, encode] using h
  | array elems =>
    have h := flattenElems_eq elems 0 [] [] (by simpa [allNames] using hn)
    simpa [Flatten, flatten, rootEntries, encode] using h
  | null => simp [isContainer] at hroot
  | bool _ => simp [isContainer] at hroot
  | number _ => simp [isContainer] at hroot
  | str _ => simp [isContainer] at hroot

/-! ## The leaves of a value -/

theorem fieldEntries_head (fs : List (GoString × Value)) :
    ∀ e ∈ fieldEntries fs, ∃ k p, e.1 = KeyPart.str k :: p ∧ mapHas k fs = true := by
  induction fs with
  | nil => intro e he; simp [fieldEntries] at he
  | cons f rest ih =>
    obtain ⟨k, c⟩ := f
    intro e he
    simp only [fieldEntries, List.mem_append, List.mem_map] at he
    rcases he with ⟨e', _, rfl⟩ | he
    · exact ⟨k, e'.1, rfl, by simp [mapHas]⟩
    · obtain ⟨k', p, h1, h2⟩ := ih e he
      exact ⟨k', p, h1, by simp [mapHas, h2]⟩

theorem elemEntries_head (xs : List Value) :
    ∀ (i : Nat), ∀ e ∈ elemEntries xs i,
      ∃ (j : Nat) (p : List KeyPart), e.1 = KeyPart.int (j : Int) :: p ∧ i ≤ j ∧ j < i + xs.length := by
  induction xs with
  | nil => intro i e he; simp [elemEntries] at he
  | cons c rest ih =>
    intro i e he
    simp only [elemEntries, List.mem_append, List.mem_map] at he
    rcases he with ⟨e', _, rfl⟩ | he
    · exact ⟨i, e'.1, rfl, le_refl _, by simp⟩
    · obtain ⟨j, p, h1, h2, h3⟩ := ih (i + 1) e he
      exact ⟨j, p, h1, by omega, by simp only [List.length_cons]; omega⟩

theorem independent_map_cons (a : KeyPart) (es : List (List KeyPart × Value))
    (h : es.Pairwise IndependentPaths) :
    (es.map (fun e => (a :: e.1, e.2))).Pairwise IndependentPaths := by
  rw [List.pairwise_map]
  refine h.imp ?_
  intro x y hxy
  simp only [IndependentPaths, List.cons_prefix_cons, true_and]
  exact hxy

theorem independent_of_head_ne {a b : KeyPart} {p q : List KeyPart} {x y : Value}
    (h : a ≠ b) : IndependentPaths (a :: p, x) (b :: q, y) := by
  simp only [IndependentPaths, List.cons_prefix_cons, not_and]
  exact ⟨fun e => absurd e h, fun e => absurd e.symm h⟩

mutual
theorem leafEntries_independent : ∀ (v : Value), isGoValue v = true →
    (leafEntries v).Pairwise IndependentPaths
  | Value.null, _ => by simp [leafEntries]
  | Value.bool _, _ => by simp [leafEntries]
  | Value.number _, _ => by simp [leafEntries]
  | Value.str _, _ => by simp [leafEntries]
  | Value.object fields, h => by
    rw [leafEntries]
    split
    · simp
    · exact fieldEntries_independent fields (by simpa [isGoValue] using h)
  | Value.array elems, h => by
    rw [leafEntries]
    split
    · simp
    · exact elemEntries_independent elems 0 (by simp [isGoValue] at h; exact h.2)
theorem fieldEntries_independent : ∀ (fs : List (GoString × Value)), isGoFields fs = true →
    (fieldEntries fs).Pairwise IndependentPaths
  | [], _ => by simp [fieldEntries]
  | (k, c) :: rest, h => by
    simp only [isGoFields, Bool.and_eq_true, Bool.not_eq_true'] at h
    obtain ⟨⟨hk, hc⟩, hrest⟩ := h
    rw [fieldEntries, List.pairwise_append]
    refine ⟨independent_map_cons _ _ (leafEntries_independent c hc),
      fieldEntries_independent rest hrest, ?_⟩
    intro a ha b hb
    obtain ⟨e, _, rfl⟩ := List.mem_map.1 ha
    obtain ⟨k', p, hb1, hb2⟩ := fieldEntries_head rest b hb
    obtain ⟨b1, b2⟩ := b
    simp only at hb1
    subst hb1
    apply independent_of_head_ne
    intro e'
    cases e'
    rw [hk] at hb2
    cases hb2
theorem elemEntries_independent : ∀ (xs : List Value) (i : Nat), isGoElems xs = true →
    (elemEntries xs i).Pairwise IndependentPaths
  | [], _, _ => by simp [elemEntries]
  | c :: rest, i, h => by
    simp only [isGoElems, Bool.and_eq_true] at h
    obtain ⟨hc, hrest⟩ := h
    rw [elemEntries, List.pairwise_append]
    refine ⟨independent_map_cons _ _ (leafEntries_independent c hc),
      elemEntries_independent rest (i + 1) hrest, ?_⟩
    intro a ha b hb
    obtain ⟨e, _, rfl⟩ := List.mem_map.1 ha
    obtain ⟨j, p, hb1, hb2, _⟩ := elemEntries_head rest (i + 1) b hb
    obtain ⟨b1, b2⟩ := b
    simp only at hb1
    subst hb1
    apply independent_of_head_ne
    intro e'
    cases e'
    omega
end

mutual
theorem leafEntries_good : ∀ (v : Value), allNames goodName v = true → isGoValue v = true →
    ∀ e ∈ leafEntries v, ∀ seg ∈ e.1, goodPart seg = true
  | Value.null, _, _ => by simp [leafEntries]
  | Value.bool _, _, _ => by simp [leafEntries]
  | Value.number _, _, _ => by simp [leafEntries]
  | Value.str _, _, _ => by simp [leafEntries]
  | Value.object fields, hn, h => by
    rw [leafEntries]
    split
    · simp
    · exact fieldEntries_good fields (by simpa [allNames] using hn) (by simpa [isGoValue] using h)
  | Value.array elems, hn, h => by
    rw [leafEntries]
    split
    · simp
    · simp only [isGoValue, Bool.and_eq_true, decide_eq_true_eq] at h
      exact elemEntries_good elems 0 (by simpa [allNames] using hn) h.2
        (by push_cast; omega)
theorem fieldEntries_good : ∀ (fs : List (GoString × Value)),
    allNamesFields goodName fs = true → isGoFields fs = true →
    ∀ e ∈ fieldEntries fs, ∀ seg ∈ e.1, goodPart seg = true
  | [], _, _ => by simp [fieldEntries]
  | (k, c) :: rest, hn, h => by
    simp only [isGoFields, Bool.and_eq_true, Bool.not_eq_true'] at h
    simp only [allNamesFields, Bool.and_eq_true] at hn
    intro e he seg hseg
    simp only [fieldEntries, List.mem_append, List.mem_map] at he
    rcases he with ⟨e', he', rfl⟩ | he
    · rcases List.mem_cons.1 hseg with rfl | hseg
      · exact hn.1.1
      · exact leafEntries_good c hn.1.2 h.1.2 e' he' seg hseg
    · exact fieldEntries_good rest hn.2 h.2 e he seg hseg
theorem elemEntries_good : ∀ (xs : List Value) (i : Nat),
    allNamesElems goodName xs = true → isGoElems xs = true →
    ((i : Int) + xs.length ≤ maxInt + 1) →
    ∀ e ∈ elemEntries xs i, ∀ seg ∈ e.1, goodPart seg = true
  | [], _, _, _, _ => by simp [elemEntries]
  | c :: rest, i, hn, h, hlen => by
    simp only [isGoElems, Bool.and_eq_true] at h
    simp only [allNamesElems, Bool.and_eq_true] at hn
    simp only [List.length_cons] at hlen
    intro e he seg hseg
    simp only [elemEntries, List.mem_append, List.mem_map] at he
    rcases he with ⟨e', he', rfl⟩ | he
    · rcases List.mem_cons.1 hseg with rfl | hseg
      · simp only [goodPart, decide_eq_true_eq, minInt]
        constructor <;> push_cast at hlen <;> omega
      · exact leafEntries_good c hn.1 h.1 e' he' seg hseg
    · exact elemEntries_good rest (i + 1) hn.2 h.2 (by push_cast at hlen ⊢; omega) e he seg hseg
end

theorem rootEntries_independent (v : Value) (h : isGoValue v = true) :
    (rootEntries v).Pairwise IndependentPaths := by
  cases v with
  | object fields => exact fieldEntries_independent fields (by simpa [isGoValue] using h)
  | array elems =>
    exact elemEntries_independent elems 0 (by simp [isGoValue] at h; exact h.2)
  | null => simp [rootEntries]
  | bool _ => simp [rootEntries]
  | number _ => simp [rootEntries]
  | str _ => simp [rootEntries]

theorem rootEntries_good (v : Value) (hn : allNames goodName v = true)
    (h : isGoValue v = true) : ∀ e ∈ rootEntries v, ∀ seg ∈ e.1, goodPart seg = true := by
  cases v with
  | object fields =>
    exact fieldEntries_good fields (by simpa [allNames] using hn) (by simpa [isGoValue] using h)
  | array elems =>
    simp only [isGoValue, Bool.and_eq_true, decide_eq_true_eq] at h
    exact elemEntries_good elems 0 (by simpa [allNames] using hn) h.2 (by push_cast; omega)
  | null => simp [rootEntries]
  | bool _ => simp [rootEntries]
  | number _ => simp [rootEntries]
  | str _ => simp [rootEntries]

/-! ## Leaves and positions -/

theorem mapLookup_isSome_mapHas {k : GoString} {m : GoMap} {c : Value}
    (h : mapLookup k m = some c) : mapHas k m = true := by
  rw [mapHas_eq_isSome, h]
  rfl

theorem mem_singleton_leaf (v : Value) (hv : isLeaf v = true)
    (hat : ∀ a q, valueAt v (a :: q) = none) (p : List KeyPart) (x : Value) :
    (p, x) ∈ [(([] : List KeyPart), v)] ↔ valueAt v p = some x ∧ isLeaf x = true := by
  cases p with
  | nil =>
    simp only [List.mem_singleton, Prod.mk.injEq, true_and, valueAt, Option.some.injEq]
    constructor
    · rintro rfl; exact ⟨rfl, hv⟩
    · rintro ⟨rfl, _⟩; rfl
  | cons a q => simp [hat]

mutual
theorem mem_leafEntries : ∀ (v : Value), isGoValue v = true → ∀ (p : List KeyPart) (x : Value),
    (p, x) ∈ leafEntries v ↔ valueAt v p = some x ∧ isLeaf x = true
  | Value.null, _, p, x =>
    mem_singleton_leaf (Value.null) rfl (fun a q => by cases a <;> rfl) p x
  | Value.bool b, _, p, x =>
    mem_singleton_leaf (Value.bool b) rfl (fun a q => by cases a <;> rfl) p x
  | Value.number n, _, p, x =>
    mem_singleton_leaf (Value.number n) rfl (fun a q => by cases a <;> rfl) p x
  | Value.str s, _, p, x =>
    mem_singleton_leaf (Value.str s) rfl (fun a q => by cases a <;> rfl) p x
  | Value.object fields, h, p, x => by
    have hf : isGoFields fields = true := by simpa [isGoValue] using h
    have ih := mem_fieldEntries fields hf p x
    cases fields with
    | nil => exact mem_singleton_leaf (Value.object []) rfl (fun a q => by cases a <;> rfl) p x
    | cons f fs =>
      rw [leafEntries]
      simp only [List.isEmpty_cons, Bool.false_eq_true, if_false]
      rw [ih]
      cases p with
      | nil =>
        simp only [valueAt, Option.some.injEq]
        constructor
        · rintro ⟨k, rest, c, hp, _⟩; cases hp
        · rintro ⟨rfl, hl⟩; simp [isLeaf] at hl
      | cons a q =>
        cases a with
        | int i =>
          simp only [valueAt, reduceCtorEq, false_and, iff_false, not_exists, not_and]
          intro k rest c hp
          cases hp
        | str k =>
          simp only [valueAt]
          constructor
          · rintro ⟨k', rest, c, hp, hl, hv, hx⟩
            cases hp
            rw [hl]
            exact ⟨hv, hx⟩
          · intro ⟨hv, hx⟩
            cases hl : mapLookup k (f :: fs) with
            | none => rw [hl] at hv; cases hv
            | some c =>
              rw [hl] at hv
              exact ⟨k, q, c, rfl, hl, hv, hx⟩
  | Value.array elems, h, p, x => by
    have hf : isGoElems elems = true := by simp [isGoValue] at h; exact h.2
    have ih := mem_elemEntries elems 0 hf p x
    cases elems with
    | nil =>
      exact mem_singleton_leaf (Value.array []) rfl
        (fun a q => by cases a <;> simp [valueAt]) p x
    | cons f fs =>
      rw [leafEntries]
      simp only [List.isEmpty_cons, Bool.false_eq_true, if_false]
      rw [ih]
      cases p with
      | nil =>
        simp only [valueAt, Option.some.injEq]
        constructor
        · rintro ⟨j, rest, c, hp, _⟩; cases hp
        · rintro ⟨rfl, hl⟩; simp [isLeaf] at hl
      | cons a q =>
        cases a with
        | str k =>
          simp only [valueAt, reduceCtorEq, false_and, iff_false, not_exists, not_and]
          intro j rest c hp
          cases hp
        | int i =>
          simp only [valueAt]
          constructor
          · rintro ⟨j, rest, c, hp, hl, hv, hx⟩
            cases hp
            have h0 : (0 : Int) ≤ ((0 + j : Nat) : Int) := by omega
            simp only [h0, if_true, Int.toNat_ofNat, Nat.zero_add, hl]
            exact ⟨hv, hx⟩
          · intro ⟨hv, hx⟩
            by_cases h0 : 0 ≤ i
            · simp only [h0, if_true] at hv
              cases hl : (f :: fs)[i.toNat]? with
              | none => rw [hl] at hv; cases hv
              | some c =>
                rw [hl] at hv
                have e : ((0 + i.toNat : Nat) : Int) = i := by omega
                exact ⟨i.toNat, q, c, by rw [e], hl, hv, hx⟩
            · simp [h0] at hv
theorem mem_fieldEntries : ∀ (fs : List (GoString × Value)), isGoFields fs = true →
    ∀ (p : List KeyPart) (x : Value),
    (p, x) ∈ fieldEntries fs ↔ ∃ k rest c, p = KeyPart.str k :: rest ∧ mapLookup k fs = some c
      ∧ valueAt c rest = some x ∧ isLeaf x = true
  | [], _, p, x => by simp [fieldEntries, mapLookup]
  | (k, c) :: rest, h, p, x => by
    simp only [isGoFields, Bool.and_eq_true, Bool.not_eq_true'] at h
    obtain ⟨⟨hk, hc⟩, hrest⟩ := h
    have ih1 := mem_leafEntries c hc
    have ih2 := mem_fieldEntries rest hrest p x
    simp only [fieldEntries, List.mem_append, List.mem_map, Prod.mk.injEq, Prod.exists]
    rw [ih2]
    constructor
    · rintro (⟨q, y, hq, rfl, rfl⟩ | ⟨k', r, c', hp, hl, hv, hx⟩)
      · exact ⟨k, q, c, rfl, by simp [mapLookup], (ih1 q y).1 hq⟩
      · refine ⟨k', r, c', hp, ?_, hv, hx⟩
        have hne : k ≠ k' := by
          rintro rfl
          rw [mapLookup_isSome_mapHas hl] at hk
          cases hk
        simp [mapLookup, hne, hl]
    · rintro ⟨k', r, c', hp, hl, hv, hx⟩
      by_cases hkk : k = k'
      · subst hkk
        simp only [mapLookup, if_true, Option.some.injEq] at hl
        subst hl
        exact Or.inl ⟨r, x, (ih1 r x).2 ⟨hv, hx⟩, hp.symm, rfl⟩
      · simp only [mapLookup, hkk, if_false] at hl
        exact Or.inr ⟨k', r, c', hp, hl, hv, hx⟩
theorem mem_elemEntries : ∀ (xs : List Value) (i : Nat), isGoElems xs = true →
    ∀ (p : List KeyPart) (x : Value),
    (p, x) ∈ elemEntries xs i ↔ ∃ (j : Nat) (rest : List KeyPart) (c : Value),
      p = KeyPart.int ((i + j : Nat) : Int) :: rest ∧ xs[j]? = some c
      ∧ valueAt c rest = some x ∧ isLeaf x = true
  | [], _, _, p, x => by simp [elemEntries]
  | c :: rest, i, h, p, x => by
    simp only [isGoElems, Bool.and_eq_true] at h
    obtain ⟨hc, hrest⟩ := h
    have ih1 := mem_leafEntries c hc
    have ih2 := mem_elemEntries rest (i + 1) hrest p x
    simp only [elemEntries, List.mem_append, List.mem_map, Prod.mk.injEq, Prod.exists]
    rw [ih2]
    constructor
    · rintro (⟨q, y, hq, rfl, rfl⟩ | ⟨j, r, c', hp, hl, hv, hx⟩)
      · exact ⟨0, q, c, rfl, by simp, (ih1 q y).1 hq⟩
      · refine ⟨j + 1, r, c', ?_, by simpa using hl, hv, hx⟩
        rw [hp]
        congr 2
        omega
    · rintro ⟨j, r, c', hp, hl, hv, hx⟩
      cases j with
      | zero =>
        simp only [List.getElem?_cons_zero, Option.some.injEq] at hl
        subst hl
        exact Or.inl ⟨r, x, (ih1 r x).2 ⟨hv, hx⟩, hp.symm, rfl⟩
      | succ j =>
        refine Or.inr ⟨j, r, c', ?_, by simpa using hl, hv, hx⟩
        rw [hp]
        congr 2
        omega
end

theorem mem_rootEntries (v : Value) (hroot : isContainer v = true) (h : isGoValue v = true)
    (p : List KeyPart) (x : Value) :
    (p, x) ∈ rootEntries v ↔ p ≠ [] ∧ valueAt v p = some x ∧ isLeaf x = true := by
  cases v with
  | null => simp [isContainer] at hroot
  | bool _ => simp [isContainer] at hroot
  | number _ => simp [isContainer] at hroot
  | str _ => simp [isContainer] at hroot
  | object fields =>
    rw [rootEntries, mem_fieldEntries fields (by simpa [isGoValue] using h)]
    constructor
    · rintro ⟨k, rest, c, rfl, hl, hv, hx⟩
      exact ⟨by simp, by simp [valueAt, hl, hv], hx⟩
    · rintro ⟨hp, hv, hx⟩
      cases p with
      | nil => exact absurd rfl hp
      | cons a q =>
        cases a with
        | int i => simp [valueAt] at hv
        | str k =>
          simp only [valueAt] at hv
          cases hl : mapLookup k fields with
          | none => rw [hl] at hv; cases hv
          | some c =>
            rw [hl] at hv
            exact ⟨k, q, c, rfl, hl, hv, hx⟩
  | array elems =>
    rw [rootEntries, mem_elemEntries elems 0 (by simp [isGoValue] at h; exact h.2)]
    constructor
    · rintro ⟨j, rest, c, rfl, hl, hv, hx⟩
      have h0 : (0 : Int) ≤ ((0 + j : Nat) : Int) := by omega
      refine ⟨by simp, ?_, hx⟩
      simp only [valueAt, h0, if_true, Int.toNat_ofNat, Nat.zero_add, hl]
      exact hv
    · rintro ⟨hp, hv, hx⟩
      cases p with
      | nil => exact absurd rfl hp
      | cons a q =>
        cases a with
        | str k => simp [valueAt] at hv
        | int i =>
          simp only [valueAt] at hv
          by_cases h0 : 0 ≤ i
          · simp only [h0, if_true] at hv
            cases hl : elems[i.toNat]? with
            | none => rw [hl] at hv; cases hv
            | some c =>
              rw [hl] at hv
              have e : ((0 + i.toNat : Nat) : Int) = i := by omega
              exact ⟨i.toNat, q, c, by rw [e], hl, hv, hx⟩
          · simp [h0] at hv

/-! ## The entries of `Flatten` -/

theorem plainName_goodName (name : GoString) (h : plainName name = true) :
    goodName name = true := by
  simp only [plainName, Bool.and_eq_true, decide_eq_true_eq, Bool.not_eq_true',
    List.contains_eq_any_beq, List.any_eq_false, beq_iff_eq] at h
  obtain ⟨⟨⟨h1, h2⟩, h3⟩, h4⟩ := h
  have h5 : HasSuffix name [']'] = false := by
    cases hs : HasSuffix name [']'] with
    | false => rfl
    | true =>
      simp only [HasSuffix, List.isSuffixOf_iff_suffix] at hs
      have hmem : ']' ∈ name := hs.subset (by simp)
      exact absurd rfl (h4 ']' hmem)
  simp only [goodName, Bool.and_eq_true, decide_eq_true_eq, Bool.not_eq_true',
    List.contains_eq_any_beq, List.any_eq_false, beq_iff_eq]
  exact ⟨⟨⟨h1, h2⟩, h3⟩, h5⟩

mutual
theorem allNames_mono (P Q : GoString → Bool) (hPQ : ∀ n, P n = true → Q n = true) :
    ∀ v : Value, allNames P v = true → allNames Q v = true
  | Value.null, _ => rfl
  | Value.bool _, _ => rfl
  | Value.number _, _ => rfl
  | Value.str _, _ => rfl
  | Value.object fields, h => by
    simp only [allNames] at h ⊢
    exact allNamesFields_mono P Q hPQ fields h
  | Value.array elems, h => by
    simp only [allNames] at h ⊢
    exact allNamesElems_mono P Q hPQ elems h
theorem allNamesFields_mono (P Q : GoString → Bool) (hPQ : ∀ n, P n = true → Q n = true) :
    ∀ fs : List (GoString × Value), allNamesFields P fs = true → allNamesFields Q fs = true
  | [], _ => rfl
  | (k, c) :: rest, h => by
    simp only [allNamesFields, Bool.and_eq_true] at h ⊢
    exact ⟨⟨hPQ k h.1.1, allNames_mono P Q hPQ c h.1.2⟩, allNamesFields_mono P Q hPQ rest h.2⟩
theorem allNamesElems_mono (P Q : GoString → Bool) (hPQ : ∀ n, P n = true → Q n = true) :
    ∀ xs : List Value, allNamesElems P xs = true → allNamesElems Q xs = true
  | [], _ => rfl
  | c :: rest, h => by
    simp only [allNamesElems, Bool.and_eq_true] at h ⊢
    exact ⟨allNames_mono P Q hPQ c h.1, allNamesElems_mono P Q hPQ rest h.2⟩
end

theorem namesOk_good (v : Value) (h : namesOk v = true) : allNames goodName v = true :=
  allNames_mono plainName goodName plainName_goodName v h

theorem mapInsert_perm (k : GoString) (x : Value) (r : GoMap) :
    (mapInsert k x r).Perm ((k, x) :: r) := by
  induction r with
  | nil => exact List.Perm.refl _
  | cons e r ih =>
    obtain ⟨k', v'⟩ := e
    by_cases h : keyLt k k' = true
    · simp [mapInsert, h]
    · simp only [mapInsert, h, Bool.false_eq_true, if_false]
      exact (List.Perm.cons _ ih).trans (List.Perm.swap _ _ _)

theorem foldl_mapAssign_perm (E : GoMap) :
    ∀ r : GoMap, (E.map Prod.fst).Nodup → (∀ e ∈ E, mapHas e.1 r = false) →
      (E.foldl (fun r e => mapAssign r e.1 e.2) r).Perm (r ++ E) := by
  induction E with
  | nil => intro r _ _; simp
  | cons e E ih =>
    intro r hnd hfresh
    obtain ⟨k, x⟩ := e
    simp only [List.map_cons, List.nodup_cons, List.mem_map, not_exists, not_and] at hnd
    have hk : mapHas k r = false := hfresh (k, x) (by simp)
    have hassign : mapAssign r k x = mapInsert k x r := by simp [mapAssign, hk]
    have hfresh' : ∀ e ∈ E, mapHas e.1 (mapAssign r k x) = false := by
      intro e he
      rw [mapHas_mapAssign, hfresh e (by simp [he])]
      have hne : k ≠ e.1 := fun h => hnd.1 e he h.symm
      simp [hne]
    rw [List.foldl_cons]
    refine (ih _ hnd.2 hfresh').trans ?_
    rw [hassign]
    have h1 : (mapInsert k x r ++ E).Perm (((k, x) :: r) ++ E) :=
      List.Perm.append_right E (mapInsert_perm k x r)
    refine h1.trans ?_
    simp only [List.cons_append]
    exact (@List.perm_middle _ (k, x) r E).symm

theorem encode_injective_of_good (p q : List KeyPart) (hp : ∀ seg ∈ p, goodPart seg = true)
    (hq : ∀ seg ∈ q, goodPart seg = true) (h : encode p = encode q) : p = q := by
  have h1 := splitFlatKey_encode p hp
  have h2 := splitFlatKey_encode q hq
  rw [h, h2] at h1
  cases h1
  rfl

theorem encodedEntries_nodup (v : Value) (hn : allNames goodName v = true)
    (h : isGoValue v = true) : ((encodedEntries v).map Prod.fst).Nodup := by
  unfold encodedEntries
  rw [List.map_map, List.Nodup, List.pairwise_map]
  refine (rootEntries_independent v h).imp_of_mem ?_
  intro a b ha hb hab heq
  have e := encode_injective_of_good a.1 b.1 (rootEntries_good v hn h a ha)
    (rootEntries_good v hn h b hb) heq
  exact hab.1 (e ▸ List.prefix_refl _)

theorem Flatten_perm (v : Value) (hroot : isContainer v = true)
    (hn : allNames goodName v = true) (h : isGoValue v = true) :
    (Flatten v).Perm (encodedEntries v) := by
  rw [Flatten_eq v hroot hn]
  have e : (rootEntries v).foldl (fun r e => mapAssign r (encode e.1) e.2) []
      = (encodedEntries v).foldl (fun r e => mapAssign r e.1 e.2) [] := by
    unfold encodedEntries
    rw [List.foldl_map]
  rw [e]
  have hp := foldl_mapAssign_perm (encodedEntries v) [] (encodedEntries_nodup v hn h)
    (fun _ _ => rfl)
  simpa using hp

theorem mapLookup_eq_some_iff (m : GoMap) (hnd : (m.map Prod.fst).Nodup) (k : GoString)
    (x : Value) : mapLookup k m = some x ↔ (k, x) ∈ m := by
  induction m with
  | nil => simp [mapLookup]
  | cons e m ih =>
    obtain ⟨k', v'⟩ := e
    simp only [List.map_cons, List.nodup_cons, List.mem_map, not_exists, not_and] at hnd
    by_cases hk : k' = k
    · subst hk
      simp only [mapLookup, if_true, Option.some.injEq, List.mem_cons, Prod.mk.injEq, true_and]
      constructor
      · intro h; exact Or.inl h.symm
      · rintro (h | h)
        · exact h.symm
        · exact absurd rfl (hnd.1 (k', x) h)
    · simp only [mapLookup, hk, if_false, ih hnd.2, List.mem_cons, Prod.mk.injEq]
      constructor
      · intro h; exact Or.inr h
      · rintro (⟨h, _⟩ | h)
        · exact absurd h.symm hk
        · exact h

theorem Flatten_nodup (v : Value) (hroot : isContainer v = true)
    (hn : allNames goodName v = true) (h : isGoValue v = true) :
    ((Flatten v).map Prod.fst).Nodup :=
  ((Flatten_perm v hroot hn h).map Prod.fst).nodup_iff.2 (encodedEntries_nodup v hn h)

theorem mapLookup_Flatten_iff (v : Value) (hroot : isContainer v = true)
    (hn : allNames goodName v = true) (h : isGoValue v = true) (key : GoString) (x : Value) :
    mapLookup key (Flatten v) = some x
      ↔ ∃ p, p ≠ [] ∧ encode p = key ∧ valueAt v p = some x ∧ isLeaf x = true := by
  rw [mapLookup_eq_some_iff _ (Flatten_nodup v hroot hn h), (Flatten_perm v hroot hn h).mem_iff]
  unfold encodedEntries
  simp only [List.mem_map, Prod.mk.injEq, Prod.exists]
  constructor
  · rintro ⟨p, y, hmem, hk, rfl⟩
    obtain ⟨h1, h2, h3⟩ := (mem_rootEntries v hroot h p y).1 hmem
    exact ⟨p, h1, hk, h2, h3⟩
  · rintro ⟨p, h1, hk, h2, h3⟩
    exact ⟨p, x, (mem_rootEntries v hroot h p x).2 ⟨h1, h2, h3⟩, hk, rfl⟩

theorem leaf_position_good (v : Value) (hroot : isContainer v = true)
    (hn : allNames goodName v = true) (h : isGoValue v = true) (p : List KeyPart) (x : Value)
    (hp : p ≠ []) (hv : valueAt v p = some x) (hx : isLeaf x = true) :
    ∀ seg ∈ p, goodPart seg = true :=
  rootEntries_good v hn h (p, x) ((mem_rootEntries v hroot h p x).2 ⟨hp, hv, hx⟩)

/-! ## Claims about the entries of `Flatten` -/

/-- C4: for every value whose root is an object or an array and whose field
names are non-empty and free of `.`, `[` and `]`, the keys of `Flatten` are
exactly the encoded paths of the leaf positions below the root (scalars, nil,
empty objects and empty arrays), each key maps to the value at its position,
no key occurs twice, and different leaf positions have different keys. -/
theorem flatten_one_entry_per_leaf (v : Value) (hroot : isContainer v = true)
    (hnames : namesOk v = true) (hgo : isGoValue v = true) :
    (∀ key x, mapLookup key (Flatten v) = some x
        ↔ ∃ p, p ≠ [] ∧ encode p = key ∧ valueAt v p = some x ∧ isLeaf x = true)
      ∧ ((Flatten v).map Prod.fst).Nodup
      ∧ ∀ p q x y, p ≠ [] → q ≠ [] → valueAt v p = some x → isLeaf x = true →
          valueAt v q = some y → isLeaf y = true → encode p = encode q → p = q := by
  have hn := namesOk_good v hnames
  refine ⟨mapLookup_Flatten_iff v hroot hn hgo, Flatten_nodup v hroot hn hgo, ?_⟩
  intro p q x y hp hq hvp hx hvq hy he
  exact encode_injective_of_good p q (leaf_position_good v hroot hn hgo p x hp hvp hx)
    (leaf_position_good v hroot hn hgo q y hq hvq hy) he

/-- Witness of C4: the root array `[{"a":1},{"a":2}]` of the claim, whose
flat map is `{"[0].a": 1, "[1].a": 2}`. -/
theorem flatten_one_entry_per_leaf_witness :
    Flatten (Value.array [Value.object [("a".toList, Value.number 1)],
        Value.object [("a".toList, Value.number 2)]])
        = [("[0].a".toList, Value.number 1), ("[1].a".toList, Value.number 2)]
      ∧ (∀ key x, mapLookup key (Flatten (Value.array [Value.object [("a".toList, Value.number 1)],
            Value.object [("a".toList, Value.number 2)]])) = some x
          ↔ ∃ p, p ≠ [] ∧ encode p = key
            ∧ valueAt (Value.array [Value.object [("a".toList, Value.number 1)],
                Value.object [("a".toList, Value.number 2)]]) p = some x
            ∧ isLeaf x = true) :=
  ⟨by decide,
    (flatten_one_entry_per_leaf
      (Value.array [Value.object [("a".toList, Value.number 1)],
        Value.object [("a".toList, Value.number 2)]])
      (by decide) (by decide) (by decide)).1⟩

/-- C8 (amended): for every value whose root is an object or an array and
whose field names are non-empty and free of `.`, `[` and `]`, and for every
position other than the root that holds an empty object (an empty array),
`Flatten` has an entry under the key of that position whose value is the
empty object (the empty array). -/
theorem empty_container_preserved (v : Value) (p : List KeyPart)
    (hroot : isContainer v = true) (hnames : namesOk v = true) (hgo : isGoValue v = true)
    (hp : p ≠ []) :
    (valueAt v p = some (Value.object []) →
        mapLookup (encode p) (Flatten v) = some (Value.object []))
      ∧ (valueAt v p = some (Value.array []) →
        mapLookup (encode p) (Flatten v) = some (Value.array [])) := by
  have hn := namesOk_good v hnames
  constructor
  · intro h
    exact (mapLookup_Flatten_iff v hroot hn hgo _ _).2 ⟨p, hp, rfl, h, rfl⟩
  · intro h
    exact (mapLookup_Flatten_iff v hroot hn hgo _ _).2 ⟨p, hp, rfl, h, rfl⟩

/-- Witness of C8: `{"a": {}, "b": [[]]}`, the positions `a` and `b[0]`. -/
theorem empty_container_preserved_witness :
    mapLookup "a".toList
        (Flatten (Value.object [("a".toList, Value.object []),
          ("b".toList, Value.array [Value.array []])]))
        = some (Value.object [])
      ∧ mapLookup "b[0]".toList
        (Flatten (Value.object [("a".toList, Value.object []),
          ("b".toList, Value.array [Value.array []])]))
        = some (Value.array []) :=
  ⟨(empty_container_preserved
      (Value.object [("a".toList, Value.object []), ("b".toList, Value.array [Value.array []])])
      [KeyPart.str "a".toList] (by decide) (by decide) (by decide) (by decide)).1 (by decide),
    (empty_container_preserved
      (Value.object [("a".toList, Value.object []), ("b".toList, Value.array [Value.array []])])
      [KeyPart.str "b".toList, KeyPart.int 0] (by decide) (by decide) (by decide)
      (by decide)).2 (by decide)⟩

/-- Counterexample to C8 as stated: in `{"": {}}` the position of the field
with the empty name holds an empty object, and `Flatten` has no entry at all:
the guard `key != ""` takes that position for the root. -/
theorem empty_container_preserved_counterexample :
    valueAt (Value.object [([], Value.object [])]) [KeyPart.str []] = some (Value.object [])
      ∧ Flatten (Value.object [([], Value.object [])]) = []
      ∧ mapLookup (encode [KeyPart.str []]) (Flatten (Value.object [([], Value.object [])]))
          = none := by
  decide

/-! ## Merging the leaves of one child -/

theorem foldl_bind_none (es : List (List KeyPart × Value)) :
    es.foldl (fun st e => st.bind (merge e.1 e.2)) none = none := by
  induction es with
  | nil => rfl
  | cons e es ih => simpa [List.foldl_cons] using ih

theorem mergeAll_nil (t : Value) : mergeAll [] t = some t := rfl

theorem mergeAll_cons (e : List KeyPart × Value) (es : List (List KeyPart × Value))
    (t : Value) : mergeAll (e :: es) t = (merge e.1 e.2 t).bind (mergeAll es) := by
  unfold mergeAll
  rw [List.foldl_cons, Option.some_bind]
  cases h : merge e.1 e.2 t with
  | none => rw [foldl_bind_none]; rfl
  | some t' => rfl

theorem mergeAll_append (A B : List (List KeyPart × Value)) :
    ∀ t, mergeAll (A ++ B) t = (mergeAll A t).bind (mergeAll B) := by
  induction A with
  | nil => intro t; rfl
  | cons e A ih =>
    intro t
    rw [List.cons_append, mergeAll_cons, mergeAll_cons]
    cases merge e.1 e.2 t with
    | none => rfl
    | some t' => simpa using ih t'

theorem mergeChild_of_ne_nil (p : List KeyPart) (x c : Value) (h : p ≠ []) :
    mergeChild p x c = merge p x c := by
  cases p with
  | nil => exact absurd rfl h
  | cons a q => rfl

theorem lift_str_aux (k : GoString) (m : GoMap) (E : List (List KeyPart × Value))
    (hE : ∀ e ∈ E, e.1 ≠ []) :
    ∀ c1 : Value,
      mergeAll (E.map (fun e => (KeyPart.str k :: e.1, e.2))) (Value.object (mapAssign m k c1))
        = (mergeAll E c1).map (fun c => Value.object (mapAssign m k c)) := by
  induction E with
  | nil => intro c1; rfl
  | cons e E ih =>
    intro c1
    have he : e.1 ≠ [] := hE e (by simp)
    have hE' : ∀ e ∈ E, e.1 ≠ [] := fun e' h' => hE e' (by simp [h'])
    rw [List.map_cons, mergeAll_cons, mergeAll_cons]
    simp only [merge_str, optMap, Option.some_bind, mapIndex_mapAssign_self,
      mapAssign_mapAssign_self, mergeChild_of_ne_nil _ _ _ he]
    cases merge e.1 e.2 c1 with
    | none => rfl
    | some c2 => simpa using ih hE' c2

theorem lift_str (k : GoString) (t : Value) (m : GoMap) (E : List (List KeyPart × Value))
    (ht : optMap t = some m) (hne : E ≠ []) (hE : ∀ e ∈ E, e.1 ≠ []) :
    mergeAll (E.map (fun e => (KeyPart.str k :: e.1, e.2))) t
      = (mergeAll E (mapIndex m k)).map (fun c => Value.object (mapAssign m k c)) := by
  cases E with
  | nil => exact absurd rfl hne
  | cons e E =>
    have he : e.1 ≠ [] := hE e (by simp)
    have hE' : ∀ e ∈ E, e.1 ≠ [] := fun e' h' => hE e' (by simp [h'])
    rw [List.map_cons, mergeAll_cons, mergeAll_cons]
    simp only [merge_str, ht, Option.some_bind, mergeChild_of_ne_nil _ _ _ he]
    cases merge e.1 e.2 (mapIndex m k) with
    | none => rfl
    | some c1 => simpa using lift_str_aux k m E hE' c1

theorem expandSliceToSize_of_le (l : List Value) (w : Int) (h : w ≤ l.length) :
    expandSliceToSize l w = l := by
  have e : (w - (l.length : Int)).toNat = 0 := by omega
  simp [expandSliceToSize, e]

theorem lift_int_aux (i : Int) (R : List Value) (h0 : 0 ≤ i) (hlt : i < R.length)
    (hw : wrapInt (i + 1) ≤ R.length) (E : List (List KeyPart × Value))
    (hE : ∀ e ∈ E, e.1 ≠ []) :
    ∀ c1 : Value,
      mergeAll (E.map (fun e => (KeyPart.int i :: e.1, e.2))) (Value.array (R.set i.toNat c1))
        = (mergeAll E c1).map (fun c => Value.array (R.set i.toNat c)) := by
  have hn : i.toNat < R.length := by omega
  induction E with
  | nil => intro c1; rfl
  | cons e E ih =>
    intro c1
    have he : e.1 ≠ [] := hE e (by simp)
    have hE' : ∀ e ∈ E, e.1 ≠ [] := fun e' h' => hE e' (by simp [h'])
    have hexp : expandSliceToSize (R.set i.toNat c1) (wrapInt (i + 1)) = R.set i.toNat c1 :=
      expandSliceToSize_of_le _ _ (by rw [List.length_set]; exact hw)
    have hget : (R.set i.toNat c1).getD i.toNat Value.null = c1 := by
      rw [List.getD_eq_getElem?_getD, List.getElem?_set_self hn]
      rfl
    rw [List.map_cons, mergeAll_cons, mergeAll_cons]
    simp only [merge_int, optSlice, Option.some_bind, hexp, List.length_set, h0, hlt, and_self,
      if_true, hget, List.set_set, mergeChild_of_ne_nil _ _ _ he]
    cases merge e.1 e.2 c1 with
    | none => rfl
    | some c2 => simpa using ih hE' c2

theorem lift_int (i : Int) (t : Value) (s : List Value) (E : List (List KeyPart × Value))
    (ht : optSlice t = some s) (hne : E ≠ []) (hE : ∀ e ∈ E, e.1 ≠ [])
    (h0 : 0 ≤ i) (hlt : i < (expandSliceToSize s (wrapInt (i + 1))).length) :
    mergeAll (E.map (fun e => (KeyPart.int i :: e.1, e.2))) t
      = (mergeAll E ((expandSliceToSize s (wrapInt (i + 1))).getD i.toNat Value.null)).map
          (fun c => Value.array ((expandSliceToSize s (wrapInt (i + 1))).set i.toNat c)) := by
  cases E with
  | nil => exact absurd rfl hne
  | cons e E =>
    have he : e.1 ≠ [] := hE e (by simp)
    have hE' : ∀ e ∈ E, e.1 ≠ [] := fun e' h' => hE e' (by simp [h'])
    have hw : wrapInt (i + 1) ≤ (expandSliceToSize s (wrapInt (i + 1))).length := by
      rw [length_expandSliceToSize]
      omega
    rw [List.map_cons, mergeAll_cons, mergeAll_cons]
    simp only [merge_int, ht, Option.some_bind, h0, hlt, and_self, if_true,
      mergeChild_of_ne_nil _ _ _ he]
    cases merge e.1 e.2 ((expandSliceToSize s (wrapInt (i + 1))).getD i.toNat Value.null) with
    | none => rfl
    | some c1 => simpa using lift_int_aux i _ h0 hlt hw E hE' c1

/-! ## Merging the leaves of a value rebuilds it -/

theorem leafEntries_ne_nil_of_rebuilds (c : Value) (H : Rebuilds c) : leafEntries c ≠ [] := by
  cases hl : isLeaf c with
  | true => rw [(H.1 hl).1]; simp
  | false => exact (H.2 hl).1

theorem mapIndex_of_not_has (acc : GoMap) (k : GoString) (h : mapHas k acc = false) :
    mapIndex acc k = Value.null := by
  rw [mapHas_eq_isSome] at h
  cases hl : mapLookup k acc with
  | none => simp [mapIndex, hl]
  | some c => rw [hl] at h; cases h

theorem child_str (c : Value) (H : Rebuilds c) (t : Value) (acc : GoMap) (k : GoString)
    (ht : optMap t = some acc) (hk : mapHas k acc = false) :
    mergeAll ((leafEntries c).map (fun e => (KeyPart.str k :: e.1, e.2))) t
      = some (Value.object (mapAssign acc k (canon c))) := by
  cases hl : isLeaf c with
  | true =>
    obtain ⟨h1, h2⟩ := H.1 hl
    rw [h1, h2]
    simp [mergeAll_cons, mergeAll_nil, merge_str, ht, mergeChild]
  | false =>
    obtain ⟨h1, h2, h3⟩ := H.2 hl
    rw [lift_str k t acc _ ht h1 h2, mapIndex_of_not_has acc k hk, h3]
    rfl

theorem child_int (c : Value) (H : Rebuilds c) (t : Value) (s : List Value) (i : Nat)
    (ht : optSlice t = some s) (hi : s.length = i) (hmax : (i : Int) < maxInt) :
    mergeAll ((leafEntries c).map (fun e => (KeyPart.int (i : Int) :: e.1, e.2))) t
      = some (Value.array (s ++ [canon c])) := by
  have h0 : (0 : Int) ≤ (i : Int) := by omega
  have hw : wrapInt ((i : Int) + 1) = (i : Int) + 1 := wrapInt_succ _ h0 hmax
  have hexp : expandSliceToSize s ((i : Int) + 1) = s ++ [Value.null] := by
    have e : ((i : Int) + 1 - (s.length : Int)).toNat = 1 := by omega
    simp [expandSliceToSize, e]
  have hset : ∀ x, (s ++ [Value.null]).set i x = s ++ [x] := by
    intro x
    rw [← hi]
    simp
  have hget : (s ++ [Value.null]).getD i Value.null = Value.null := by
    rw [← hi]
    simp
  have hlt : (i : Int) < ((s ++ [Value.null]).length : Int) := by
    simp only [List.length_append, List.length_singleton]
    omega
  cases hl : isLeaf c with
  | true =>
    obtain ⟨h1, h2⟩ := H.1 hl
    rw [h1, h2]
    simp only [List.map_cons, List.map_nil, mergeAll_cons, mergeAll_nil, merge_int, ht,
      Option.some_bind, hw, hexp, h0, hlt, and_self, if_true, mergeChild, Int.toNat_ofNat,
      Option.map_some', hset]
  | false =>
    obtain ⟨h1, h2, h3⟩ := H.2 hl
    rw [lift_int (i : Int) t s _ ht h1 h2 h0 (by rw [hw, hexp]; exact hlt), hw, hexp]
    simp only [Int.toNat_ofNat, hget, h3, Option.map_some', hset]

theorem fieldEntries_path_ne_nil (fs : List (GoString × Value)) :
    ∀ e ∈ fieldEntries fs, e.1 ≠ [] := by
  intro e he
  obtain ⟨k, p, h, _⟩ := fieldEntries_head fs e he
  rw [h]
  simp

theorem elemEntries_path_ne_nil (xs : List Value) (i : Nat) :
    ∀ e ∈ elemEntries xs i, e.1 ≠ [] := by
  intro e he
  obtain ⟨j, p, h, _⟩ := elemEntries_head xs i e he
  rw [h]
  simp

mutual
theorem rebuilds : ∀ (c : Value), isGoValue c = true → Rebuilds c
  | Value.null, _ => ⟨fun _ => ⟨rfl, rfl⟩, fun h => by cases h⟩
  | Value.bool _, _ => ⟨fun _ => ⟨rfl, rfl⟩, fun h => by cases h⟩
  | Value.number _, _ => ⟨fun _ => ⟨rfl, rfl⟩, fun h => by cases h⟩
  | Value.str _, _ => ⟨fun _ => ⟨rfl, rfl⟩, fun h => by cases h⟩
  | Value.object [], _ => ⟨fun _ => ⟨rfl, rfl⟩, fun h => by cases h⟩
  | Value.array [], _ => ⟨fun _ => ⟨rfl, rfl⟩, fun h => by cases h⟩
  | Value.object ((k, c) :: rest), h => by
    have hf : isGoFields ((k, c) :: rest) = true := by simpa [isGoValue] using h
    have hf' := hf
    simp only [isGoFields, Bool.and_eq_true, Bool.not_eq_true'] at hf'
    refine ⟨fun hl => (by cases hl), fun _ => ?_⟩
    have hent : leafEntries (Value.object ((k, c) :: rest)) = fieldEntries ((k, c) :: rest) := by
      simp [leafEntries]
    rw [hent]
    refine ⟨?_, fieldEntries_path_ne_nil _, ?_⟩
    · have hc := leafEntries_ne_nil_of_rebuilds c (rebuilds c hf'.1.2)
      simp [fieldEntries, hc]
    · exact rebuilds_fields ((k, c) :: rest) hf Value.null [] rfl (fun e => by cases e)
        (fun _ _ => rfl)
  | Value.array (c :: rest), h => by
    have hf : isGoElems (c :: rest) = true := by simp [isGoValue] at h; exact h.2
    have hlen : ((c :: rest).length : Int) ≤ maxInt := by simp [isGoValue] at h; exact h.1
    have hf' := hf
    simp only [isGoElems, Bool.and_eq_true] at hf'
    refine ⟨fun hl => (by cases hl), fun _ => ?_⟩
    have hent : leafEntries (Value.array (c :: rest)) = elemEntries (c :: rest) 0 := by
      simp [leafEntries]
    rw [hent]
    refine ⟨?_, elemEntries_path_ne_nil _ _, ?_⟩
    · have hc := leafEntries_ne_nil_of_rebuilds c (rebuilds c hf'.1)
      simp [elemEntries, hc]
    · have hb := rebuilds_elems (c :: rest) hf Value.null [] 0 rfl (fun e => by cases e) rfl
        (by push_cast; omega)
      simpa [canon] using hb
theorem rebuilds_fields : ∀ (fs : List (GoString × Value)), isGoFields fs = true →
    ∀ (t : Value) (acc : GoMap), optMap t = some acc → (fs = [] → t = Value.object acc) →
      (∀ k, mapHas k fs = true → mapHas k acc = false) →
      mergeAll (fieldEntries fs) t = some (Value.object (canonFields fs acc))
  | [], _, t, acc, _, ht, _ => by
    rw [ht rfl]
    rfl
  | (k, c) :: rest, h, t, acc, ht, _, hfresh => by
    simp only [isGoFields, Bool.and_eq_true, Bool.not_eq_true'] at h
    obtain ⟨⟨hk, hc⟩, hrest⟩ := h
    have hk' : mapHas k acc = false := hfresh k (by simp [mapHas])
    rw [fieldEntries, mergeAll_append, child_str c (rebuilds c hc) t acc k ht hk',
      Option.some_bind, canonFields]
    apply rebuilds_fields rest hrest (Value.object (mapAssign acc k (canon c))) _ rfl
      (fun _ => rfl)
    intro k' hk''
    rw [mapHas_mapAssign, hfresh k' (by simp [mapHas, hk''])]
    have hne : k ≠ k' := by
      rintro rfl
      rw [hk] at hk''
      cases hk''
    simp [hne]
theorem rebuilds_elems : ∀ (xs : List Value), isGoElems xs = true →
    ∀ (t : Value) (s : List Value) (i : Nat), optSlice t = some s →
      (xs = [] → t = Value.array s) → s.length = i → ((i : Int) + xs.length ≤ maxInt) →
      mergeAll (elemEntries xs i) t = some (Value.array (s ++ canonElems xs))
  | [], _, t, s, _, _, ht, _, _ => by
    rw [ht rfl]
    simp [elemEntries, mergeAll_nil, canonElems]
  | c :: rest, h, t, s, i, ht, _, hi, hlen => by
    simp only [isGoElems, Bool.and_eq_true] at h
    obtain ⟨hc, hrest⟩ := h
    simp only [List.length_cons] at hlen
    rw [elemEntries, mergeAll_append,
      child_int c (rebuilds c hc) t s i ht hi (by push_cast at hlen; omega),
      Option.some_bind, canonElems,
      rebuilds_elems rest hrest (Value.array (s ++ [canon c])) (s ++ [canon c]) (i + 1) rfl
        (fun _ => rfl)
        (by simp [hi]) (by push_cast at hlen ⊢; omega)]
    simp
end

/-! ## The canonical representation denotes the same value -/

theorem length_mapInsert (k : GoString) (x : Value) (m : GoMap) :
    (mapInsert k x m).length = m.length + 1 :=
  (mapInsert_perm k x m).length_eq

theorem length_canonFields (fs : List (GoString × Value)) (hgo : isGoFields fs = true) :
    ∀ acc : GoMap, (∀ k, mapHas k fs = true → mapHas k acc = false) →
      (canonFields fs acc).length = acc.length + fs.length := by
  induction fs with
  | nil => intro acc _; rfl
  | cons f rest ih =>
    obtain ⟨k, c⟩ := f
    intro acc hfresh
    simp only [isGoFields, Bool.and_eq_true, Bool.not_eq_true'] at hgo
    have hk : mapHas k acc = false := hfresh k (by simp [mapHas])
    have hfresh' : ∀ k', mapHas k' rest = true →
        mapHas k' (mapAssign acc k (canon c)) = false := by
      intro k' hk'
      rw [mapHas_mapAssign, hfresh k' (by simp [mapHas, hk'])]
      have hne : k ≠ k' := by
        rintro rfl
        rw [hgo.1.1] at hk'
        cases hk'
      simp [hne]
    rw [canonFields, ih hgo.2 _ hfresh']
    simp only [mapAssign, hk, Bool.false_eq_true, if_false, length_mapInsert, List.length_cons]
    omega

theorem mapLookup_canonFields (fs : List (GoString × Value)) (k : GoString)
    (hk : mapHas k fs = false) :
    ∀ acc : GoMap, mapLookup k (canonFields fs acc) = mapLookup k acc := by
  induction fs with
  | nil => intro acc; rfl
  | cons f rest ih =>
    obtain ⟨k', c⟩ := f
    intro acc
    simp only [mapHas, Bool.or_eq_false_iff, beq_eq_false_iff_ne, ne_eq] at hk
    rw [canonFields, ih hk.2, mapLookup_mapAssign_ne k k' _ acc (fun e => hk.1 e.symm)]

mutual
theorem deepEqual_canon : ∀ (v : Value), isGoValue v = true → deepEqual v (canon v) = true
  | Value.null, _ => rfl
  | Value.bool _, _ => by simp [canon, deepEqual]
  | Value.number _, _ => by simp [canon, deepEqual]
  | Value.str _, _ => by simp [canon, deepEqual]
  | Value.object fields, h => by
    have hf : isGoFields fields = true := by simpa [isGoValue] using h
    have hlen := length_canonFields fields hf [] (fun _ _ => rfl)
    have hd := fieldsDeepEqual_canon fields hf [] (fun _ _ => rfl)
    simp only [canon, deepEqual, Bool.and_eq_true, beq_iff_eq]
    exact ⟨by rw [hlen]; simp, hd⟩
  | Value.array elems, h => by
    have hf : isGoElems elems = true := by simp [isGoValue] at h; exact h.2
    simp only [canon, deepEqual]
    exact elemsDeepEqual_canon elems hf
theorem fieldsDeepEqual_canon : ∀ (fs : List (GoString × Value)), isGoFields fs = true →
    ∀ acc : GoMap, (∀ k, mapHas k fs = true → mapHas k acc = false) →
      fieldsDeepEqual fs (canonFields fs acc) = true
  | [], _, _, _ => rfl
  | (k, c) :: rest, h, acc, hfresh => by
    simp only [isGoFields, Bool.and_eq_true, Bool.not_eq_true'] at h
    obtain ⟨⟨hk, hc⟩, hrest⟩ := h
    have hfresh' : ∀ k', mapHas k' rest = true →
        mapHas k' (mapAssign acc k (canon c)) = false := by
      intro k' hk'
      rw [mapHas_mapAssign, hfresh k' (by simp [mapHas, hk'])]
      have hne : k ≠ k' := by
        rintro rfl
        rw [hk] at hk'
        cases hk'
      simp [hne]
    have hl : mapLookup k (canonFields ((k, c) :: rest) acc) = some (canon c) := by
      rw [canonFields, mapLookup_canonFields rest k hk, mapLookup_mapAssign_self]
    rw [fieldsDeepEqual, hl]
    simp only [Bool.and_eq_true]
    refine ⟨deepEqual_canon c hc, ?_⟩
    rw [canonFields]
    exact fieldsDeepEqual_canon rest hrest _ hfresh'
theorem elemsDeepEqual_canon : ∀ (xs : List Value), isGoElems xs = true →
    elemsDeepEqual xs (canonElems xs) = true
  | [], _ => rfl
  | c :: rest, h => by
    simp only [isGoElems, Bool.and_eq_true] at h
    simp only [canonElems, elemsDeepEqual, Bool.and_eq_true]
    exact ⟨deepEqual_canon c h.1, elemsDeepEqual_canon rest h.2⟩
end

/-! ## Round trip -/

theorem foldl_mergeEntry_encoded (es : List (List KeyPart × Value))
    (hgood : ∀ e ∈ es, ∀ seg ∈ e.1, goodPart seg = true) :
    ∀ st : Option Value,
      (es.map (fun e => (encode e.1, e.2))).foldl mergeEntry st
        = es.foldl (fun st e => st.bind (merge e.1 e.2)) st := by
  induction es with
  | nil => intro st; rfl
  | cons e es ih =>
    intro st
    have he := splitFlatKey_encode e.1 (hgood e (by simp))
    have hstep : mergeEntry st (encode e.1, e.2) = st.bind (merge e.1 e.2) := by
      cases st <;> simp [mergeEntry, he]
    rw [List.map_cons, List.foldl_cons, List.foldl_cons, hstep]
    exact ih (fun e' h' => hgood e' (by simp [h'])) _

theorem returnedValue_eq_some (r : Except Panic (Value × Option GoError)) (x : Value)
    (h : returnedValue r = some x) : r = Except.ok (x, none) := by
  cases r with
  | error p => simp [returnedValue] at h
  | ok pr =>
    obtain ⟨v, e⟩ := pr
    cases e with
    | none => simp only [returnedValue, Option.some.injEq] at h; rw [h]
    | some e => simp [returnedValue] at h

theorem encodedEntries_independent (v : Value) (hn : allNames goodName v = true)
    (h : isGoValue v = true) :
    (encodedEntries v).Pairwise (fun a b => IndependentKeys a.1 b.1) := by
  unfold encodedEntries
  rw [List.pairwise_map]
  refine (rootEntries_independent v h).imp_of_mem ?_
  intro a b ha hb hab p q hp hq
  rw [splitFlatKey_encode a.1 (rootEntries_good v hn h a ha)] at hp
  rw [splitFlatKey_encode b.1 (rootEntries_good v hn h b hb)] at hq
  cases hp
  cases hq
  exact hab

theorem leafEntries_eq_rootEntries (v : Value) (hl : isLeaf v = false) :
    leafEntries v = rootEntries v := by
  cases v with
  | null => cases hl
  | bool _ => cases hl
  | number _ => cases hl
  | str _ => cases hl
  | object fields =>
    cases fields with
    | nil => cases hl
    | cons f fs => simp [leafEntries, rootEntries]
  | array elems =>
    cases elems with
    | nil => cases hl
    | cons f fs => simp [leafEntries, rootEntries]

theorem Unflatten_encodedEntries (v : Value) (hl : isLeaf v = false)
    (hn : allNames goodName v = true) (h : isGoValue v = true) :
    returnedValue (Unflatten (encodedEntries v)) = some (canon v) := by
  obtain ⟨h1, _, h3⟩ := (rebuilds v h).2 hl
  rw [leafEntries_eq_rootEntries v hl] at h1 h3
  have hne : encodedEntries v ≠ [] := by
    unfold encodedEntries
    simpa using h1
  rw [Unflatten_of_ne_nil _ hne, returnedValue_unflattenLoop]
  unfold encodedEntries
  rw [foldl_mergeEntry_encoded _ (rootEntries_good v hn h)]
  exact h3

theorem Unflatten_Flatten (v : Value) (hroot : isContainer v = true)
    (hne : v ≠ Value.array []) (hn : allNames goodName v = true) (h : isGoValue v = true)
    (m : GoMap) (hperm : m.Perm (Flatten v)) :
    Unflatten m = Except.ok (canon v, none) := by
  cases hl : isLeaf v with
  | true =>
    have hv : v = Value.object [] := by
      cases v with
      | null => cases hroot
      | bool _ => cases hroot
      | number _ => cases hroot
      | str _ => cases hroot
      | object fields =>
        cases fields with
        | nil => rfl
        | cons f fs => cases hl
      | array elems =>
        cases elems with
        | nil => exact absurd rfl hne
        | cons f fs => cases hl
    subst hv
    have hm : m = [] := List.perm_nil.1 hperm
    subst hm
    rfl
  | false =>
    apply returnedValue_eq_some
    have hp : (encodedEntries v).Perm m := ((Flatten_perm v hroot hn h).symm.trans hperm.symm)
    rw [← returnedValue_Unflatten_perm (encodedEntries v) m hp
      (encodedEntries_independent v hn h)]
    exact Unflatten_encodedEntries v hl hn h

/-- C1 (amended): for every value whose root is an object or a non-empty
array and whose field names are non-empty and free of `.`, `[` and `]`,
`Unflatten` of `Flatten` of the value, with the entries processed in any
order, succeeds and returns a value deeply equal to it: its canonical
representation. -/
theorem round_trip (v : Value) (hroot : isContainer v = true) (hne : v ≠ Value.array [])
    (hnames : namesOk v = true) (hgo : isGoValue v = true)
    (m : GoMap) (hperm : m.Perm (Flatten v)) :
    Unflatten m = Except.ok (canon v, none) ∧ deepEqual v (canon v) = true :=
  ⟨Unflatten_Flatten v hroot hne (namesOk_good v hnames) hgo m hperm, deepEqual_canon v hgo⟩

/-- Witness of C1: the object of the test `complex object`, its flat map
processed in reverse order. -/
theorem round_trip_witness :
    Unflatten (Flatten (Value.object [
        ("a".toList, Value.object [("b".toList, Value.number 1), ("c".toList, Value.null),
          ("d".toList, Value.array [Value.bool false, Value.bool true])]),
        ("e".toList, Value.str "f".toList), ("g".toList, Value.number 23)])).reverse
      = Except.ok (canon (Value.object [
        ("a".toList, Value.object [("b".toList, Value.number 1), ("c".toList, Value.null),
          ("d".toList, Value.array [Value.bool false, Value.bool true])]),
        ("e".toList, Value.str "f".toList), ("g".toList, Value.number 23)]), none)
      ∧ deepEqual (Value.object [
        ("a".toList, Value.object [("b".toList, Value.number 1), ("c".toList, Value.null),
          ("d".toList, Value.array [Value.bool false, Value.bool true])]),
        ("e".toList, Value.str "f".toList), ("g".toList, Value.number 23)])
        (canon (Value.object [
        ("a".toList, Value.object [("b".toList, Value.number 1), ("c".toList, Value.null),
          ("d".toList, Value.array [Value.bool false, Value.bool true])]),
        ("e".toList, Value.str "f".toList), ("g".toList, Value.number 23)])) = true :=
  round_trip _ (by decide) (by decide) (by decide) (by decide) _ (List.reverse_perm _)

/-- Counterexample to C1 as stated: the root empty array flattens to the map
with no entries, which `Unflatten` turns into the empty object, and the empty
object is not deeply equal to the empty array. -/
theorem round_trip_counterexample :
    Flatten (Value.array []) = []
      ∧ Unflatten (Flatten (Value.array [])) = Except.ok (Value.object [], none)
      ∧ deepEqual (Value.array []) (Value.object []) = false := by
  decide

/-! ## The shape of the root -/

theorem merge_isContainer (p : List KeyPart) (x t t' : Value) (h : merge p x t = some t') :
    isContainer t' = true := by
  cases p with
  | nil => simp [merge_nil] at h
  | cons a ps =>
    cases a with
    | str k =>
      rw [merge_str] at h
      cases hm : optMap t with
      | none => simp [hm] at h
      | some m =>
        simp only [hm, Option.some_bind, Option.map_eq_some'] at h
        obtain ⟨c, _, rfl⟩ := h
        rfl
    | int i =>
      rw [merge_int] at h
      cases hs : optSlice t with
      | none => simp [hs] at h
      | some s =>
        simp only [hs, Option.some_bind] at h
        split at h
        · simp only [Option.map_eq_some'] at h
          obtain ⟨c, _, rfl⟩ := h
          rfl
        · cases h

theorem mergeEntry_isContainer (st : Option Value) (e : GoString × Value) (t' : Value)
    (h : mergeEntry st e = some t') : isContainer t' = true := by
  cases st with
  | none => simp [mergeEntry] at h
  | some t =>
    cases hk : splitFlatKey e.1 with
    | error err => simp [mergeEntry, hk] at h
    | ok p =>
      simp only [mergeEntry, hk] at h
      exact merge_isContainer p e.2 t t' h

theorem foldl_mergeEntry_isContainer (l : GoMap) :
    ∀ (st : Option Value) (r : Value), l.foldl mergeEntry st = some r →
      (l ≠ [] ∨ ∃ t, st = some t ∧ isContainer t = true) → isContainer r = true := by
  induction l with
  | nil =>
    intro st r h hc
    rcases hc with hc | ⟨t, ht, hct⟩
    · exact absurd rfl hc
    · simp only [List.foldl_nil] at h
      rw [ht] at h
      cases h
      exact hct
  | cons e l ih =>
    intro st r h _
    rw [List.foldl_cons] at h
    cases hs : mergeEntry st e with
    | none =>
      rw [hs, foldl_mergeEntry_none] at h
      cases h
    | some t' =>
      rw [hs] at h
      exact ih (some t') r h (Or.inr ⟨t', rfl, mergeEntry_isContainer st e t' hs⟩)

theorem isContainer_cases (r : Value) (h : isContainer r = true) :
    (∃ fields, r = Value.object fields) ∨ (∃ elems, r = Value.array elems) := by
  cases r with
  | object fields => exact Or.inl ⟨fields, rfl⟩
  | array elems => exact Or.inr ⟨elems, rfl⟩
  | null => cases h
  | bool _ => cases h
  | number _ => cases h
  | str _ => cases h

/-- C12: for every map on which `Unflatten` succeeds, the returned value is
an object or an array, never a scalar or nil. -/
theorem unflatten_root_shape (m : GoMap) (r : Value)
    (h : Unflatten m = Except.ok (r, none)) :
    (∃ fields, r = Value.object fields) ∨ (∃ elems, r = Value.array elems) := by
  apply isContainer_cases
  by_cases hm : m = []
  · subst hm
    simp only [Unflatten, List.length_nil, if_true, Except.ok.injEq, Prod.mk.injEq,
      and_true] at h
    rw [← h]
    rfl
  · have hr : returnedValue (Unflatten m) = some r := by rw [h]; rfl
    rw [Unflatten_of_ne_nil m hm, returnedValue_unflattenLoop] at hr
    exact foldl_mergeEntry_isContainer m _ r hr (Or.inl hm)

/-- Witness of C12: the maps `{"[2].a": 1}` and `{"a.b": 1}`. -/
theorem unflatten_root_shape_witness :
    ((∃ fields, Value.array [Value.null, Value.null,
          Value.object [("a".toList, Value.number 1)]] = Value.object fields)
        ∨ (∃ elems, Value.array [Value.null, Value.null,
          Value.object [("a".toList, Value.number 1)]] = Value.array elems))
      ∧ ((∃ fields, Value.object [("a".toList, Value.object [("b".toList, Value.number 1)])]
          = Value.object fields)
        ∨ (∃ elems, Value.object [("a".toList, Value.object [("b".toList, Value.number 1)])]
          = Value.array elems)) :=
  ⟨unflatten_root_shape [("[2].a".toList, Value.number 1)] _ (by decide),
    unflatten_root_shape [("a.b".toList, Value.number 1)] _ (by decide)⟩

/-! ## `Flatten` always returns a map -/

theorem keys_mapReplace (k : GoString) (x : Value) (m : GoMap) :
    (mapReplace k x m).map Prod.fst = m.map Prod.fst := by
  induction m with
  | nil => rfl
  | cons e m ih =>
    obtain ⟨k', v'⟩ := e
    by_cases h : k' = k
    · simp [mapReplace, h]
    · simp [mapReplace, h, ih]

theorem nodup_keys_mapAssign (m : GoMap) (k : GoString) (x : Value)
    (h : (m.map Prod.fst).Nodup) : ((mapAssign m k x).map Prod.fst).Nodup := by
  unfold mapAssign
  by_cases hk : mapHas k m = true
  · simp only [hk, if_true, keys_mapReplace]
    exact h
  · simp only [hk, Bool.false_eq_true, if_false]
    rw [((mapInsert_perm k x m).map Prod.fst).nodup_iff]
    simp only [List.map_cons, List.nodup_cons]
    refine ⟨?_, h⟩
    intro hmem
    exact hk ((mapHas_iff_mem_keys k m).2 hmem)

mutual
theorem nodup_keys_flatten : ∀ (v : Value) (key : GoString) (result : GoMap),
    (result.map Prod.fst).Nodup → ((flatten v key result).map Prod.fst).Nodup
  | Value.null, key, result, h => nodup_keys_mapAssign result key _ h
  | Value.bool _, key, result, h => nodup_keys_mapAssign result key _ h
  | Value.number _, key, result, h => nodup_keys_mapAssign result key _ h
  | Value.str _, key, result, h => nodup_keys_mapAssign result key _ h
  | Value.object fields, key, result, h => by
    rw [flatten]
    apply nodup_keys_flattenFields
    split
    · exact nodup_keys_mapAssign result key _ h
    · exact h
  | Value.array elems, key, result, h => by
    rw [flatten]
    apply nodup_keys_flattenElems
    split
    · exact nodup_keys_mapAssign result key _ h
    · exact h
theorem nodup_keys_flattenFields : ∀ (fs : List (GoString × Value)) (key : GoString)
    (result : GoMap), (result.map Prod.fst).Nodup →
    ((flattenFields fs key result).map Prod.fst).Nodup
  | [], _, _, h => h
  | (k, c) :: rest, key, result, h => by
    rw [flattenFields]
    exact nodup_keys_flattenFields rest key _ (nodup_keys_flatten c _ result h)
theorem nodup_keys_flattenElems : ∀ (xs : List Value) (index : Nat) (key : GoString)
    (result : GoMap), (result.map Prod.fst).Nodup →
    ((flattenElems xs index key result).map Prod.fst).Nodup
  | [], _, _, _, h => h
  | c :: rest, index, key, result, h => by
    rw [flattenElems]
    exact nodup_keys_flattenElems rest (index + 1) key _ (nodup_keys_flatten c _ result h)
end

/-- C13: for every value, of any root shape and with any field names, the
recursion of `flatten` terminates (it is a total function) and `Flatten`
returns a map, with pairwise different keys, together with a nil error. -/
theorem flatten_total (v : Value) :
    ∃ m : GoMap, FlattenResult v = (m, none) ∧ m = flatten v [] []
      ∧ (m.map Prod.fst).Nodup :=
  ⟨Flatten v, rfl, rfl, nodup_keys_flatten v [] [] (by simp)⟩

/-! ## One merge leaves the siblings alone -/

theorem merge_of_unflatten (p : List KeyPart) (x t t' : Value)
    (h : unflatten p x t = Except.ok t') : merge p x t = some t' := by
  simp [merge, h]

theorem unflatten_of_merge (p : List KeyPart) (x t t' : Value)
    (h : merge p x t = some t') : unflatten p x t = Except.ok t' := by
  unfold merge at h
  split at h
  · rename_i r heq
    cases h
    exact heq
  · cases h

theorem merge_int_array_frame (i : Int) (rest : List KeyPart) (x t' : Value)
    (elems : List Value) (h0 : 0 ≤ i)
    (h : merge (KeyPart.int i :: rest) x (Value.array elems) = some t') :
    ∃ elems', t' = Value.array elems'
      ∧ (elems'.length : Int) = max (elems.length : Int) (i + 1)
      ∧ (∀ j : Nat, j < elems.length → (j : Int) ≠ i → elems'[j]? = elems[j]?)
      ∧ (∀ j : Nat, elems.length ≤ j → j < elems'.length → (j : Int) ≠ i →
          elems'[j]? = some Value.null) := by
  simp only [merge_int, optSlice, Option.some_bind] at h
  split at h
  · rename_i hb
    simp only [Option.map_eq_some'] at h
    obtain ⟨c, _, rfl⟩ := h
    have hw := wrapInt_le (i + 1)
    have hlen := length_expandSliceToSize elems (wrapInt (i + 1))
    have hb2 := hb.2
    rw [hlen] at hb2
    refine ⟨_, rfl, ?_, ?_, ?_⟩
    · rw [List.length_set, hlen]
      by_cases hlt : i < maxInt
      · rw [wrapInt_succ i h0 hlt] at hb2 ⊢
        simp only [max_def]
        split <;> push_cast <;> omega
      · simp only [max_def]
        split <;> push_cast at hb2 ⊢ <;> omega
    · intro j hj hji
      have hne : i.toNat ≠ j := by omega
      rw [List.getElem?_set_ne hne]
      simp only [expandSliceToSize]
      rw [List.getElem?_append_left hj]
    · intro j hj hj' hji
      have hne : i.toNat ≠ j := by omega
      rw [List.length_set, hlen] at hj'
      rw [List.getElem?_set_ne hne]
      simp only [expandSliceToSize]
      rw [List.getElem?_append_right hj, List.getElem?_replicate]
      have hlt : j - elems.length < (wrapInt (i + 1) - (elems.length : Int)).toNat := by omega
      rw [if_pos hlt]
  · cases h

/-! ## Positions of the result of a merge -/

theorem merge_str_some (k : GoString) (ps : List KeyPart) (x t t' : Value)
    (h : merge (KeyPart.str k :: ps) x t = some t') :
    ∃ m ch, optMap t = some m ∧ mergeChild ps x (mapIndex m k) = some ch
      ∧ t' = Value.object (mapAssign m k ch) := by
  rw [merge_str] at h
  cases hm : optMap t with
  | none => simp [hm] at h
  | some m =>
    simp only [hm, Option.some_bind, Option.map_eq_some'] at h
    obtain ⟨c, hc, rfl⟩ := h
    exact ⟨m, c, rfl, hc, rfl⟩

theorem merge_int_some (i : Int) (ps : List KeyPart) (x t t' : Value)
    (h : merge (KeyPart.int i :: ps) x t = some t') :
    ∃ s ch, optSlice t = some s ∧ 0 ≤ i
      ∧ i < (expandSliceToSize s (wrapInt (i + 1))).length
      ∧ mergeChild ps x ((expandSliceToSize s (wrapInt (i + 1))).getD i.toNat Value.null)
          = some ch
      ∧ t' = Value.array ((expandSliceToSize s (wrapInt (i + 1))).set i.toNat ch) := by
  rw [merge_int] at h
  cases hs : optSlice t with
  | none => simp [hs] at h
  | some s =>
    simp only [hs, Option.some_bind] at h
    split at h
    · rename_i hb
      simp only [Option.map_eq_some'] at h
      obtain ⟨c, hc, rfl⟩ := h
      exact ⟨s, c, rfl, hb.1, hb.2, hc, rfl⟩
    · cases h

theorem valueAt_object_str (m : GoMap) (k : GoString) (c : List KeyPart) :
    valueAt (Value.object m) (KeyPart.str k :: c)
      = (mapLookup k m).bind (fun d => valueAt d c) := by
  simp only [valueAt]
  cases mapLookup k m <;> rfl

theorem valueAt_array_int (xs : List Value) (j : Int) (c : List KeyPart) :
    valueAt (Value.array xs) (KeyPart.int j :: c)
      = if 0 ≤ j then (xs[j.toNat]?).bind (fun d => valueAt d c) else none := by
  simp only [valueAt]
  split
  · cases xs[j.toNat]? <;> rfl
  · rfl

theorem valueAt_str_inv (t : Value) (k : GoString) (c : List KeyPart) (v : Value)
    (h : valueAt t (KeyPart.str k :: c) = some v) :
    ∃ m d, t = Value.object m ∧ mapLookup k m = some d ∧ valueAt d c = some v := by
  cases t with
  | object m =>
    rw [valueAt_object_str] at h
    cases hl : mapLookup k m with
    | none => simp [hl] at h
    | some d =>
      simp only [hl, Option.some_bind] at h
      exact ⟨m, d, rfl, hl, h⟩
  | null => simp [valueAt] at h
  | bool _ => simp [valueAt] at h
  | number _ => simp [valueAt] at h
  | str _ => simp [valueAt] at h
  | array _ => simp [valueAt] at h

theorem valueAt_int_inv (t : Value) (j : Int) (c : List KeyPart) (v : Value)
    (h : valueAt t (KeyPart.int j :: c) = some v) :
    ∃ xs d, t = Value.array xs ∧ 0 ≤ j ∧ xs[j.toNat]? = some d ∧ valueAt d c = some v := by
  cases t with
  | array xs =>
    rw [valueAt_array_int] at h
    by_cases h0 : 0 ≤ j
    · simp only [h0, if_true] at h
      cases hl : xs[j.toNat]? with
      | none => simp [hl] at h
      | some d =>
        simp only [hl, Option.some_bind] at h
        exact ⟨xs, d, rfl, h0, hl, h⟩
    · simp [h0] at h
  | null => simp [valueAt] at h
  | bool _ => simp [valueAt] at h
  | number _ => simp [valueAt] at h
  | str _ => simp [valueAt] at h
  | object _ => simp [valueAt] at h

theorem mapIndex_of_lookup {m : GoMap} {k : GoString} {d : Value}
    (h : mapLookup k m = some d) : mapIndex m k = d := by
  simp [mapIndex, h]

theorem getD_expand_of_getElem? (xs : List Value) (w : Int) (n : Nat) (d : Value)
    (h : xs[n]? = some d) : (expandSliceToSize xs w).getD n Value.null = d := by
  rw [getD_expandSliceToSize, List.getD_eq_getElem?_getD, h]
  rfl

theorem getElem?_expand_of_getElem? (xs : List Value) (w : Int) (n : Nat) (d : Value)
    (h : xs[n]? = some d) : (expandSliceToSize xs w)[n]? = some d := by
  have hlt : n < xs.length := by
    by_contra hge
    rw [List.getElem?_eq_none (by omega)] at h
    cases h
  simp only [expandSliceToSize]
  rw [List.getElem?_append_left hlt, h]

theorem merge_shape (r : List KeyPart) (s : KeyPart) (y t t' : Value)
    (h : merge (s :: r) y t = some t') :
    shapeOf t' = some (isField s) ∧ ∀ b, shapeOf t = some b → b = isField s := by
  cases s with
  | str k =>
    obtain ⟨m, ch, hm, _, rfl⟩ := merge_str_some k r y t t' h
    refine ⟨rfl, ?_⟩
    intro b hb
    cases t <;> simp_all [shapeOf, optMap, isField]
  | int i =>
    obtain ⟨s, ch, hs, _, _, _, rfl⟩ := merge_int_some i r y t t' h
    refine ⟨rfl, ?_⟩
    intro b hb
    cases t <;> simp_all [shapeOf, optSlice, isField]

/-- The value a merge stores is found at the end of its path. -/
theorem valueAt_merge_self : ∀ (p : List KeyPart) (x t t' : Value),
    merge p x t = some t' → valueAt t' p = some x
  | [], x, t, t', h => by simp [merge_nil] at h
  | KeyPart.str k :: ps, x, t, t', h => by
    obtain ⟨m, ch, _, hch, rfl⟩ := merge_str_some k ps x t t' h
    rw [valueAt_object_str, mapLookup_mapAssign_self, Option.some_bind]
    cases ps with
    | nil =>
      simp only [mergeChild, Option.some.injEq] at hch
      rw [hch]
      simp [valueAt]
    | cons a ps' => exact valueAt_merge_self (a :: ps') x _ ch hch
  | KeyPart.int i :: ps, x, t, t', h => by
    obtain ⟨s, ch, _, h0, hlt, hch, rfl⟩ := merge_int_some i ps x t t' h
    rw [valueAt_array_int, if_pos h0, List.getElem?_set_self (by omega), Option.some_bind]
    cases ps with
    | nil =>
      simp only [mergeChild, Option.some.injEq] at hch
      rw [hch]
      simp [valueAt]
    | cons a ps' => exact valueAt_merge_self (a :: ps') x _ ch hch

/-- A merge of the path `r` and a position `c` of which `r` is not a prefix:
the position still exists, it holds the same value unless the path passes
through it, and a container there keeps its shape. -/
theorem valueAt_merge_other : ∀ (r c : List KeyPart) (y t t' v : Value),
    merge r y t = some t' → ¬ r <+: c → valueAt t c = some v →
    ∃ v', valueAt t' c = some v' ∧ (¬ c <+: r → v' = v)
      ∧ ∀ b, shapeOf v = some b → shapeOf v' = some b
  | [], _, y, t, t', _, h, _, _ => by simp [merge_nil] at h
  | s :: rs, [], y, t, t', v, h, _, hv => by
    simp only [valueAt, Option.some.injEq] at hv
    subst hv
    refine ⟨t', by simp [valueAt], fun hn => absurd List.nil_prefix hn, ?_⟩
    intro b hb
    obtain ⟨h1, h2⟩ := merge_shape rs s y t t' h
    rw [h1, h2 b hb]
  | KeyPart.str k2 :: rs, KeyPart.int j :: c', y, t, t', v, h, _, hv => by
    obtain ⟨xs, d, rfl, _, _, _⟩ := valueAt_int_inv t j c' v hv
    obtain ⟨m, ch, hm, _, _⟩ := merge_str_some k2 rs y _ t' h
    simp [optMap] at hm
  | KeyPart.int j2 :: rs, KeyPart.str k :: c', y, t, t', v, h, _, hv => by
    obtain ⟨m, d, rfl, _, _⟩ := valueAt_str_inv t k c' v hv
    obtain ⟨s, ch, hs, _, _, _, _⟩ := merge_int_some j2 rs y _ t' h
    simp [optSlice] at hs
  | KeyPart.str k2 :: rs, KeyPart.str k :: c', y, t, t', v, h, hnp, hv => by
    obtain ⟨m, d, rfl, hl, hd⟩ := valueAt_str_inv t k c' v hv
    obtain ⟨m', ch, hm, hch, rfl⟩ := merge_str_some k2 rs y _ t' h
    simp only [optMap, Option.some.injEq] at hm
    subst hm
    by_cases hk : k2 = k
    · subst hk
      have hnp' : ¬ rs <+: c' := not_prefix_cons hnp
      have hne : rs ≠ [] := fun e => hnp' (e ▸ List.nil_prefix)
      rw [mergeChild_of_ne_nil _ _ _ hne, mapIndex_of_lookup hl] at hch
      obtain ⟨v', h1, h2, h3⟩ := valueAt_merge_other rs c' y d ch v hch hnp' hd
      refine ⟨v', ?_, ?_, h3⟩
      · rw [valueAt_object_str, mapLookup_mapAssign_self, Option.some_bind]
        exact h1
      · intro hn
        exact h2 (fun hp => hn (List.cons_prefix_cons.2 ⟨rfl, hp⟩))
    · refine ⟨v, ?_, fun _ => rfl, fun _ hb => hb⟩
      rw [valueAt_object_str, mapLookup_mapAssign_ne k k2 ch m (Ne.symm hk), hl,
        Option.some_bind]
      exact hd
  | KeyPart.int j2 :: rs, KeyPart.int j :: c', y, t, t', v, h, hnp, hv => by
    obtain ⟨xs, d, rfl, h0, hl, hd⟩ := valueAt_int_inv t j c' v hv
    obtain ⟨s, ch, hs, h02, hlt, hch, rfl⟩ := merge_int_some j2 rs y _ t' h
    simp only [optSlice, Option.some.injEq] at hs
    subst hs
    by_cases hj : j2 = j
    · subst hj
      have hnp' : ¬ rs <+: c' := not_prefix_cons hnp
      have hne : rs ≠ [] := fun e => hnp' (e ▸ List.nil_prefix)
      rw [mergeChild_of_ne_nil _ _ _ hne, getD_expand_of_getElem? _ _ _ _ hl] at hch
      obtain ⟨v', h1, h2, h3⟩ := valueAt_merge_other rs c' y d ch v hch hnp' hd
      refine ⟨v', ?_, ?_, h3⟩
      · rw [valueAt_array_int, if_pos h0, List.getElem?_set_self (by omega), Option.some_bind]
        exact h1
      · intro hn
        exact h2 (fun hp => hn (List.cons_prefix_cons.2 ⟨rfl, hp⟩))
    · refine ⟨v, ?_, fun _ => rfl, fun _ hb => hb⟩
      have hne : j2.toNat ≠ j.toNat := by omega
      rw [valueAt_array_int, if_pos h0, List.getElem?_set_ne hne,
        getElem?_expand_of_getElem? _ _ _ _ hl, Option.some_bind]
      exact hd

/-! ## Structural conflicts -/

/-- A merge along `c ++ s :: r` leaves at `c` a container of the shape the
segment `s` asks for. -/
theorem valueAt_merge_prefix : ∀ (c : List KeyPart) (s : KeyPart) (r : List KeyPart)
    (x t t' : Value), merge (c ++ s :: r) x t = some t' →
    ∃ v, valueAt t' c = some v ∧ shapeOf v = some (isField s)
  | [], s, r, x, t, t', h => by
    refine ⟨t', by simp [valueAt], ?_⟩
    exact (merge_shape r s x t t' h).1
  | KeyPart.str k :: c', s, r, x, t, t', h => by
    rw [List.cons_append] at h
    obtain ⟨m, ch, _, hch, rfl⟩ := merge_str_some k _ x t t' h
    rw [mergeChild_of_ne_nil _ _ _ (by simp)] at hch
    obtain ⟨v, hv, hs⟩ := valueAt_merge_prefix c' s r x _ ch hch
    refine ⟨v, ?_, hs⟩
    rw [valueAt_object_str, mapLookup_mapAssign_self, Option.some_bind]
    exact hv
  | KeyPart.int i :: c', s, r, x, t, t', h => by
    rw [List.cons_append] at h
    obtain ⟨sl, ch, _, h0, hlt, hch, rfl⟩ := merge_int_some i _ x t t' h
    rw [mergeChild_of_ne_nil _ _ _ (by simp)] at hch
    obtain ⟨v, hv, hs⟩ := valueAt_merge_prefix c' s r x _ ch hch
    refine ⟨v, ?_, hs⟩
    rw [valueAt_array_int, if_pos h0, List.getElem?_set_self (by omega), Option.some_bind]
    exact hv

/-- A merge that has to pass through a position fails when the rest of the
path cannot be merged into the value found there. -/
theorem merge_blocked : ∀ (c : List KeyPart) (s : KeyPart) (r : List KeyPart)
    (y t v : Value), valueAt t c = some v → merge (s :: r) y v = none →
    merge (c ++ s :: r) y t = none
  | [], s, r, y, t, v, hv, hn => by
    simp only [valueAt, Option.some.injEq] at hv
    subst hv
    exact hn
  | KeyPart.str k :: c', s, r, y, t, v, hv, hn => by
    obtain ⟨m, d, rfl, hl, hd⟩ := valueAt_str_inv t k c' v hv
    rw [List.cons_append, merge_str]
    simp only [optMap, Option.some_bind]
    rw [mergeChild_of_ne_nil _ _ _ (by simp), mapIndex_of_lookup hl,
      merge_blocked c' s r y d v hd hn]
    rfl
  | KeyPart.int j :: c', s, r, y, t, v, hv, hn => by
    obtain ⟨xs, d, rfl, h0, hl, hd⟩ := valueAt_int_inv t j c' v hv
    rw [List.cons_append, merge_int]
    simp only [optSlice, Option.some_bind]
    split
    · rw [mergeChild_of_ne_nil _ _ _ (by simp), getD_expand_of_getElem? _ _ _ _ hl,
        merge_blocked c' s r y d v hd hn]
      rfl
    · rfl

theorem merge_scalar_none (s : KeyPart) (r : List KeyPart) (y v : Value)
    (hv : isScalar v = true) : merge (s :: r) y v = none := by
  cases hm : merge (s :: r) y v with
  | none => rfl
  | some t' =>
    cases s with
    | str k =>
      obtain ⟨m, _, hmap, _, _⟩ := merge_str_some k r y v t' hm
      cases v <;> simp_all [isScalar, optMap]
    | int i =>
      obtain ⟨sl, _, hsl, _, _, _, _⟩ := merge_int_some i r y v t' hm
      cases v <;> simp_all [isScalar, optSlice]

theorem merge_shape_none (s : KeyPart) (r : List KeyPart) (y v : Value) (b : Bool)
    (hb : shapeOf v = some b) (hne : isField s ≠ b) : merge (s :: r) y v = none := by
  cases hm : merge (s :: r) y v with
  | none => rfl
  | some t' => exact absurd ((merge_shape r s y v t' hm).2 b hb).symm hne

theorem blocked_merge_none (t : Value) (c : List KeyPart) (s : KeyPart) (q : List KeyPart)
    (y : Value) (h : Blocked t c s) : merge (c ++ s :: q) y t = none := by
  obtain ⟨r, v, ⟨u, rfl⟩, hv, hcase⟩ := h
  rcases hcase with hsc | ⟨hrc, hsh⟩
  · rw [List.append_assoc]
    cases u with
    | nil => exact merge_blocked r s q y t v hv (merge_scalar_none s q y v hsc)
    | cons a u' =>
      exact merge_blocked r a (u' ++ s :: q) y t v hv (merge_scalar_none a _ y v hsc)
  · have hu : u = [] := by
      have := congrArg List.length hrc
      simp only [List.length_append] at this
      exact List.eq_nil_of_length_eq_zero (by omega)
    subst hu
    rw [List.append_nil]
    exact merge_blocked r s q y t v hv
      (merge_shape_none s q y v _ hsh (by cases isField s <;> simp))

theorem blocked_preserved (t t' : Value) (c : List KeyPart) (s : KeyPart)
    (p : List KeyPart) (y : Value) (h : Blocked t c s) (hm : merge p y t = some t')
    (hpc : ¬ p <+: c) : Blocked t' c s := by
  obtain ⟨r, v, hpre, hv, hcase⟩ := h
  have hpr : ¬ p <+: r := fun hp => hpc (hp.trans hpre)
  obtain ⟨v', hv', heq, hsh⟩ := valueAt_merge_other p r y t t' v hm hpr hv
  rcases hcase with hsc | ⟨hrc, hshape⟩
  · by_cases hrp : r <+: p
    · obtain ⟨u, rfl⟩ := hrp
      cases u with
      | nil => exact absurd (by simp) hpr
      | cons a u' =>
        rw [merge_blocked r a u' y t v hv (merge_scalar_none a u' y v hsc)] at hm
        cases hm
    · rw [heq hrp] at hv'
      exact ⟨r, v, hpre, hv', Or.inl hsc⟩
  · exact ⟨r, v', hpre, hv', Or.inr ⟨hrc, hsh _ hshape⟩⟩

theorem foldl_mergeEntry_cons_some (e : GoString × Value) (l : GoMap) (t : Value)
    (p : List KeyPart) (hp : splitFlatKey e.1 = Except.ok p) :
    (e :: l).foldl mergeEntry (some t) = l.foldl mergeEntry (merge p e.2 t) := by
  rw [List.foldl_cons]
  simp only [mergeEntry, hp]

theorem foldl_mergeEntry_cons_error (e : GoString × Value) (l : GoMap) (t : Value)
    (err : GoError) (hp : splitFlatKey e.1 = Except.error err) :
    (e :: l).foldl mergeEntry (some t) = none := by
  rw [List.foldl_cons]
  simp only [mergeEntry, hp]
  exact foldl_mergeEntry_none l

theorem eq_not_of_ne (a b : Bool) (h : a ≠ b) : a = !b := by
  cases a <;> cases b <;> simp_all

/-- Once the tree is blocked for the paths `c ++ s :: _`, and every later key
that decodes to a prefix of `c` holds a scalar, a key with such a path makes
the rest of the loop fail. -/
theorem foldl_mergeEntry_blocked (c : List KeyPart) (s : KeyPart) (q : List KeyPart) :
    ∀ (l : GoMap) (t : Value), Blocked t c s →
    (∀ e ∈ l, ∀ p, splitFlatKey e.1 = Except.ok p → p ≠ [] → p <+: c →
      isScalar e.2 = true) →
    (∃ e ∈ l, splitFlatKey e.1 = Except.ok (c ++ s :: q)) →
    l.foldl mergeEntry (some t) = none
  | [], _, _, _, hex => by
    obtain ⟨e, he, _⟩ := hex
    cases he
  | e :: l, t, hbl, hno, hex => by
    cases hk : splitFlatKey e.1 with
    | error err => exact foldl_mergeEntry_cons_error e l t err hk
    | ok p =>
      rw [foldl_mergeEntry_cons_some e l t p hk]
      cases hm : merge p e.2 t with
      | none => exact foldl_mergeEntry_none l
      | some t' =>
        have hpne : p ≠ [] := by
          rintro rfl
          simp [merge_nil] at hm
        have hno' : ∀ e' ∈ l, ∀ p, splitFlatKey e'.1 = Except.ok p → p ≠ [] → p <+: c →
            isScalar e'.2 = true := fun e' he' => hno e' (List.mem_cons_of_mem _ he')
        obtain ⟨e0, he0, hp0⟩ := hex
        rcases List.mem_cons.1 he0 with rfl | hin
        · rw [hk] at hp0
          injection hp0 with hp0
          subst hp0
          rw [blocked_merge_none t c s q e0.2 hbl] at hm
          cases hm
        · by_cases hpc : p <+: c
          · exact foldl_mergeEntry_blocked c s q l t'
              ⟨p, e.2, hpc, valueAt_merge_self p e.2 t t' hm,
                Or.inl (hno e (List.mem_cons_self _ _) p hk hpne hpc)⟩
              hno' ⟨e0, hin, hp0⟩
          · exact foldl_mergeEntry_blocked c s q l t'
              (blocked_preserved t t' c s p e.2 hbl hm hpc) hno' ⟨e0, hin, hp0⟩

/-- Two keys that need different shapes at `c`, and only scalars under the
keys that decode to a prefix of `c`: the loop fails from every state. -/
theorem foldl_mergeEntry_two_shapes (c : List KeyPart) (s₁ s₂ : KeyPart)
    (r₁ r₂ : List KeyPart) (hs : isField s₁ ≠ isField s₂) : ∀ (l : GoMap) (t : Value),
    (∀ e ∈ l, ∀ p, splitFlatKey e.1 = Except.ok p → p ≠ [] → p <+: c →
      isScalar e.2 = true) →
    (∃ e ∈ l, splitFlatKey e.1 = Except.ok (c ++ s₁ :: r₁)) →
    (∃ e ∈ l, splitFlatKey e.1 = Except.ok (c ++ s₂ :: r₂)) →
    l.foldl mergeEntry (some t) = none
  | [], _, _, hex, _ => by
    obtain ⟨e, he, _⟩ := hex
    cases he
  | e :: l, t, hno, hex₁, hex₂ => by
    cases hk : splitFlatKey e.1 with
    | error err => exact foldl_mergeEntry_cons_error e l t err hk
    | ok p =>
      rw [foldl_mergeEntry_cons_some e l t p hk]
      cases hm : merge p e.2 t with
      | none => exact foldl_mergeEntry_none l
      | some t' =>
        have hpne : p ≠ [] := by
          rintro rfl
          simp [merge_nil] at hm
        have hno' : ∀ e' ∈ l, ∀ p, splitFlatKey e'.1 = Except.ok p → p ≠ [] → p <+: c →
            isScalar e'.2 = true := fun e' he' => hno e' (List.mem_cons_of_mem _ he')
        have hs₁ : isField s₁ = !isField s₂ := eq_not_of_ne (isField s₁) (isField s₂) hs
        have hs₂ : isField s₂ = !isField s₁ :=
          eq_not_of_ne (isField s₂) (isField s₁) (Ne.symm hs)
        obtain ⟨a, ha, hpa⟩ := hex₁
        obtain ⟨b, hb, hpb⟩ := hex₂
        rcases List.mem_cons.1 ha with rfl | hina
        · rw [hk] at hpa
          injection hpa with hpa
          subst hpa
          obtain ⟨v, hv, hsv⟩ := valueAt_merge_prefix c s₁ r₁ a.2 t t' hm
          rcases List.mem_cons.1 hb with rfl | hinb
          · rw [hk] at hpb
            injection hpb with hpb
            have := List.append_cancel_left hpb
            injection this with h1 _
            exact absurd (congrArg isField h1) hs
          · exact foldl_mergeEntry_blocked c s₂ r₂ l t'
              ⟨c, v, List.prefix_refl c, hv, Or.inr ⟨rfl, hs₁ ▸ hsv⟩⟩ hno' ⟨b, hinb, hpb⟩
        · rcases List.mem_cons.1 hb with rfl | hinb
          · rw [hk] at hpb
            injection hpb with hpb
            subst hpb
            obtain ⟨v, hv, hsv⟩ := valueAt_merge_prefix c s₂ r₂ b.2 t t' hm
            exact foldl_mergeEntry_blocked c s₁ r₁ l t'
              ⟨c, v, List.prefix_refl c, hv, Or.inr ⟨rfl, hs₂ ▸ hsv⟩⟩ hno' ⟨a, hina, hpa⟩
          · by_cases hpc : p <+: c
            · exact foldl_mergeEntry_blocked c s₁ r₁ l t'
                ⟨p, e.2, hpc, valueAt_merge_self p e.2 t t' hm,
                  Or.inl (hno e (List.mem_cons_self _ _) p hk hpne hpc)⟩
                hno' ⟨a, hina, hpa⟩
            · exact foldl_mergeEntry_two_shapes c s₁ s₂ r₁ r₂ hs l t' hno'
                ⟨a, hina, hpa⟩ ⟨b, hinb, hpb⟩

/-- C11 (amended): when two keys of the map decode to paths that share a
prefix followed by a field in one and by an index in the other, and every key
of the map that decodes to a non-empty prefix of that shared prefix (the
shared prefix itself included) holds a boolean, a number or a string,
`Unflatten` returns no value, in whatever order the entries are processed. -/
theorem structural_conflict_fails (m m' : GoMap) (c : List KeyPart)
    (e₁ e₂ : GoString × Value) (name : GoString) (i : Int) (r₁ r₂ : List KeyPart)
    (hperm : m.Perm m') (h₁ : e₁ ∈ m) (h₂ : e₂ ∈ m)
    (hp₁ : splitFlatKey e₁.1 = Except.ok (c ++ KeyPart.str name :: r₁))
    (hp₂ : splitFlatKey e₂.1 = Except.ok (c ++ KeyPart.int i :: r₂))
    (hno : ∀ e ∈ m, ∀ p, splitFlatKey e.1 = Except.ok p → p ≠ [] → p <+: c →
      isScalar e.2 = true) :
    ObjectArrayConflict (c ++ KeyPart.str name :: r₁) (c ++ KeyPart.int i :: r₂)
      ∧ ∀ r, Unflatten m' ≠ Except.ok (r, none) := by
  refine ⟨⟨c, _, _, r₁, r₂, rfl, rfl, by simp [isField]⟩, ?_⟩
  intro r hr
  have hne : m' ≠ [] := by
    rintro rfl
    exact absurd (hperm.mem_iff.1 h₁) (List.not_mem_nil _)
  have hfail : m'.foldl mergeEntry (some Value.null) = none :=
    foldl_mergeEntry_two_shapes c (KeyPart.str name) (KeyPart.int i) r₁ r₂
      (by simp [isField]) m' Value.null
      (fun e he => hno e (hperm.mem_iff.2 he))
      ⟨e₁, hperm.mem_iff.1 h₁, hp₁⟩ ⟨e₂, hperm.mem_iff.1 h₂, hp₂⟩
  rw [Unflatten_of_ne_nil m' hne] at hr
  have := returnedValue_unflattenLoop m' Value.null
  rw [hr, hfail] at this
  simp [returnedValue] at this

/-- Witness of C11: the keys `a.b` and `a[0]`, with `a[0]` processed first. -/
theorem structural_conflict_fails_witness :
    Unflatten [("a[0]".toList, Value.number 2), ("a.b".toList, Value.number 1)]
        = Except.error Panic.typeAssertion
      ∧ ∀ r, Unflatten [("a[0]".toList, Value.number 2), ("a.b".toList, Value.number 1)]
          ≠ Except.ok (r, none) :=
  ⟨by decide,
   (structural_conflict_fails
      [("a.b".toList, Value.number 1), ("a[0]".toList, Value.number 2)]
      [("a[0]".toList, Value.number 2), ("a.b".toList, Value.number 1)]
      [KeyPart.str "a".toList] ("a.b".toList, Value.number 1) ("a[0]".toList, Value.number 2)
      "b".toList 0 [] [] (List.Perm.swap _ _ _) (by decide) (by decide) (by decide) (by decide)
      (by
        intro e he p hp _ hpre
        simp only [List.mem_cons, List.mem_singleton, List.not_mem_nil, or_false] at he
        rcases he with rfl | rfl
        · have h : splitFlatKey "a.b".toList
              = Except.ok [KeyPart.str "a".toList, KeyPart.str "b".toList] := by decide
          rw [h] at hp
          injection hp with hp
          subst hp
          exact absurd hpre (by decide)
        · have h : splitFlatKey "a[0]".toList
              = Except.ok [KeyPart.str "a".toList, KeyPart.int 0] := by decide
          rw [h] at hp
          injection hp with hp
          subst hp
          exact absurd hpre (by decide))).2⟩

/-- C11 as stated fails: the keys `a.b` and `a[0]` conflict at `a`, yet with
the key `a` holding nil processed between them `Unflatten` succeeds, because
the nil resets the node. -/
theorem structural_conflict_fails_counterexample :
    splitFlatKey "a.b".toList = Except.ok [KeyPart.str "a".toList, KeyPart.str "b".toList]
      ∧ splitFlatKey "a[0]".toList = Except.ok [KeyPart.str "a".toList, KeyPart.int 0]
      ∧ Unflatten [("a.b".toList, Value.number 1), ("a".toList, Value.null),
            ("a[0]".toList, Value.number 2)]
          = Except.ok (Value.object [("a".toList, Value.array [Value.number 2])], none) := by
  decide

/-! ## Merging compatible paths -/

theorem objectArrayConflict_cons (a : KeyPart) (p q : List KeyPart) :
    ObjectArrayConflict (a :: p) (a :: q) ↔ ObjectArrayConflict p q := by
  constructor
  · rintro ⟨c, s₁, s₂, r₁, r₂, h1, h2, hne⟩
    cases c with
    | nil =>
      simp only [List.nil_append, List.cons.injEq] at h1 h2
      exact absurd (by rw [← h1.1, ← h2.1]) hne
    | cons a' c' =>
      simp only [List.cons_append, List.cons.injEq] at h1 h2
      exact ⟨c', s₁, s₂, r₁, r₂, h1.2, h2.2, hne⟩
  · rintro ⟨c, s₁, s₂, r₁, r₂, h1, h2, hne⟩
    exact ⟨a :: c, s₁, s₂, r₁, r₂, by simp [h1], by simp [h2], hne⟩

theorem objectArrayConflict_iff : ∀ (p q : List KeyPart),
    ObjectArrayConflict p q ↔ conflictB p q = true
  | [], q => by
    simp only [conflictB, Bool.false_eq_true, iff_false]
    rintro ⟨c, s₁, s₂, r₁, r₂, h1, _, _⟩
    cases c <;> simp at h1
  | a :: p, [] => by
    simp only [conflictB, Bool.false_eq_true, iff_false]
    rintro ⟨c, s₁, s₂, r₁, r₂, _, h2, _⟩
    cases c <;> simp at h2
  | a :: p, b :: q => by
    by_cases hab : a = b
    · subst hab
      simp only [conflictB, if_true]
      rw [objectArrayConflict_cons]
      exact objectArrayConflict_iff p q
    · simp only [conflictB, hab, if_false, bne_iff_ne]
      constructor
      · rintro ⟨c, s₁, s₂, r₁, r₂, h1, h2, hne⟩
        cases c with
        | nil =>
          simp only [List.nil_append, List.cons.injEq] at h1 h2
          rw [h1.1, h2.1]
          exact hne
        | cons a' c' =>
          simp only [List.cons_append, List.cons.injEq] at h1 h2
          exact absurd (h1.1.trans h2.1.symm) hab
      · intro hne
        exact ⟨[], a, b, p, q, rfl, rfl, hne⟩

/-- A path that merged once merges again into the result. -/
theorem merge_again : ∀ (p : List KeyPart) (x y t t' : Value),
    merge p x t = some t' → ∃ t₃, merge p y t' = some t₃
  | [], x, y, t, t', h => by simp [merge_nil] at h
  | KeyPart.str k :: ps, x, y, t, t', h => by
    obtain ⟨m, ch, _, hch, rfl⟩ := merge_str_some k ps x t t' h
    rw [merge_str]
    simp only [optMap, Option.some_bind, mapIndex_mapAssign_self]
    cases ps with
    | nil => exact ⟨_, rfl⟩
    | cons a ps' =>
      obtain ⟨d, hd⟩ := merge_again (a :: ps') x y _ ch hch
      simp only [mergeChild, hd]
      exact ⟨_, rfl⟩
  | KeyPart.int i :: ps, x, y, t, t', h => by
    obtain ⟨s, ch, _, h0, hlt, hch, rfl⟩ := merge_int_some i ps x t t' h
    have hlt' : i.toNat < (expandSliceToSize s (wrapInt (i + 1))).length := by omega
    rw [merge_int]
    simp only [optSlice, Option.some_bind, expandSliceToSize_set _ _ _ _ hlt',
      expandSliceToSize_self, List.length_set]
    rw [if_pos ⟨h0, hlt⟩, List.getD_eq_getElem?_getD, List.getElem?_set_self hlt']
    cases ps with
    | nil => exact ⟨_, rfl⟩
    | cons a ps' =>
      obtain ⟨d, hd⟩ := merge_again (a :: ps') x y _ ch hch
      simp only [mergeChild, Option.getD_some, hd]
      exact ⟨_, rfl⟩

/-- After a merge along `p`, a compatible path `q` that could be merged into
the tree before can still be merged. -/
theorem merge_after : ∀ (p q : List KeyPart), CompatiblePaths p q →
    ∀ (x y t t' t₂ : Value), merge p x t = some t' → merge q y t = some t₂ →
    ∃ t₃, merge q y t' = some t₃
  | [], _, h, _, _, _, _, _, _, _ => absurd List.nil_prefix h.1
  | _ :: _, [], h, _, _, _, _, _, _, _ => absurd List.nil_prefix h.2.1
  | KeyPart.str k :: ps, KeyPart.int j :: qs, h, _, _, _, _, _, _, _ =>
    absurd ⟨[], _, _, ps, qs, rfl, rfl, by simp [isField]⟩ h.2.2
  | KeyPart.int i :: ps, KeyPart.str k :: qs, h, _, _, _, _, _, _, _ =>
    absurd ⟨[], _, _, ps, qs, rfl, rfl, by simp [isField]⟩ h.2.2
  | KeyPart.str k :: ps, KeyPart.str k' :: qs, h, x, y, t, t', t₂, hp, hq => by
    obtain ⟨m, ch, hm, hch, rfl⟩ := merge_str_some k ps x t t' hp
    obtain ⟨m₂, ch₂, hm₂, hch₂, rfl⟩ := merge_str_some k' qs y t t₂ hq
    rw [hm] at hm₂
    injection hm₂ with hm₂
    subst hm₂
    rw [merge_str]
    simp only [optMap, Option.some_bind]
    by_cases hk : k' = k
    · subst hk
      have h1 : ¬ ps <+: qs := not_prefix_cons h.1
      have h2 : ¬ qs <+: ps := not_prefix_cons h.2.1
      have hps : ps ≠ [] := fun e => h1 (e ▸ List.nil_prefix)
      have hqs : qs ≠ [] := fun e => h2 (e ▸ List.nil_prefix)
      rw [mergeChild_of_ne_nil _ _ _ hps] at hch
      rw [mergeChild_of_ne_nil _ _ _ hqs] at hch₂
      obtain ⟨d, hd⟩ := merge_after ps qs
        ⟨h1, h2, fun hc => h.2.2 ((objectArrayConflict_cons _ _ _).2 hc)⟩
        x y _ ch ch₂ hch hch₂
      rw [mapIndex_mapAssign_self, mergeChild_of_ne_nil _ _ _ hqs, hd]
      exact ⟨_, rfl⟩
    · rw [mapIndex_mapAssign_ne k' k ch m hk, hch₂]
      exact ⟨_, rfl⟩
  | KeyPart.int i :: ps, KeyPart.int j :: qs, h, x, y, t, t', t₂, hp, hq => by
    obtain ⟨s, ch, hs, h0, hlt, hch, rfl⟩ := merge_int_some i ps x t t' hp
    obtain ⟨s₂, ch₂, hs₂, h0₂, hlt₂, hch₂, rfl⟩ := merge_int_some j qs y t t₂ hq
    rw [hs] at hs₂
    injection hs₂ with hs₂
    subst hs₂
    have hlt' : i.toNat < (expandSliceToSize s (wrapInt (i + 1))).length := by omega
    rw [merge_int]
    simp only [optSlice, Option.some_bind, expandSliceToSize_set _ _ _ _ hlt', List.length_set]
    rw [if_pos ⟨h0₂, ((inBounds_expand s i j).2 ⟨h0₂, hlt₂⟩).2⟩]
    rw [getD_expandSliceToSize] at hch₂
    by_cases hj : j = i
    · subst hj
      have h1 : ¬ ps <+: qs := not_prefix_cons h.1
      have h2 : ¬ qs <+: ps := not_prefix_cons h.2.1
      have hps : ps ≠ [] := fun e => h1 (e ▸ List.nil_prefix)
      have hqs : qs ≠ [] := fun e => h2 (e ▸ List.nil_prefix)
      rw [mergeChild_of_ne_nil _ _ _ hps] at hch
      rw [mergeChild_of_ne_nil _ _ _ hqs, ← getD_expandSliceToSize s (wrapInt (j + 1))] at hch₂
      obtain ⟨d, hd⟩ := merge_after ps qs
        ⟨h1, h2, fun hc => h.2.2 ((objectArrayConflict_cons _ _ _).2 hc)⟩
        x y _ ch ch₂ hch hch₂
      rw [expandSliceToSize_self, List.getD_eq_getElem?_getD, List.getElem?_set_self hlt',
        mergeChild_of_ne_nil _ _ _ hqs]
      simp only [Option.getD_some, hd]
      exact ⟨_, rfl⟩
    · have hne : i.toNat ≠ j.toNat := by omega
      rw [List.getD_eq_getElem?_getD, List.getElem?_set_ne hne, ← List.getD_eq_getElem?_getD,
        getD_expandSliceToSize, getD_expandSliceToSize, hch₂]
      exact ⟨_, rfl⟩

/-- A non-empty path whose indices are at least 0 and below the largest `int`
merges into the nil tree. -/
theorem merge_null : ∀ (q : List KeyPart) (y : Value), q ≠ [] →
    (∀ i, KeyPart.int i ∈ q → 0 ≤ i ∧ i < maxInt) → ∃ t, merge q y Value.null = some t
  | [], _, h, _ => absurd rfl h
  | KeyPart.str k :: qs, y, _, hidx => by
    rw [merge_str]
    simp only [optMap, Option.some_bind]
    have hnull : mapIndex [] k = Value.null := rfl
    rw [hnull]
    cases qs with
    | nil => exact ⟨_, rfl⟩
    | cons a qs' =>
      obtain ⟨d, hd⟩ := merge_null (a :: qs') y (by simp)
        (fun i hi => hidx i (List.mem_cons_of_mem _ hi))
      simp only [mergeChild, hd]
      exact ⟨_, rfl⟩
  | KeyPart.int i :: qs, y, _, hidx => by
    obtain ⟨h0, h1⟩ := hidx i (List.mem_cons_self _ _)
    rw [merge_int]
    simp only [optSlice, Option.some_bind]
    have hlt : i < ((expandSliceToSize [] (wrapInt (i + 1))).length : Int) := by
      rw [length_expandSliceToSize, wrapInt_succ i h0 h1]
      simp only [List.length_nil]
      push_cast
      omega
    rw [if_pos ⟨h0, hlt⟩, getD_expandSliceToSize]
    have hnull : ([] : List Value).getD i.toNat Value.null = Value.null := rfl
    rw [hnull]
    cases qs with
    | nil => exact ⟨_, rfl⟩
    | cons a qs' =>
      obtain ⟨d, hd⟩ := merge_null (a :: qs') y (by simp)
        (fun i hi => hidx i (List.mem_cons_of_mem _ hi))
      simp only [mergeChild, hd]
      exact ⟨_, rfl⟩

/-- The loop over entries with pairwise compatible paths, each of which can be
merged into the starting tree: it succeeds, every entry is found at its path,
and the positions no path touches are kept. -/
theorem foldl_mergeEntry_lookup : ∀ (l : GoMap) (t : Value),
    (∀ e ∈ l, ∃ p t₂, splitFlatKey e.1 = Except.ok p ∧ merge p e.2 t = some t₂) →
    l.Pairwise (fun a b => ∀ p q, splitFlatKey a.1 = Except.ok p →
      splitFlatKey b.1 = Except.ok q → CompatiblePaths p q) →
    ∃ r, l.foldl mergeEntry (some t) = some r
      ∧ (∀ e ∈ l, ∀ p, splitFlatKey e.1 = Except.ok p → valueAt r p = some e.2)
      ∧ (∀ c v, valueAt t c = some v →
          (∀ e ∈ l, ∀ p, splitFlatKey e.1 = Except.ok p → ¬ p <+: c ∧ ¬ c <+: p) →
          valueAt r c = some v)
  | [], t, _, _ => ⟨t, rfl, fun _ he => absurd he (List.not_mem_nil _), fun _ _ hv _ => hv⟩
  | e :: l, t, hfit, hpair => by
    obtain ⟨p, t', hp, hm⟩ := hfit e (List.mem_cons_self _ _)
    obtain ⟨hhead, htail⟩ := List.pairwise_cons.1 hpair
    have hfit' : ∀ e' ∈ l, ∃ q t₂, splitFlatKey e'.1 = Except.ok q
        ∧ merge q e'.2 t' = some t₂ := by
      intro e' he'
      obtain ⟨q, t₂, hq, hmq⟩ := hfit e' (List.mem_cons_of_mem _ he')
      obtain ⟨t₃, h3⟩ := merge_after p q (hhead e' he' p q hp hq) e.2 e'.2 t t' t₂ hm hmq
      exact ⟨q, t₃, hq, h3⟩
    obtain ⟨r, hr, hlook, hkeep⟩ := foldl_mergeEntry_lookup l t' hfit' htail
    refine ⟨r, ?_, ?_, ?_⟩
    · rw [foldl_mergeEntry_cons_some e l t p hp, hm]
      exact hr
    · intro e' he' q hq
      rcases List.mem_cons.1 he' with rfl | hin
      · rw [hp] at hq
        injection hq with hq
        subst hq
        refine hkeep p e'.2 (valueAt_merge_self p e'.2 t t' hm) ?_
        intro e'' he'' q hq
        have := hhead e'' he'' p q hp hq
        exact ⟨this.2.1, this.1⟩
      · exact hlook e' hin q hq
    · intro c v hv hfree
      obtain ⟨hpc, hcp⟩ := hfree e (List.mem_cons_self _ _) p hp
      obtain ⟨v', hv', heq, _⟩ := valueAt_merge_other p c e.2 t t' v hm hpc hv
      rw [heq hcp] at hv'
      exact hkeep c v hv' (fun e' he' => hfree e' (List.mem_cons_of_mem _ he'))

/-- The loop over entries whose paths are pairwise equal or compatible, each
of which can be merged into the starting tree, succeeds. -/
theorem foldl_mergeEntry_isSome : ∀ (l : GoMap) (t : Value),
    (∀ e ∈ l, ∃ p t₂, splitFlatKey e.1 = Except.ok p ∧ merge p e.2 t = some t₂) →
    l.Pairwise (fun a b => ∀ p q, splitFlatKey a.1 = Except.ok p →
      splitFlatKey b.1 = Except.ok q → p = q ∨ CompatiblePaths p q) →
    ∃ r, l.foldl mergeEntry (some t) = some r
  | [], t, _, _ => ⟨t, rfl⟩
  | e :: l, t, hfit, hpair => by
    obtain ⟨p, t', hp, hm⟩ := hfit e (List.mem_cons_self _ _)
    obtain ⟨hhead, htail⟩ := List.pairwise_cons.1 hpair
    have hfit' : ∀ e' ∈ l, ∃ q t₂, splitFlatKey e'.1 = Except.ok q
        ∧ merge q e'.2 t' = some t₂ := by
      intro e' he'
      obtain ⟨q, t₂, hq, hmq⟩ := hfit e' (List.mem_cons_of_mem _ he')
      rcases hhead e' he' p q hp hq with rfl | hc
      · obtain ⟨t₃, h3⟩ := merge_again p e.2 e'.2 t t' hm
        exact ⟨p, t₃, hq, h3⟩
      · obtain ⟨t₃, h3⟩ := merge_after p q hc e.2 e'.2 t t' t₂ hm hmq
        exact ⟨q, t₃, hq, h3⟩
    obtain ⟨r, hr⟩ := foldl_mergeEntry_isSome l t' hfit' htail
    exact ⟨r, by rw [foldl_mergeEntry_cons_some e l t p hp, hm]; exact hr⟩

/-! ## Lookup after `Unflatten` -/

theorem compatiblePaths_symm {p q : List KeyPart} (h : CompatiblePaths p q) :
    CompatiblePaths q p := by
  refine ⟨h.2.1, h.1, ?_⟩
  rintro ⟨c, s₁, s₂, r₁, r₂, h1, h2, hne⟩
  exact h.2.2 ⟨c, s₂, s₁, r₂, r₁, h2, h1, Ne.symm hne⟩

theorem fits_null (m : GoMap)
    (hdec : ∀ e ∈ m, ∃ p, splitFlatKey e.1 = Except.ok p ∧ p ≠ []
      ∧ ∀ i, KeyPart.int i ∈ p → 0 ≤ i ∧ i < maxInt) :
    ∀ e ∈ m, ∃ p t₂, splitFlatKey e.1 = Except.ok p ∧ merge p e.2 Value.null = some t₂ := by
  intro e he
  obtain ⟨p, hp, hne, hidx⟩ := hdec e he
  obtain ⟨t₂, h2⟩ := merge_null p e.2 hne hidx
  exact ⟨p, t₂, hp, h2⟩

theorem Unflatten_of_foldl (m : GoMap) (r : Value) (hne : m ≠ [])
    (h : m.foldl mergeEntry (some Value.null) = some r) :
    Unflatten m = Except.ok (r, none) := by
  rw [Unflatten_of_ne_nil m hne]
  apply returnedValue_eq_some
  rw [returnedValue_unflattenLoop, h]

/-- Without an allocation limit: for keys that decode to non-empty, pairwise
compatible paths with every index at least 0 and below the largest `int`, the
run returns and every entry is found at its path. -/
theorem Unflatten_lookup (m : GoMap)
    (hdec : ∀ e ∈ m, ∃ p, splitFlatKey e.1 = Except.ok p ∧ p ≠ []
      ∧ ∀ i, KeyPart.int i ∈ p → 0 ≤ i ∧ i < maxInt)
    (hpair : m.Pairwise (fun a b => ∀ p q, splitFlatKey a.1 = Except.ok p →
      splitFlatKey b.1 = Except.ok q → CompatiblePaths p q)) :
    ∃ r, Unflatten m = Except.ok (r, none)
      ∧ ∀ e ∈ m, ∀ p, splitFlatKey e.1 = Except.ok p → valueAt r p = some e.2 := by
  by_cases hne : m = []
  · subst hne
    exact ⟨Value.object [], rfl, fun _ he => absurd he (List.not_mem_nil _)⟩
  · obtain ⟨r, hr, hlook, _⟩ := foldl_mergeEntry_lookup m Value.null (fits_null m hdec) hpair
    exact ⟨r, Unflatten_of_foldl m r hne hr, hlook⟩

/-! ## When `Unflatten` succeeds -/

/-- Without an allocation limit: for keys that decode to non-empty paths,
pairwise equal or compatible, with every index at least 0 and below the
largest `int`, the run returns in every order of the entries. -/
theorem Unflatten_returns (m m' : GoMap) (hperm : m.Perm m')
    (hdec : ∀ e ∈ m, ∃ p, splitFlatKey e.1 = Except.ok p ∧ p ≠ []
      ∧ ∀ i, KeyPart.int i ∈ p → 0 ≤ i ∧ i < maxInt)
    (hpair : m.Pairwise (fun a b => ∀ p q, splitFlatKey a.1 = Except.ok p →
      splitFlatKey b.1 = Except.ok q → p = q ∨ CompatiblePaths p q)) :
    (∃ r, Unflatten m' = Except.ok (r, none))
      ∧ (∀ pn, Unflatten m' ≠ Except.error pn)
      ∧ ∀ e ∈ m', ∀ p, splitFlatKey e.1 = Except.ok p →
          p ≠ [] ∧ ∃ t, unflatten p e.2 Value.null = Except.ok t := by
  have hdec' : ∀ e ∈ m', ∃ p, splitFlatKey e.1 = Except.ok p ∧ p ≠ []
      ∧ ∀ i, KeyPart.int i ∈ p → 0 ≤ i ∧ i < maxInt :=
    fun e he => hdec e (hperm.mem_iff.2 he)
  have hpair' : m'.Pairwise (fun a b => ∀ p q, splitFlatKey a.1 = Except.ok p →
      splitFlatKey b.1 = Except.ok q → p = q ∨ CompatiblePaths p q) := by
    refine hperm.pairwise hpair ?_
    intro a b hab p q hp hq
    rcases hab q p hq hp with h | h
    · exact Or.inl h.symm
    · exact Or.inr (compatiblePaths_symm h)
  have hsucc : ∃ r, Unflatten m' = Except.ok (r, none) := by
    by_cases hne : m' = []
    · subst hne
      exact ⟨Value.object [], rfl⟩
    · obtain ⟨r, hr⟩ := foldl_mergeEntry_isSome m' Value.null (fits_null m' hdec') hpair'
      exact ⟨r, Unflatten_of_foldl m' r hne hr⟩
  refine ⟨hsucc, ?_, ?_⟩
  · intro pn hpn
    obtain ⟨r, hr⟩ := hsucc
    rw [hr] at hpn
    cases hpn
  · intro e he p hp
    obtain ⟨p', hp', hne, hidx⟩ := hdec' e he
    obtain rfl := Except.ok.inj (hp'.symm.trans hp)
    obtain ⟨t, ht⟩ := merge_null p' e.2 hne hidx
    exact ⟨hne, t, unflatten_of_merge _ _ _ _ ht⟩

/-! ## Keys of different paths differ -/

theorem flatName_spec {name : GoString} (h : flatName name = true) :
    name ≠ [] ∧ ∀ c ∈ name, keySeparator c = false := by
  simp only [flatName, Bool.and_eq_true, decide_eq_true_eq, Bool.not_eq_true',
    List.contains_eq_any_beq, List.any_eq_false, beq_iff_eq] at h
  obtain ⟨⟨h1, h2⟩, h3⟩ := h
  refine ⟨h1, ?_⟩
  intro c hc
  have e1 : c ≠ '.' := fun e => h2 c hc e.symm
  have e2 : c ≠ '[' := fun e => h3 c hc e.symm
  simp [keySeparator, delimiter, e1, e2]

/-- Two texts free of separators, each followed by nothing or by a separator:
when the concatenations agree, so do the parts. -/
theorem append_eq_append_of_sep (sep : Char → Bool) : ∀ (a b u v : List Char),
    (∀ c ∈ a, sep c = false) → (∀ c ∈ b, sep c = false) →
    (∀ c, u.head? = some c → sep c = true) → (∀ c, v.head? = some c → sep c = true) →
    a ++ u = b ++ v → a = b ∧ u = v
  | [], [], _, _, _, _, _, _, h => ⟨rfl, h⟩
  | [], d :: b, u, v, _, hb, hu, _, h => by
    simp only [List.nil_append, List.cons_append] at h
    have h1 := hu d (by rw [h]; rfl)
    rw [hb d (List.mem_cons_self _ _)] at h1
    cases h1
  | c :: a, [], u, v, ha, _, _, hv, h => by
    simp only [List.nil_append, List.cons_append] at h
    have h1 := hv c (by rw [← h]; rfl)
    rw [ha c (List.mem_cons_self _ _)] at h1
    cases h1
  | c :: a, d :: b, u, v, ha, hb, hu, hv, h => by
    simp only [List.cons_append, List.cons.injEq] at h
    obtain ⟨e1, e2⟩ := append_eq_append_of_sep sep a b u v
      (fun x hx => ha x (List.mem_cons_of_mem _ hx))
      (fun x hx => hb x (List.mem_cons_of_mem _ hx)) hu hv h.2
    exact ⟨by rw [h.1, e1], e2⟩

theorem grammarTail_head (p : List KeyPart) :
    ∀ c, (grammarTail p).head? = some c → keySeparator c = true := by
  intro c hc
  cases p with
  | nil => simp [grammarTail] at hc
  | cons seg rest =>
    cases seg with
    | str name =>
      simp only [grammarTail, grammarSegment, Bool.false_eq_true, if_false, List.cons_append,
        List.head?_cons, Option.some.injEq] at hc
      subst hc
      decide
    | int index =>
      simp only [grammarTail, grammarSegment, List.cons_append, List.head?_cons,
        Option.some.injEq] at hc
      subst hc
      decide

theorem formatInt_inj (i j : Int) (hi : flatPart (KeyPart.int i) = true)
    (hj : flatPart (KeyPart.int j) = true) (h : formatInt i = formatInt j) : i = j := by
  simp only [flatPart, decide_eq_true_eq] at hi hj
  have h1 := Atoi_formatInt i hi.1 hi.2
  have h2 := Atoi_formatInt j hj.1 hj.2
  rw [h, h2] at h1
  exact (Option.some.inj h1).symm

theorem index_text_inj (i j : Int) (u v : List Char)
    (hi : flatPart (KeyPart.int i) = true) (hj : flatPart (KeyPart.int j) = true)
    (h : formatInt i ++ ']' :: u = formatInt j ++ ']' :: v) : i = j ∧ u = v := by
  have hnum : ∀ k : Int, ∀ c ∈ formatInt k, (c == ']') = false := by
    intro k c hc
    have := formatInt_chars k c hc
    by_cases e : c = ']'
    · subst e
      exact absurd this (by decide)
    · simpa using e
  obtain ⟨e1, e2⟩ := append_eq_append_of_sep (fun c => c == ']') (formatInt i) (formatInt j)
    (']' :: u) (']' :: v) (hnum i) (hnum j)
    (by intro c hc; simp only [List.head?_cons, Option.some.injEq] at hc; subst hc; rfl)
    (by intro c hc; simp only [List.head?_cons, Option.some.injEq] at hc; subst hc; rfl) h
  exact ⟨formatInt_inj i j hi hj e1, (List.cons.inj e2).2⟩

theorem grammarTail_inj : ∀ (p q : List KeyPart), (∀ seg ∈ p, flatPart seg = true) →
    (∀ seg ∈ q, flatPart seg = true) → grammarTail p = grammarTail q → p = q
  | [], [], _, _, _ => rfl
  | [], seg :: q, _, _, h => by
    cases seg <;> simp [grammarTail, grammarSegment] at h
  | seg :: p, [], _, _, h => by
    cases seg <;> simp [grammarTail, grammarSegment] at h
  | KeyPart.str a :: p, KeyPart.int j :: q, _, _, h => by
    simp [grammarTail, grammarSegment] at h
  | KeyPart.int i :: p, KeyPart.str b :: q, _, _, h => by
    simp [grammarTail, grammarSegment] at h
  | KeyPart.str a :: p, KeyPart.str b :: q, hp, hq, h => by
    simp only [grammarTail, grammarSegment, Bool.false_eq_true, if_false, List.cons_append,
      List.cons.injEq, true_and] at h
    obtain ⟨e1, e2⟩ := append_eq_append_of_sep keySeparator a b _ _
      (flatName_spec (hp _ (List.mem_cons_self _ _))).2
      (flatName_spec (hq _ (List.mem_cons_self _ _))).2
      (grammarTail_head p) (grammarTail_head q) h
    rw [e1, grammarTail_inj p q (fun s hs => hp s (List.mem_cons_of_mem _ hs))
      (fun s hs => hq s (List.mem_cons_of_mem _ hs)) e2]
  | KeyPart.int i :: p, KeyPart.int j :: q, hp, hq, h => by
    simp only [grammarTail, grammarSegment, List.cons_append, List.cons.injEq, true_and,
      List.append_assoc, List.singleton_append] at h
    obtain ⟨e1, e2⟩ := index_text_inj i j _ _ (hp _ (List.mem_cons_self _ _))
      (hq _ (List.mem_cons_self _ _)) h
    rw [e1, grammarTail_inj p q (fun s hs => hp s (List.mem_cons_of_mem _ hs))
      (fun s hs => hq s (List.mem_cons_of_mem _ hs)) e2]

theorem grammarKey_inj (p q : List KeyPart) (hp : ∀ seg ∈ p, flatPart seg = true)
    (hq : ∀ seg ∈ q, flatPart seg = true) (h : grammarKey p = grammarKey q) : p = q := by
  have hstr : ∀ (a : GoString) (r : List KeyPart), flatPart (KeyPart.str a) = true →
      grammarKey (KeyPart.str a :: r) = a ++ grammarTail r := by
    intro a r _
    simp [grammarKey, grammarSegment]
  have hint : ∀ (i : Int) (r : List KeyPart),
      grammarKey (KeyPart.int i :: r) = '[' :: (formatInt i ++ ']' :: grammarTail r) := by
    intro i r
    simp [grammarKey, grammarSegment]
  have hne : ∀ (a : GoString) (u : List Char), flatPart (KeyPart.str a) = true →
      ∃ c w, a ++ u = c :: w ∧ keySeparator c = false := by
    intro a u ha
    obtain ⟨h1, h2⟩ := flatName_spec ha
    cases a with
    | nil => exact absurd rfl h1
    | cons c a' => exact ⟨c, a' ++ u, rfl, h2 c (List.mem_cons_self _ _)⟩
  cases p with
  | nil =>
    cases q with
    | nil => rfl
    | cons seg q' =>
      cases seg with
      | str b =>
        obtain ⟨c, w, e, _⟩ := hne b (grammarTail q') (hq _ (List.mem_cons_self _ _))
        rw [hstr b q' (hq _ (List.mem_cons_self _ _)), e] at h
        simp [grammarKey] at h
      | int j =>
        rw [hint] at h
        simp [grammarKey] at h
  | cons seg p' =>
    have hp' : ∀ s ∈ p', flatPart s = true := fun s hs => hp s (List.mem_cons_of_mem _ hs)
    cases q with
    | nil =>
      cases seg with
      | str a =>
        obtain ⟨c, w, e, _⟩ := hne a (grammarTail p') (hp _ (List.mem_cons_self _ _))
        rw [hstr a p' (hp _ (List.mem_cons_self _ _)), e] at h
        simp [grammarKey] at h
      | int i =>
        rw [hint] at h
        simp [grammarKey] at h
    | cons seg' q' =>
      have hq' : ∀ s ∈ q', flatPart s = true := fun s hs => hq s (List.mem_cons_of_mem _ hs)
      cases seg with
      | str a =>
        have ha := hp _ (List.mem_cons_self _ _)
        cases seg' with
        | str b =>
          have hb := hq _ (List.mem_cons_self _ _)
          rw [hstr a p' ha, hstr b q' hb] at h
          obtain ⟨e1, e2⟩ := append_eq_append_of_sep keySeparator a b _ _
            (flatName_spec ha).2 (flatName_spec hb).2
            (grammarTail_head p') (grammarTail_head q') h
          rw [e1, grammarTail_inj p' q' hp' hq' e2]
        | int j =>
          obtain ⟨c, w, e, hc⟩ := hne a (grammarTail p') ha
          rw [hstr a p' ha, hint, e] at h
          injection h with h1 _
          subst h1
          exact absurd hc (by decide)
      | int i =>
        cases seg' with
        | str b =>
          have hb := hq _ (List.mem_cons_self _ _)
          obtain ⟨c, w, e, hc⟩ := hne b (grammarTail q') hb
          rw [hstr b q' hb, hint, e] at h
          injection h with h1 _
          subst h1
          exact absurd hc (by decide)
        | int j =>
          rw [hint, hint] at h
          obtain ⟨e1, e2⟩ := index_text_inj i j _ _ (hp _ (List.mem_cons_self _ _))
            (hq _ (List.mem_cons_self _ _)) (List.cons.inj h).2
          rw [e1, grammarTail_inj p' q' hp' hq' e2]

/-- Paths with names free of `.` and `[` have different keys. -/
theorem encode_injective_of_flat (p q : List KeyPart) (hp : ∀ seg ∈ p, flatPart seg = true)
    (hq : ∀ seg ∈ q, flatPart seg = true) (h : encode p = encode q) : p = q := by
  have hnil : ∀ r : List KeyPart, (∀ seg ∈ r, flatPart seg = true) →
      ∀ name rest, r ≠ KeyPart.str [] :: KeyPart.str name :: rest := by
    intro r hr name rest e
    have := hr (KeyPart.str []) (by rw [e]; simp)
    simp [flatPart, flatName] at this
  rw [encode_eq_grammarKey p (hnil p hp), encode_eq_grammarKey q (hnil q hq)] at h
  exact grammarKey_inj p q hp hq h

/-! ## What `flatten` writes when the names are not empty -/

mutual
theorem flatten_entries (P : GoString → Bool) (hP : ∀ n, P n = true → n ≠ []) :
    ∀ (v : Value) (key : GoString) (result : GoMap), key ≠ [] → allNames P v = true →
    flatten v key result
      = (leafEntries v).foldl (fun r e => mapAssign r (encodeFrom key e.1) e.2) result
  | Value.null, key, result, _, _ => rfl
  | Value.bool _, key, result, _, _ => rfl
  | Value.number _, key, result, _, _ => rfl
  | Value.str _, key, result, _, _ => rfl
  | Value.object fields, key, result, hk, hn => by
    rw [flatten, leafEntries]
    cases fields with
    | nil => simp [hk, flattenFields, encodeFrom]
    | cons f fs =>
      have h := flattenFields_entries P hP (f :: fs) key result (by simpa [allNames] using hn)
      simpa using h
  | Value.array elems, key, result, hk, hn => by
    rw [flatten, leafEntries]
    cases elems with
    | nil => simp [hk, flattenElems, encodeFrom]
    | cons x xs =>
      have h := flattenElems_entries P hP (x :: xs) 0 key result (by simpa [allNames] using hn)
      simpa using h
theorem flattenFields_entries (P : GoString → Bool) (hP : ∀ n, P n = true → n ≠ []) :
    ∀ (fs : List (GoString × Value)) (key : GoString) (result : GoMap),
    allNamesFields P fs = true →
    flattenFields fs key result
      = (fieldEntries fs).foldl (fun r e => mapAssign r (encodeFrom key e.1) e.2) result
  | [], key, result, _ => rfl
  | (k, c) :: rest, key, result, hn => by
    simp only [allNamesFields, Bool.and_eq_true] at hn
    obtain ⟨⟨hk, hc⟩, hrest⟩ := hn
    have hne : getFlattenedNestedKey key k ≠ [] := by
      have hk' := hP k hk
      unfold getFlattenedNestedKey
      split
      · exact hk'
      · simp
    rw [flattenFields, fieldEntries, List.foldl_append,
      flatten_entries P hP c (getFlattenedNestedKey key k) result hne hc,
      flattenFields_entries P hP rest key _ hrest]
    congr 1
    exact (foldl_map_entries (fun r k v => mapAssign r k v) (fun p => KeyPart.str k :: p)
      (encodeFrom key) (encodeFrom (getFlattenedNestedKey key k)) (fun _ => rfl)
      (leafEntries c) result).symm
theorem flattenElems_entries (P : GoString → Bool) (hP : ∀ n, P n = true → n ≠ []) :
    ∀ (xs : List Value) (index : Nat) (key : GoString) (result : GoMap),
    allNamesElems P xs = true →
    flattenElems xs index key result
      = (elemEntries xs index).foldl (fun r e => mapAssign r (encodeFrom key e.1) e.2) result
  | [], _, key, result, _ => rfl
  | c :: rest, index, key, result, hn => by
    simp only [allNamesElems, Bool.and_eq_true] at hn
    obtain ⟨hc, hrest⟩ := hn
    have hne : getFlattenedSliceKey key index ≠ [] := by simp [getFlattenedSliceKey]
    rw [flattenElems, elemEntries, List.foldl_append,
      flatten_entries P hP c (getFlattenedSliceKey key index) result hne hc,
      flattenElems_entries P hP rest (index + 1) key _ hrest]
    congr 1
    exact (foldl_map_entries (fun r k v => mapAssign r k v) (fun p => KeyPart.int index :: p)
      (encodeFrom key) (encodeFrom (getFlattenedSliceKey key index)) (fun _ => rfl)
      (leafEntries c) result).symm
end

theorem Flatten_entries (v : Value) (hroot : isContainer v = true)
    (hn : allNames flatName v = true) :
    Flatten v = (rootEntries v).foldl (fun r e => mapAssign r (encode e.1) e.2) [] := by
  have hP : ∀ n, flatName n = true → n ≠ [] := fun n h => (flatName_spec h).1
  cases v with
  | object fields =>
    have h := flattenFields_entries flatName hP fields [] [] (by simpa [allNames] using hn)
    simpa [Flatten, flatten, rootEntries, encode] using h
  | array elems =>
    have h := flattenElems_entries flatName hP elems 0 [] [] (by simpa [allNames] using hn)
    simpa [Flatten, flatten, rootEntries, encode] using h
  | null => simp [isContainer] at hroot
  | bool _ => simp [isContainer] at hroot
  | number _ => simp [isContainer] at hroot
  | str _ => simp [isContainer] at hroot

mutual
theorem leafEntries_flat : ∀ (v : Value), allNames flatName v = true → isGoValue v = true →
    ∀ e ∈ leafEntries v, ∀ seg ∈ e.1, flatPart seg = true
  | Value.null, _, _ => by simp [leafEntries]
  | Value.bool _, _, _ => by simp [leafEntries]
  | Value.number _, _, _ => by simp [leafEntries]
  | Value.str _, _, _ => by simp [leafEntries]
  | Value.object fields, hn, h => by
    rw [leafEntries]
    split
    · simp
    · exact fieldEntries_flat fields (by simpa [allNames] using hn) (by simpa [isGoValue] using h)
  | Value.array elems, hn, h => by
    rw [leafEntries]
    split
    · simp
    · simp only [isGoValue, Bool.and_eq_true, decide_eq_true_eq] at h
      exact elemEntries_flat elems 0 (by simpa [allNames] using hn) h.2
        (by push_cast; omega)
theorem fieldEntries_flat : ∀ (fs : List (GoString × Value)),
    allNamesFields flatName fs = true → isGoFields fs = true →
    ∀ e ∈ fieldEntries fs, ∀ seg ∈ e.1, flatPart seg = true
  | [], _, _ => by simp [fieldEntries]
  | (k, c) :: rest, hn, h => by
    simp only [isGoFields, Bool.and_eq_true, Bool.not_eq_true'] at h
    simp only [allNamesFields, Bool.and_eq_true] at hn
    intro e he seg hseg
    simp only [fieldEntries, List.mem_append, List.mem_map] at he
    rcases he with ⟨e', he', rfl⟩ | he
    · rcases List.mem_cons.1 hseg with rfl | hseg
      · exact hn.1.1
      · exact leafEntries_flat c hn.1.2 h.1.2 e' he' seg hseg
    · exact fieldEntries_flat rest hn.2 h.2 e he seg hseg
theorem elemEntries_flat : ∀ (xs : List Value) (i : Nat),
    allNamesElems flatName xs = true → isGoElems xs = true →
    ((i : Int) + xs.length ≤ maxInt + 1) →
    ∀ e ∈ elemEntries xs i, ∀ seg ∈ e.1, flatPart seg = true
  | [], _, _, _, _ => by simp [elemEntries]
  | c :: rest, i, hn, h, hlen => by
    simp only [isGoElems, Bool.and_eq_true] at h
    simp only [allNamesElems, Bool.and_eq_true] at hn
    simp only [List.length_cons] at hlen
    intro e he seg hseg
    simp only [elemEntries, List.mem_append, List.mem_map] at he
    rcases he with ⟨e', he', rfl⟩ | he
    · rcases List.mem_cons.1 hseg with rfl | hseg
      · simp only [flatPart, decide_eq_true_eq, minInt]
        constructor <;> push_cast at hlen <;> omega
      · exact leafEntries_flat c hn.1 h.1 e' he' seg hseg
    · exact elemEntries_flat rest (i + 1) hn.2 h.2 (by push_cast at hlen ⊢; omega) e he seg hseg
end

theorem rootEntries_flat (v : Value) (hn : allNames flatName v = true)
    (h : isGoValue v = true) : ∀ e ∈ rootEntries v, ∀ seg ∈ e.1, flatPart seg = true := by
  cases v with
  | object fields =>
    exact fieldEntries_flat fields (by simpa [allNames] using hn) (by simpa [isGoValue] using h)
  | array elems =>
    simp only [isGoValue, Bool.and_eq_true, decide_eq_true_eq] at h
    exact elemEntries_flat elems 0 (by simpa [allNames] using hn) h.2 (by push_cast; omega)
  | null => simp [rootEntries]
  | bool _ => simp [rootEntries]
  | number _ => simp [rootEntries]
  | str _ => simp [rootEntries]

/-! ## The entries of a value visited in another order -/

theorem fieldEntries_append (a b : List (GoString × Value)) :
    fieldEntries (a ++ b) = fieldEntries a ++ fieldEntries b := by
  induction a with
  | nil => simp [fieldEntries]
  | cons f a ih =>
    obtain ⟨k, c⟩ := f
    simp [fieldEntries, ih]

theorem elemEntries_append (a b : List Value) :
    ∀ i : Nat, elemEntries (a ++ b) i = elemEntries a i ++ elemEntries b (i + a.length) := by
  induction a with
  | nil => intro i; simp [elemEntries]
  | cons c a ih =>
    intro i
    have e : i + 1 + a.length = i + (a.length + 1) := by omega
    rw [List.cons_append, elemEntries, elemEntries, ih (i + 1), List.append_assoc,
      List.length_cons, e]

theorem fieldEntries_perm {fs fs' : List (GoString × Value)} (h : fs.Perm fs') :
    (fieldEntries fs).Perm (fieldEntries fs') := by
  induction h with
  | nil => exact List.Perm.refl _
  | cons f _ ih =>
    obtain ⟨k, c⟩ := f
    simp only [fieldEntries]
    exact List.Perm.append_left _ ih
  | swap f g l =>
    obtain ⟨k, c⟩ := f
    obtain ⟨k', c'⟩ := g
    simp only [fieldEntries, ← List.append_assoc]
    exact List.Perm.append_right _ List.perm_append_comm
  | trans _ _ ih1 ih2 => exact ih1.trans ih2

theorem allNamesFields_append (P : GoString → Bool) (a b : List (GoString × Value)) :
    allNamesFields P (a ++ b) = (allNamesFields P a && allNamesFields P b) := by
  induction a with
  | nil => simp [allNamesFields]
  | cons f a ih =>
    obtain ⟨k, c⟩ := f
    simp [allNamesFields, ih, Bool.and_assoc]

theorem allNamesElems_append (P : GoString → Bool) (a b : List Value) :
    allNamesElems P (a ++ b) = (allNamesElems P a && allNamesElems P b) := by
  induction a with
  | nil => simp [allNamesElems]
  | cons c a ih => simp [allNamesElems, ih, Bool.and_assoc]

theorem allNamesFields_perm (P : GoString → Bool) {fs fs' : List (GoString × Value)}
    (h : fs.Perm fs') : allNamesFields P fs = allNamesFields P fs' := by
  induction h with
  | nil => rfl
  | cons f _ ih =>
    obtain ⟨k, c⟩ := f
    simp only [allNamesFields, ih]
  | swap f g l =>
    obtain ⟨k, c⟩ := f
    obtain ⟨k', c'⟩ := g
    simp only [allNamesFields]
    cases P k <;> cases P k' <;> cases allNames P c <;> cases allNames P c' <;> rfl
  | trans _ _ ih1 ih2 => exact ih1.trans ih2

theorem reorder_entries {a b : Value} (h : Reorder a b) :
    (leafEntries a).Perm (leafEntries b) ∧ (rootEntries a).Perm (rootEntries b) := by
  induction h with
  | refl v => exact ⟨List.Perm.refl _, List.Perm.refl _⟩
  | trans _ _ ih1 ih2 => exact ⟨ih1.1.trans ih2.1, ih1.2.trans ih2.2⟩
  | @perm fs fs' hp =>
    refine ⟨?_, fieldEntries_perm hp⟩
    cases fs with
    | nil =>
      rw [List.nil_perm.1 hp]
    | cons f fs =>
      cases fs' with
      | nil => exact absurd (List.perm_nil.1 hp) (by simp)
      | cons g fs' =>
        simp only [leafEntries, List.isEmpty_cons, Bool.false_eq_true, if_false]
        exact fieldEntries_perm hp
  | @field pre post name c c' _ ih =>
    have hp : (fieldEntries (pre ++ (name, c) :: post)).Perm
        (fieldEntries (pre ++ (name, c') :: post)) := by
      rw [fieldEntries_append, fieldEntries_append]
      simp only [fieldEntries]
      exact List.Perm.append_left _ (List.Perm.append_right _ (ih.1.map _))
    refine ⟨?_, hp⟩
    have e1 : (pre ++ (name, c) :: post).isEmpty = false := by cases pre <;> rfl
    have e2 : (pre ++ (name, c') :: post).isEmpty = false := by cases pre <;> rfl
    simp only [leafEntries, e1, e2, Bool.false_eq_true, if_false]
    exact hp
  | @elem pre post c c' _ ih =>
    have hp : (elemEntries (pre ++ c :: post) 0).Perm (elemEntries (pre ++ c' :: post) 0) := by
      rw [elemEntries_append, elemEntries_append]
      simp only [elemEntries]
      exact List.Perm.append_left _ (List.Perm.append_right _ (ih.1.map _))
    refine ⟨?_, hp⟩
    have e1 : (pre ++ c :: post).isEmpty = false := by cases pre <;> rfl
    have e2 : (pre ++ c' :: post).isEmpty = false := by cases pre <;> rfl
    simp only [leafEntries, e1, e2, Bool.false_eq_true, if_false]
    exact hp

theorem reorder_allNames (P : GoString → Bool) {a b : Value} (h : Reorder a b) :
    allNames P a = allNames P b := by
  induction h with
  | refl v => rfl
  | trans _ _ ih1 ih2 => exact ih1.trans ih2
  | perm hp =>
    simp only [allNames]
    exact allNamesFields_perm P hp
  | @field pre post name c c' _ ih =>
    simp only [allNames, allNamesFields_append, allNamesFields, ih]
  | @elem pre post c c' _ ih =>
    simp only [allNames, allNamesElems_append, allNamesElems, ih]

theorem reorder_isContainer {a b : Value} (h : Reorder a b) :
    isContainer a = isContainer b := by
  induction h with
  | refl v => rfl
  | trans _ _ ih1 ih2 => exact ih1.trans ih2
  | perm _ => rfl
  | field _ _ => rfl
  | elem _ _ => rfl

theorem reorder_of_not_container {a b : Value} (h : Reorder a b)
    (ha : isContainer a = false) : b = a := by
  induction h with
  | refl v => rfl
  | trans _ _ ih1 ih2 =>
    have e1 := ih1 ha
    subst e1
    exact ih2 ha
  | perm _ => simp [isContainer] at ha
  | field _ _ => simp [isContainer] at ha
  | elem _ _ => simp [isContainer] at ha

/-- The map `Flatten` builds does not depend on the order in which the fields
are visited, when no field name is empty or contains `.` or `[`. -/
theorem Flatten_reorder (v v' : Value) (hgo : isGoValue v = true)
    (hn : allNames flatName v = true) (hr : Reorder v v') : Flatten v' = Flatten v := by
  cases hc : isContainer v with
  | false => rw [reorder_of_not_container hr hc]
  | true =>
    have hc' : isContainer v' = true := by rw [← reorder_isContainer hr, hc]
    have hn' : allNames flatName v' = true := by rw [← reorder_allNames flatName hr, hn]
    rw [Flatten_entries v hc hn, Flatten_entries v' hc' hn']
    symm
    apply List.Perm.foldl_eq' (reorder_entries hr).2
    intro x hx y hy z
    by_cases hxy : x = y
    · rw [hxy]
    · have hind : IndependentPaths x y :=
        (rootEntries_independent v hgo).forall
          (fun _ _ h => ⟨h.2, h.1⟩) hx hy hxy
      have hne : encode x.1 ≠ encode y.1 := by
        intro he
        have := encode_injective_of_flat x.1 y.1 (rootEntries_flat v hn hgo x hx)
          (rootEntries_flat v hn hgo y hy) he
        exact hind.1 (this ▸ List.prefix_refl _)
      exact mapAssign_comm _ _ _ _ _ hne

/-! ## `Flatten` and the order of visiting -/

/-- C14 (amended): for every value whose field names are not empty and
contain neither `.` nor `[`, the map returned by `Flatten` is the same
whatever order the fields of each of its objects are visited in. -/
theorem flatten_deterministic (v v' : Value) (hgo : isGoValue v = true)
    (hnames : allNames flatName v = true) (hr : Reorder v v') :
    Flatten v' = Flatten v ∧ FlattenResult v' = FlattenResult v := by
  have h := Flatten_reorder v v' hgo hnames hr
  exact ⟨h, by simp only [FlattenResult, h]⟩

/-- Witness of C14: an object visited in two orders, at the root and below;
the name `d]` shows that a `]` in a name does no harm. -/
theorem flatten_deterministic_witness :
    Flatten (Value.object [
        ("b".toList, Value.object [("d]".toList, Value.number 3), ("c".toList, Value.number 2)]),
        ("a".toList, Value.array [Value.number 1])])
      = Flatten (Value.object [("a".toList, Value.array [Value.number 1]),
        ("b".toList, Value.object [("c".toList, Value.number 2), ("d]".toList, Value.number 3)])])
    ∧ Flatten (Value.object [("a".toList, Value.array [Value.number 1]),
        ("b".toList, Value.object [("c".toList, Value.number 2), ("d]".toList, Value.number 3)])])
      = [("a[0]".toList, Value.number 1), ("b.c".toList, Value.number 2),
          ("b.d]".toList, Value.number 3)] :=
  ⟨(flatten_deterministic
      (Value.object [("a".toList, Value.array [Value.number 1]),
        ("b".toList, Value.object [("c".toList, Value.number 2), ("d]".toList, Value.number 3)])])
      (Value.object [
        ("b".toList, Value.object [("d]".toList, Value.number 3), ("c".toList, Value.number 2)]),
        ("a".toList, Value.array [Value.number 1])])
      (by decide) (by decide)
      (Reorder.trans
        (@Reorder.field [("a".toList, Value.array [Value.number 1])] [] "b".toList _ _
          (Reorder.perm (List.Perm.swap _ _ _)))
        (Reorder.perm (List.Perm.swap _ _ _)))).1,
   by decide⟩

/-- C14 as stated fails: in each of these objects two leaves get the same
key (a name with `.`, a name with `[`, an empty name), so the value kept under
that key is the one of the field visited last. -/
theorem flatten_deterministic_counterexample :
    (Reorder
        (Value.object [("a.b".toList, Value.number 1),
          ("a".toList, Value.object [("b".toList, Value.number 2)])])
        (Value.object [("a".toList, Value.object [("b".toList, Value.number 2)]),
          ("a.b".toList, Value.number 1)])
      ∧ Flatten (Value.object [("a.b".toList, Value.number 1),
          ("a".toList, Value.object [("b".toList, Value.number 2)])])
        = [("a.b".toList, Value.number 2)]
      ∧ Flatten (Value.object [("a".toList, Value.object [("b".toList, Value.number 2)]),
          ("a.b".toList, Value.number 1)])
        = [("a.b".toList, Value.number 1)])
    ∧ (Reorder
        (Value.object [("a[0]".toList, Value.number 1),
          ("a".toList, Value.array [Value.number 2])])
        (Value.object [("a".toList, Value.array [Value.number 2]),
          ("a[0]".toList, Value.number 1)])
      ∧ Flatten (Value.object [("a[0]".toList, Value.number 1),
          ("a".toList, Value.array [Value.number 2])])
        = [("a[0]".toList, Value.number 2)]
      ∧ Flatten (Value.object [("a".toList, Value.array [Value.number 2]),
          ("a[0]".toList, Value.number 1)])
        = [("a[0]".toList, Value.number 1)])
    ∧ (Reorder
        (Value.object [([], Value.object [("a".toList, Value.number 1)]),
          ("a".toList, Value.number 2)])
        (Value.object [("a".toList, Value.number 2),
          ([], Value.object [("a".toList, Value.number 1)])])
      ∧ Flatten (Value.object [([], Value.object [("a".toList, Value.number 1)]),
          ("a".toList, Value.number 2)])
        = [("a".toList, Value.number 2)]
      ∧ Flatten (Value.object [("a".toList, Value.number 2),
          ([], Value.object [("a".toList, Value.number 1)])])
        = [("a".toList, Value.number 1)]) :=
  ⟨⟨Reorder.perm (List.Perm.swap _ _ _), by decide, by decide⟩,
   ⟨Reorder.perm (List.Perm.swap _ _ _), by decide, by decide⟩,
   ⟨Reorder.perm (List.Perm.swap _ _ _), by decide, by decide⟩⟩

/-! ## Round trip in every order -/

theorem plainName_flatName (name : GoString) (h : plainName name = true) :
    flatName name = true := by
  simp only [plainName, Bool.and_eq_true] at h
  simp only [flatName, Bool.and_eq_true]
  exact h.1

/-- C18: for every value whose root is an object (possibly empty) or a
non-empty array, and all of whose field names are non-empty and contain none
of `.`, `[`, `]`, `Unflatten` applied to the map of `Flatten` returns the
value with no error, whatever order `Flatten` visits the fields in and
whatever order `Unflatten` processes the entries in. -/
theorem round_trip_any_order (v v' : Value) (hroot : isContainer v = true)
    (hne : v ≠ Value.array []) (hnames : namesOk v = true) (hgo : isGoValue v = true)
    (hr : Reorder v v') (m : GoMap) (hperm : m.Perm (Flatten v')) :
    Unflatten m = Except.ok (canon v, none) ∧ deepEqual v (canon v) = true := by
  have hflat : allNames flatName v = true :=
    allNames_mono plainName flatName plainName_flatName v hnames
  rw [Flatten_reorder v v' hgo hflat hr] at hperm
  exact ⟨Unflatten_Flatten v hroot hne (namesOk_good v hnames) hgo m hperm,
    deepEqual_canon v hgo⟩

/-- Witness of C18: the fields visited in another order at the root and below,
and the entries of the flat map processed in reverse order. -/
theorem round_trip_any_order_witness :
    Unflatten (Flatten (Value.object [
        ("b".toList, Value.object [("d".toList, Value.object []), ("c".toList, Value.null)]),
        ("a".toList, Value.array [Value.number 1, Value.array []])])).reverse
      = Except.ok (canon (Value.object [
        ("a".toList, Value.array [Value.number 1, Value.array []]),
        ("b".toList, Value.object [("c".toList, Value.null), ("d".toList, Value.object [])])]),
        none)
      ∧ deepEqual (Value.object [
        ("a".toList, Value.array [Value.number 1, Value.array []]),
        ("b".toList, Value.object [("c".toList, Value.null), ("d".toList, Value.object [])])])
        (canon (Value.object [
        ("a".toList, Value.array [Value.number 1, Value.array []]),
        ("b".toList, Value.object [("c".toList, Value.null), ("d".toList, Value.object [])])]))
        = true :=
  round_trip_any_order
    (Value.object [
      ("a".toList, Value.array [Value.number 1, Value.array []]),
      ("b".toList, Value.object [("c".toList, Value.null), ("d".toList, Value.object [])])])
    (Value.object [
      ("b".toList, Value.object [("d".toList, Value.object []), ("c".toList, Value.null)]),
      ("a".toList, Value.array [Value.number 1, Value.array []])])
    (by decide) (by decide) (by decide) (by decide)
    (Reorder.trans
      (@Reorder.field [("a".toList, Value.array [Value.number 1, Value.array []])] []
        "b".toList _ _ (Reorder.perm (List.Perm.swap _ _ _)))
      (Reorder.perm (List.Perm.swap _ _ _)))
    _ (List.reverse_perm _)

/-! ## Runs within the allocation limit -/

theorem wrapInt_le_self (x : Int) (h : minInt ≤ x) : wrapInt x ≤ x := by
  simp only [wrapInt, minInt] at *
  omega

theorem expandSliceToSizeWithin_of_le (limit : Nat) (slice : List Value) (key : Int)
    (h0 : 0 ≤ key) (hl : key < limit) :
    expandSliceToSizeWithin limit slice (wrapInt (key + 1))
      = some (expandSliceToSize slice (wrapInt (key + 1))) := by
  unfold expandSliceToSizeWithin
  split
  · rename_i h
    rw [expandSliceToSize_of_le slice _ h]
  · have hw := wrapInt_le_self (key + 1) (by simp only [minInt]; omega)
    rw [if_pos (by omega)]

theorem expandSliceToSizeWithin_some (limit : Nat) (slice s : List Value) (size : Int)
    (h : expandSliceToSizeWithin limit slice size = some s) :
    s = expandSliceToSize slice size := by
  unfold expandSliceToSizeWithin at h
  split at h
  · rename_i hle
    rw [expandSliceToSize_of_le slice _ hle]
    exact (Option.some.inj h).symm
  · split at h
    · exact (Option.some.inj h).symm
    · cases h

/-- A run whose indices are at least 0 and below the limit never fails to
allocate: it ends as the run without a limit does. -/
theorem unflattenWithin_eq (limit : Nat) : ∀ (p : List KeyPart) (x t : Value),
    (∀ j, KeyPart.int j ∈ p → 0 ≤ j ∧ j < (limit : Int)) →
    unflattenWithin limit p x t = withinLimit (unflatten p x t)
  | [], _, _, _ => rfl
  | KeyPart.int key :: ps, x, t, h => by
    obtain ⟨h0, hl⟩ := h key (List.mem_cons_self _ _)
    rw [unflattenWithin, unflatten]
    cases asSlice t with
    | error p => rfl
    | ok slice =>
      simp only [expandSliceToSizeWithin_of_le limit slice key h0 hl]
      split
      · cases ps with
        | nil => rfl
        | cons a ps' =>
          simp only
          rw [unflattenWithin_eq limit (a :: ps') x _
            (fun j hj => h j (List.mem_cons_of_mem _ hj))]
          cases unflatten (a :: ps') x _ <;> rfl
      · rfl
  | KeyPart.str key :: ps, x, t, h => by
    rw [unflattenWithin, unflatten]
    cases asMap t with
    | error p => rfl
    | ok m =>
      cases ps with
      | nil => rfl
      | cons a ps' =>
        simp only
        rw [unflattenWithin_eq limit (a :: ps') x _
          (fun j hj => h j (List.mem_cons_of_mem _ hj))]
        cases unflatten (a :: ps') x _ <;> rfl

theorem unflattenLoopWithin_eq (limit : Nat) : ∀ (m : GoMap) (t : Value),
    (∀ e ∈ m, ∀ p, splitFlatKey e.1 = Except.ok p →
      ∀ j, KeyPart.int j ∈ p → 0 ≤ j ∧ j < (limit : Int)) →
    unflattenLoopWithin limit m t = withinLimit (unflattenLoop m t)
  | [], _, _ => rfl
  | (key, value) :: rest, t, h => by
    rw [unflattenLoopWithin, unflattenLoop]
    cases hk : splitFlatKey key with
    | error err => rfl
    | ok p =>
      simp only
      rw [unflattenWithin_eq limit p value t (h (key, value) (List.mem_cons_self _ _) p hk)]
      cases unflatten p value t with
      | error f => rfl
      | ok t' =>
        exact unflattenLoopWithin_eq limit rest t'
          (fun e he => h e (List.mem_cons_of_mem _ he))

theorem UnflattenWithin_eq (limit : Nat) (m : GoMap)
    (h : ∀ e ∈ m, ∀ p, splitFlatKey e.1 = Except.ok p →
      ∀ j, KeyPart.int j ∈ p → 0 ≤ j ∧ j < (limit : Int)) :
    UnflattenWithin limit m = withinLimit (Unflatten m) := by
  unfold UnflattenWithin Unflatten
  split
  · rfl
  · exact unflattenLoopWithin_eq limit m Value.null h

theorem expandSliceToSizeWithin_cases (limit : Nat) (slice : List Value) (size : Int) :
    expandSliceToSizeWithin limit slice size = none
      ∨ expandSliceToSizeWithin limit slice size = some (expandSliceToSize slice size) := by
  cases h : expandSliceToSizeWithin limit slice size with
  | none => exact Or.inl rfl
  | some s => rw [expandSliceToSizeWithin_some limit slice s size h]; exact Or.inr rfl

/-- Whatever the limit, a run ends as the run without a limit does, unless an
allocation fails. -/
theorem unflattenWithin_cases (limit : Nat) : ∀ (p : List KeyPart) (x t : Value),
    unflattenWithin limit p x t = Except.error Fault.outOfMemory
      ∨ unflattenWithin limit p x t = withinLimit (unflatten p x t)
  | [], _, _ => Or.inr rfl
  | KeyPart.int key :: ps, x, t => by
    rw [unflattenWithin, unflatten]
    cases asSlice t with
    | error p => exact Or.inr rfl
    | ok slice =>
      rcases expandSliceToSizeWithin_cases limit slice (wrapInt (key + 1)) with he | he
      · left
        simp only [he]
      · simp only [he]
        split
        · cases ps with
          | nil => exact Or.inr rfl
          | cons a ps' =>
            simp only
            rcases unflattenWithin_cases limit (a :: ps') x
              ((expandSliceToSize slice (wrapInt (key + 1))).getD key.toNat Value.null)
              with h | h
            · left
              rw [h]
            · right
              rw [h]
              cases unflatten (a :: ps') x _ <;> rfl
        · exact Or.inr rfl
  | KeyPart.str key :: ps, x, t => by
    rw [unflattenWithin, unflatten]
    cases asMap t with
    | error p => exact Or.inr rfl
    | ok m =>
      cases ps with
      | nil => exact Or.inr rfl
      | cons a ps' =>
        simp only
        rcases unflattenWithin_cases limit (a :: ps') x (mapIndex m key) with h | h
        · left
          rw [h]
        · right
          rw [h]
          cases unflatten (a :: ps') x _ <;> rfl

theorem unflattenLoopWithin_cases (limit : Nat) : ∀ (m : GoMap) (t : Value),
    unflattenLoopWithin limit m t = Except.error Fault.outOfMemory
      ∨ unflattenLoopWithin limit m t = withinLimit (unflattenLoop m t)
  | [], _ => Or.inr rfl
  | (key, value) :: rest, t => by
    rw [unflattenLoopWithin, unflattenLoop]
    cases hk : splitFlatKey key with
    | error err => exact Or.inr rfl
    | ok p =>
      simp only
      rcases unflattenWithin_cases limit p value t with h | h
      · left
        rw [h]
      · rw [h]
        cases unflatten p value t with
        | error f => exact Or.inr rfl
        | ok t' => exact unflattenLoopWithin_cases limit rest t'

theorem UnflattenWithin_cases (limit : Nat) (m : GoMap) :
    UnflattenWithin limit m = Except.error Fault.outOfMemory
      ∨ UnflattenWithin limit m = withinLimit (Unflatten m) := by
  unfold UnflattenWithin Unflatten
  split
  · exact Or.inr rfl
  · exact unflattenLoopWithin_cases limit m Value.null

theorem UnflattenWithin_single (limit : Nat) (key : GoString) (x : Value) (p : List KeyPart)
    (hp : splitFlatKey key = Except.ok p) :
    UnflattenWithin limit [(key, x)]
      = match unflattenWithin limit p x Value.null with
        | Except.error f => Except.error f
        | Except.ok r => Except.ok (r, none) := by
  simp only [UnflattenWithin, List.length_singleton, one_ne_zero, if_false,
    unflattenLoopWithin, hp]

/-- An index whose successor, as an `int`, is not positive (a negative index,
or the largest `int`) is out of range in the slice made for nil or in the
empty slice, whatever the limit. -/
theorem unflattenWithin_int_null (limit : Nat) (key : Int) (ps : List KeyPart) (x t : Value)
    (ht : asSlice t = Except.ok []) (h : wrapInt (key + 1) ≤ 0) :
    unflattenWithin limit (KeyPart.int key :: ps) x t
      = Except.error (Fault.panic Panic.indexOutOfRange) := by
  have he : expandSliceToSizeWithin limit [] (wrapInt (key + 1)) = some [] := by
    unfold expandSliceToSizeWithin
    rw [if_pos (by simpa using h)]
  have hneg : ¬ (0 ≤ key ∧ key < ((([] : List Value).length : Nat) : Int)) := by
    simp only [List.length_nil, Nat.cast_zero]
    omega
  rw [unflattenWithin]
  simp only [ht, he]
  rw [if_neg hneg]

/-! ## Claims about runs under the allocation limit -/

/-- C15 (amended): for every map whose keys decode to non-empty paths with
every index at least 0 and below the largest `int`, no path a prefix of
another (so the paths are pairwise distinct) and no object/array conflict,
on a runtime that can grow a slice to `limit` elements `Unflatten` either
succeeds, and then for every entry following the path decoded from its key in
the result reaches exactly the entry's value, whatever that value is, or it
ends in a failed allocation; and it does succeed, with the same lookups, when
every index is below `limit`. -/
theorem lookup_after_unflatten (limit : Nat) (m : GoMap)
    (hdec : ∀ e ∈ m, ∃ p, splitFlatKey e.1 = Except.ok p ∧ p ≠ []
      ∧ ∀ i, KeyPart.int i ∈ p → 0 ≤ i ∧ i < maxInt)
    (hpair : m.Pairwise (fun a b => ∀ p q, splitFlatKey a.1 = Except.ok p →
      splitFlatKey b.1 = Except.ok q → CompatiblePaths p q)) :
    ((∃ r, UnflattenWithin limit m = Except.ok (r, none)
          ∧ ∀ e ∈ m, ∀ p, splitFlatKey e.1 = Except.ok p → valueAt r p = some e.2)
        ∨ UnflattenWithin limit m = Except.error Fault.outOfMemory)
      ∧ ((∀ e ∈ m, ∀ p, splitFlatKey e.1 = Except.ok p →
            ∀ i, KeyPart.int i ∈ p → i < (limit : Int)) →
          ∃ r, UnflattenWithin limit m = Except.ok (r, none)
            ∧ ∀ e ∈ m, ∀ p, splitFlatKey e.1 = Except.ok p → valueAt r p = some e.2) := by
  obtain ⟨r, hr, hlook⟩ := Unflatten_lookup m hdec hpair
  constructor
  · rcases UnflattenWithin_cases limit m with h | h
    · exact Or.inr h
    · left
      refine ⟨r, ?_, hlook⟩
      rw [h, hr]
      rfl
  · intro hlim
    have hin : ∀ e ∈ m, ∀ p, splitFlatKey e.1 = Except.ok p →
        ∀ j, KeyPart.int j ∈ p → 0 ≤ j ∧ j < (limit : Int) := by
      intro e he p hp j hj
      obtain ⟨p', hp', _, hidx⟩ := hdec e he
      obtain rfl := Except.ok.inj (hp'.symm.trans hp)
      exact ⟨(hidx j hj).1, hlim e he p' hp j hj⟩
    refine ⟨r, ?_, hlook⟩
    rw [UnflattenWithin_eq limit m hin, hr]
    rfl

/-- Witness of C15: the map of the test `complex value`, and a map with a
second key whose value is a non-empty array, with room for 16 elements. -/
theorem lookup_after_unflatten_witness :
    UnflattenWithin 16 [("a".toList, Value.object [("b".toList, Value.number 1)])]
        = Except.ok (Value.object
            [("a".toList, Value.object [("b".toList, Value.number 1)])], none)
      ∧ ∃ r, UnflattenWithin 16 [("a".toList, Value.object [("b".toList, Value.number 1)]),
              ("c[1].d".toList, Value.array [Value.bool true])]
            = Except.ok (r, none)
          ∧ ∀ e ∈ [("a".toList, Value.object [("b".toList, Value.number 1)]),
              ("c[1].d".toList, Value.array [Value.bool true])],
            ∀ p, splitFlatKey e.1 = Except.ok p → valueAt r p = some e.2 :=
  have ha : splitFlatKey "a".toList = Except.ok [KeyPart.str "a".toList] := by decide
  have hc : splitFlatKey "c[1].d".toList
      = Except.ok [KeyPart.str "c".toList, KeyPart.int 1, KeyPart.str "d".toList] := by decide
  ⟨by decide,
   (lookup_after_unflatten 16
     [("a".toList, Value.object [("b".toList, Value.number 1)]),
      ("c[1].d".toList, Value.array [Value.bool true])]
     (by
       intro e he
       simp only [List.mem_cons, List.mem_singleton, List.not_mem_nil, or_false] at he
       rcases he with rfl | rfl
       · exact ⟨_, ha, by simp, by simp⟩
       · refine ⟨_, hc, by simp, ?_⟩
         intro i hi
         simp only [List.mem_cons, List.mem_singleton, List.not_mem_nil, or_false,
           KeyPart.int.injEq, reduceCtorEq, false_or] at hi
         subst hi
         exact ⟨by decide, by decide⟩)
     (by
       refine List.pairwise_cons.2 ⟨?_, List.pairwise_singleton _ _⟩
       intro b hb p q hp hq
       simp only [List.mem_singleton] at hb
       subst hb
       obtain rfl := Except.ok.inj (ha.symm.trans hp)
       obtain rfl := Except.ok.inj (hc.symm.trans hq)
       exact ⟨by decide, by decide,
         fun h => absurd ((objectArrayConflict_iff _ _).1 h) (by decide)⟩)).2
     (by
       intro e he p hp i hi
       simp only [List.mem_cons, List.mem_singleton, List.not_mem_nil, or_false] at he
       rcases he with rfl | rfl
       · obtain rfl := Except.ok.inj (ha.symm.trans hp)
         simp at hi
       · obtain rfl := Except.ok.inj (hc.symm.trans hp)
         simp only [List.mem_cons, List.mem_singleton, List.not_mem_nil, or_false,
           KeyPart.int.injEq, reduceCtorEq, false_or] at hi
         subst hi
         decide)⟩

/-- C15 as stated fails: the single key `[9223372036854775807]` decodes to a
non-empty path, yet `Unflatten` panics on it whatever the runtime can
allocate, because the slice would need one element more than an `int` can
count; an index the runtime has no room for (here 2^62, with room for 2^62
elements) ends the run in the allocation; and the key `a[-1]`, whose index the
decoder accepts, panics as well. -/
theorem lookup_after_unflatten_counterexample :
    splitFlatKey "[9223372036854775807]".toList = Except.ok [KeyPart.int maxInt]
      ∧ (∀ limit : Nat, UnflattenWithin limit [("[9223372036854775807]".toList, Value.number 1)]
          = Except.error (Fault.panic Panic.indexOutOfRange))
      ∧ splitFlatKey "[4611686018427387904]".toList
          = Except.ok [KeyPart.int 4611686018427387904]
      ∧ UnflattenWithin 4611686018427387904
            [("[4611686018427387904]".toList, Value.number 1)]
          = Except.error Fault.outOfMemory
      ∧ splitFlatKey "a[-1]".toList = Except.ok [KeyPart.str "a".toList, KeyPart.int (-1)]
      ∧ (∀ limit : Nat, UnflattenWithin limit [("a[-1]".toList, Value.number 1)]
          = Except.error (Fault.panic Panic.indexOutOfRange)) := by
  have h1 : splitFlatKey "[9223372036854775807]".toList = Except.ok [KeyPart.int maxInt] := by
    decide
  have h2 : splitFlatKey "a[-1]".toList
      = Except.ok [KeyPart.str "a".toList, KeyPart.int (-1)] := by decide
  refine ⟨h1, ?_, by decide, by decide, h2, ?_⟩
  · intro limit
    rw [UnflattenWithin_single limit _ _ _ h1,
      unflattenWithin_int_null limit maxInt [] (Value.number 1) Value.null rfl (by decide)]
  · intro limit
    rw [UnflattenWithin_single limit _ _ _ h2, unflattenWithin]
    simp only [asMap]
    rw [unflattenWithin_int_null limit (-1) [] (Value.number 1) (mapIndex [] "a".toList) rfl
      (by decide)]

/-- C17 (amended): for every map whose keys decode to non-empty paths with
every index at least 0 and below the largest `int`, no path a proper prefix
of another and no object/array conflict, in whatever order the entries are
processed, on a runtime that can grow a slice to `limit` elements `Unflatten`
never panics and returns no error: it returns a value or it ends in a failed
allocation; and it does return a value when every index is below `limit`. -/
theorem unflatten_succeeds (limit : Nat) (m m' : GoMap) (hperm : m.Perm m')
    (hdec : ∀ e ∈ m, ∃ p, splitFlatKey e.1 = Except.ok p ∧ p ≠ []
      ∧ ∀ i, KeyPart.int i ∈ p → 0 ≤ i ∧ i < maxInt)
    (hpair : m.Pairwise (fun a b => ∀ p q, splitFlatKey a.1 = Except.ok p →
      splitFlatKey b.1 = Except.ok q → p = q ∨ CompatiblePaths p q)) :
    ((∃ r, UnflattenWithin limit m' = Except.ok (r, none))
        ∨ UnflattenWithin limit m' = Except.error Fault.outOfMemory)
      ∧ (∀ pn, UnflattenWithin limit m' ≠ Except.error (Fault.panic pn))
      ∧ (∀ v err, UnflattenWithin limit m' ≠ Except.ok (v, some err))
      ∧ ((∀ e ∈ m, ∀ p, splitFlatKey e.1 = Except.ok p →
            ∀ i, KeyPart.int i ∈ p → i < (limit : Int)) →
          ∃ r, UnflattenWithin limit m' = Except.ok (r, none)) := by
  obtain ⟨⟨r, hr⟩, _, _⟩ := Unflatten_returns m m' hperm hdec hpair
  have hcases : UnflattenWithin limit m' = Except.error Fault.outOfMemory
      ∨ UnflattenWithin limit m' = Except.ok (r, none) := by
    rcases UnflattenWithin_cases limit m' with h | h
    · exact Or.inl h
    · right
      rw [h, hr]
      rfl
  refine ⟨?_, ?_, ?_, ?_⟩
  · rcases hcases with h | h
    · exact Or.inr h
    · exact Or.inl ⟨r, h⟩
  · intro pn hpn
    rcases hcases with h | h <;> rw [h] at hpn <;> cases hpn
  · intro v err hv
    rcases hcases with h | h <;> rw [h] at hv <;> cases hv
  · intro hlim
    have hin : ∀ e ∈ m', ∀ p, splitFlatKey e.1 = Except.ok p →
        ∀ j, KeyPart.int j ∈ p → 0 ≤ j ∧ j < (limit : Int) := by
      intro e he p hp j hj
      have hem := hperm.mem_iff.2 he
      obtain ⟨p', hp', _, hidx⟩ := hdec e hem
      obtain rfl := Except.ok.inj (hp'.symm.trans hp)
      exact ⟨(hidx j hj).1, hlim e hem p' hp j hj⟩
    refine ⟨r, ?_⟩
    rw [UnflattenWithin_eq limit m' hin, hr]
    rfl

/-- Witness of C17: the keys `a.b` and `a[b` decode to one path and `c[0]` to
another; the last of the two equal paths processed is the one kept. -/
theorem unflatten_succeeds_witness :
    (∃ r, UnflattenWithin 16 [("a[b".toList, Value.number 2), ("a.b".toList, Value.number 1),
          ("c[0]".toList, Value.null)] = Except.ok (r, none))
      ∧ UnflattenWithin 16 [("a[b".toList, Value.number 2), ("a.b".toList, Value.number 1),
          ("c[0]".toList, Value.null)]
        = Except.ok (Value.object [("a".toList, Value.object [("b".toList, Value.number 1)]),
            ("c".toList, Value.array [Value.null])], none) :=
  have h1 : splitFlatKey "a.b".toList
      = Except.ok [KeyPart.str "a".toList, KeyPart.str "b".toList] := by decide
  have h2 : splitFlatKey "a[b".toList
      = Except.ok [KeyPart.str "a".toList, KeyPart.str "b".toList] := by decide
  have h3 : splitFlatKey "c[0]".toList
      = Except.ok [KeyPart.str "c".toList, KeyPart.int 0] := by decide
  ⟨(unflatten_succeeds 16
     [("a.b".toList, Value.number 1), ("a[b".toList, Value.number 2),
      ("c[0]".toList, Value.null)]
     [("a[b".toList, Value.number 2), ("a.b".toList, Value.number 1),
      ("c[0]".toList, Value.null)]
     (List.Perm.swap _ _ _)
     (by
       intro e he
       simp only [List.mem_cons, List.mem_singleton, List.not_mem_nil, or_false] at he
       rcases he with rfl | rfl | rfl
       · exact ⟨_, h1, by simp, by simp⟩
       · exact ⟨_, h2, by simp, by simp⟩
       · refine ⟨_, h3, by simp, ?_⟩
         intro i hi
         simp only [List.mem_cons, List.mem_singleton, List.not_mem_nil, or_false,
           KeyPart.int.injEq, reduceCtorEq, false_or] at hi
         subst hi
         exact ⟨by decide, by decide⟩)
     (by
       refine List.pairwise_cons.2 ⟨?_, List.pairwise_cons.2 ⟨?_, List.pairwise_singleton _ _⟩⟩
       · intro b hb p q hp hq
         simp only [List.mem_cons, List.mem_singleton, List.not_mem_nil, or_false] at hb
         obtain rfl := Except.ok.inj (h1.symm.trans hp)
         rcases hb with rfl | rfl
         · obtain rfl := Except.ok.inj (h2.symm.trans hq)
           exact Or.inl rfl
         · obtain rfl := Except.ok.inj (h3.symm.trans hq)
           exact Or.inr ⟨by decide, by decide,
             fun h => absurd ((objectArrayConflict_iff _ _).1 h) (by decide)⟩
       · intro b hb p q hp hq
         simp only [List.mem_singleton] at hb
         subst hb
         obtain rfl := Except.ok.inj (h2.symm.trans hp)
         obtain rfl := Except.ok.inj (h3.symm.trans hq)
         exact Or.inr ⟨by decide, by decide,
           fun h => absurd ((objectArrayConflict_iff _ _).1 h) (by decide)⟩)).2.2.2
     (by
       intro e he p hp i hi
       simp only [List.mem_cons, List.mem_singleton, List.not_mem_nil, or_false] at he
       rcases he with rfl | rfl | rfl
       · obtain rfl := Except.ok.inj (h1.symm.trans hp)
         simp at hi
       · obtain rfl := Except.ok.inj (h2.symm.trans hp)
         simp at hi
       · obtain rfl := Except.ok.inj (h3.symm.trans hp)
         simp only [List.mem_cons, List.mem_singleton, List.not_mem_nil, or_false,
           KeyPart.int.injEq, reduceCtorEq, false_or] at hi
         subst hi
         decide),
   by decide⟩

/-- C17 as stated fails: each of these maps has keys that decode without an
invalid-key error and no object/array conflict, and `Unflatten` returns no
value on it: the key `""` decodes to the empty path and `keyParts[0]` is out
of range; the index -1 and the largest `int` as index make `resultSlice[key]`
out of range; an index the runtime has no room for (here 2^62, with room for
2^62 elements) ends the run in the allocation; and with the key `a` holding a
number, the key `a.b` fails the type assertion at `a`. -/
theorem unflatten_succeeds_counterexample :
    (splitFlatKey [] = Except.ok []
        ∧ ∀ limit : Nat, UnflattenWithin limit [([], Value.number 1)]
            = Except.error (Fault.panic Panic.indexOutOfRange))
      ∧ (splitFlatKey "a[-1]".toList = Except.ok [KeyPart.str "a".toList, KeyPart.int (-1)]
        ∧ ∀ limit : Nat, UnflattenWithin limit [("a[-1]".toList, Value.number 1)]
            = Except.error (Fault.panic Panic.indexOutOfRange))
      ∧ (splitFlatKey "[9223372036854775807]".toList = Except.ok [KeyPart.int maxInt]
        ∧ ∀ limit : Nat,
            UnflattenWithin limit [("[9223372036854775807]".toList, Value.number 1)]
              = Except.error (Fault.panic Panic.indexOutOfRange))
      ∧ (splitFlatKey "[4611686018427387904]".toList
            = Except.ok [KeyPart.int 4611686018427387904]
        ∧ UnflattenWithin 4611686018427387904
              [("[4611686018427387904]".toList, Value.number 1)]
            = Except.error Fault.outOfMemory)
      ∧ (splitFlatKey "a".toList = Except.ok [KeyPart.str "a".toList]
        ∧ splitFlatKey "a.b".toList
          = Except.ok [KeyPart.str "a".toList, KeyPart.str "b".toList]
        ∧ conflictB [KeyPart.str "a".toList] [KeyPart.str "a".toList, KeyPart.str "b".toList]
          = false
        ∧ ∀ limit : Nat,
            UnflattenWithin limit [("a".toList, Value.number 1), ("a.b".toList, Value.number 2)]
              = Except.error (Fault.panic Panic.typeAssertion)) := by
  have h0 : splitFlatKey [] = Except.ok [] := by decide
  have h1 : splitFlatKey "a[-1]".toList
      = Except.ok [KeyPart.str "a".toList, KeyPart.int (-1)] := by decide
  have h2 : splitFlatKey "[9223372036854775807]".toList = Except.ok [KeyPart.int maxInt] := by
    decide
  have ha : splitFlatKey "a".toList = Except.ok [KeyPart.str "a".toList] := by decide
  have hab : splitFlatKey "a.b".toList
      = Except.ok [KeyPart.str "a".toList, KeyPart.str "b".toList] := by decide
  refine ⟨⟨h0, ?_⟩, ⟨h1, ?_⟩, ⟨h2, ?_⟩, ⟨by decide, by decide⟩, ha, hab, by decide, ?_⟩
  · intro limit
    rw [UnflattenWithin_single limit _ _ _ h0]
    rfl
  · intro limit
    rw [UnflattenWithin_single limit _ _ _ h1, unflattenWithin]
    simp only [asMap]
    rw [unflattenWithin_int_null limit (-1) [] (Value.number 1) (mapIndex [] "a".toList) rfl
      (by decide)]
  · intro limit
    rw [UnflattenWithin_single limit _ _ _ h2,
      unflattenWithin_int_null limit maxInt [] (Value.number 1) Value.null rfl (by decide)]
  · intro limit
    rw [UnflattenWithin_eq limit _ (by
      intro e he p hp j hj
      simp only [List.mem_cons, List.mem_singleton, List.not_mem_nil, or_false] at he
      rcases he with rfl | rfl
      · obtain rfl := Except.ok.inj (ha.symm.trans hp)
        simp at hj
      · obtain rfl := Except.ok.inj (hab.symm.trans hp)
        simp at hj)]
    decide

/-! ## One merge under the allocation limit -/

theorem mergeChild_fresh (rest : List KeyPart) (x cur : Value)
    (hfresh : rest = [] ∨ cur = Value.null)
    (hrest : ∀ j, KeyPart.int j ∈ rest → 0 ≤ j ∧ j < maxInt) :
    ∃ ch, mergeChild rest x cur = some ch := by
  cases rest with
  | nil => exact ⟨x, rfl⟩
  | cons a r =>
    rcases hfresh with h | h
    · cases h
    · rw [h]
      exact merge_null (a :: r) x (by simp) hrest

theorem unflattenWithin_of_merge (limit : Nat) (p : List KeyPart) (x t t' : Value)
    (hm : merge p x t = some t') :
    (unflattenWithin limit p x t = Except.ok t'
        ∨ unflattenWithin limit p x t = Except.error Fault.outOfMemory)
      ∧ ((∀ j, KeyPart.int j ∈ p → 0 ≤ j ∧ j < (limit : Int)) →
          unflattenWithin limit p x t = Except.ok t') := by
  have hu := unflatten_of_merge p x t t' hm
  constructor
  · rcases unflattenWithin_cases limit p x t with h | h
    · exact Or.inr h
    · left
      rw [h, hu]
      rfl
  · intro hin
    rw [unflattenWithin_eq limit p x t hin, hu]
    rfl

/-- C16 (amended): for a path whose indices are at least 0 and below the
largest `int`, and which either ends at its head or finds nothing (or nil)
stored under its head, so that the merge writes into no container other than
the one it is given, on a runtime that can grow a slice to `limit` elements:
merging a path whose head is the field `name` into an existing object yields,
unless an allocation fails, an object in which only that field is changed,
every other field being as it was; and merging a path whose head is the index
`i` into an existing array of length `n` yields, unless an allocation fails,
an array of length `max n (i+1)` in which every position `j < n` other than
`i` is unchanged and every position `j ≥ n` other than `i` is nil. In both the
merged value is found at the path, and no allocation fails when every index
of the path is below `limit`. -/
theorem tree_builder_frame (limit : Nat) (name : GoString) (i : Int) (rest : List KeyPart)
    (x : Value) (fields : GoMap) (elems : List Value)
    (hi : 0 ≤ i ∧ i < maxInt)
    (hrest : ∀ j, KeyPart.int j ∈ rest → 0 ≤ j ∧ j < maxInt) :
    ((rest = [] ∨ mapIndex fields name = Value.null) →
        ∃ fields', valueAt (Value.object fields') (KeyPart.str name :: rest) = some x
          ∧ (∀ k, k ≠ name → mapLookup k fields' = mapLookup k fields)
          ∧ (unflattenWithin limit (KeyPart.str name :: rest) x (Value.object fields)
                = Except.ok (Value.object fields')
              ∨ unflattenWithin limit (KeyPart.str name :: rest) x (Value.object fields)
                = Except.error Fault.outOfMemory)
          ∧ ((∀ j, KeyPart.int j ∈ rest → j < (limit : Int)) →
              unflattenWithin limit (KeyPart.str name :: rest) x (Value.object fields)
                = Except.ok (Value.object fields')))
      ∧ ((rest = [] ∨ elems.getD i.toNat Value.null = Value.null) →
        ∃ elems', valueAt (Value.array elems') (KeyPart.int i :: rest) = some x
          ∧ (elems'.length : Int) = max (elems.length : Int) (i + 1)
          ∧ (∀ j : Nat, j < elems.length → (j : Int) ≠ i → elems'[j]? = elems[j]?)
          ∧ (∀ j : Nat, elems.length ≤ j → j < elems'.length → (j : Int) ≠ i →
              elems'[j]? = some Value.null)
          ∧ (unflattenWithin limit (KeyPart.int i :: rest) x (Value.array elems)
                = Except.ok (Value.array elems')
              ∨ unflattenWithin limit (KeyPart.int i :: rest) x (Value.array elems)
                = Except.error Fault.outOfMemory)
          ∧ ((i < (limit : Int) ∧ ∀ j, KeyPart.int j ∈ rest → j < (limit : Int)) →
              unflattenWithin limit (KeyPart.int i :: rest) x (Value.array elems)
                = Except.ok (Value.array elems'))) := by
  constructor
  · intro hfresh
    obtain ⟨ch, hc⟩ := mergeChild_fresh rest x _ hfresh hrest
    have hm : merge (KeyPart.str name :: rest) x (Value.object fields)
        = some (Value.object (mapAssign fields name ch)) := by
      simp only [merge_str, optMap, Option.some_bind, hc, Option.map_some']
    obtain ⟨h1, h2⟩ := unflattenWithin_of_merge limit _ x _ _ hm
    refine ⟨_, valueAt_merge_self _ _ _ _ hm,
      fun k hk => mapLookup_mapAssign_ne k name ch fields hk, h1, ?_⟩
    intro hlim
    apply h2
    intro j hj
    rcases List.mem_cons.1 hj with h | h
    · cases h
    · exact ⟨(hrest j h).1, hlim j h⟩
  · intro hfresh
    obtain ⟨ch, hc⟩ := mergeChild_fresh rest x _ hfresh hrest
    have hb : 0 ≤ i ∧ i < (expandSliceToSize elems (wrapInt (i + 1))).length := by
      rw [length_expandSliceToSize, wrapInt_succ i hi.1 hi.2]
      exact ⟨hi.1, by omega⟩
    have hm : merge (KeyPart.int i :: rest) x (Value.array elems)
        = some (Value.array ((expandSliceToSize elems (wrapInt (i + 1))).set i.toNat ch)) := by
      rw [merge_int]
      simp only [optSlice, Option.some_bind]
      rw [if_pos hb, getD_expandSliceToSize, hc]
      rfl
    obtain ⟨elems', he, hlen, hf1, hf2⟩ := merge_int_array_frame i rest x _ elems hi.1 hm
    injection he with he
    subst he
    obtain ⟨h1, h2⟩ := unflattenWithin_of_merge limit _ x _ _ hm
    refine ⟨_, valueAt_merge_self _ _ _ _ hm, hlen, hf1, hf2, h1, ?_⟩
    intro hlim
    apply h2
    intro j hj
    rcases List.mem_cons.1 hj with h | h
    · cases h
      exact ⟨hi.1, hlim.1⟩
    · exact ⟨(hrest j h).1, hlim.2 j h⟩

/-- Witness of C16: the path `b[1].c` merged into `{"a": 1}` and the path
`[3][1].c` merged into `[true]`, with room for 8 elements; the rest of the
path, `[1].c`, builds a new array and a new object. -/
theorem tree_builder_frame_witness :
    (∃ fields', valueAt (Value.object fields')
            [KeyPart.str "b".toList, KeyPart.int 1, KeyPart.str "c".toList]
          = some (Value.number 2)
        ∧ (∀ k, k ≠ "b".toList →
            mapLookup k fields' = mapLookup k [("a".toList, Value.number 1)])
        ∧ unflattenWithin 8
          [KeyPart.str "b".toList, KeyPart.int 1, KeyPart.str "c".toList] (Value.number 2)
          (Value.object [("a".toList, Value.number 1)]) = Except.ok (Value.object fields'))
      ∧ (∃ elems', valueAt (Value.array elems')
              [KeyPart.int 3, KeyPart.int 1, KeyPart.str "c".toList]
            = some (Value.number 2)
          ∧ (elems'.length : Int) = max (([Value.bool true] : List Value).length : Int) (3 + 1)
          ∧ (∀ j : Nat, j < ([Value.bool true] : List Value).length → (j : Int) ≠ 3 →
              elems'[j]? = ([Value.bool true] : List Value)[j]?)
          ∧ (∀ j : Nat, ([Value.bool true] : List Value).length ≤ j → j < elems'.length →
              (j : Int) ≠ 3 → elems'[j]? = some Value.null)
          ∧ unflattenWithin 8
            [KeyPart.int 3, KeyPart.int 1, KeyPart.str "c".toList] (Value.number 2)
            (Value.array [Value.bool true]) = Except.ok (Value.array elems'))
      ∧ unflattenWithin 8 [KeyPart.str "b".toList, KeyPart.int 1, KeyPart.str "c".toList]
          (Value.number 2) (Value.object [("a".toList, Value.number 1)])
        = Except.ok (Value.object [("a".toList, Value.number 1),
            ("b".toList, Value.array [Value.null,
              Value.object [("c".toList, Value.number 2)]])])
      ∧ unflattenWithin 8 [KeyPart.int 3, KeyPart.int 1, KeyPart.str "c".toList]
          (Value.number 2) (Value.array [Value.bool true])
        = Except.ok (Value.array [Value.bool true, Value.null, Value.null,
            Value.array [Value.null, Value.object [("c".toList, Value.number 2)]]]) :=
  have hrest : ∀ j, KeyPart.int j ∈ [KeyPart.int 1, KeyPart.str "c".toList] →
      0 ≤ j ∧ j < maxInt := by
    intro j hj
    simp only [List.mem_cons, List.mem_singleton, List.not_mem_nil, or_false,
      KeyPart.int.injEq, reduceCtorEq] at hj
    subst hj
    exact ⟨by decide, by decide⟩
  have hlim : ∀ j, KeyPart.int j ∈ [KeyPart.int 1, KeyPart.str "c".toList] →
      j < ((8 : Nat) : Int) := by
    intro j hj
    simp only [List.mem_cons, List.mem_singleton, List.not_mem_nil, or_false,
      KeyPart.int.injEq, reduceCtorEq] at hj
    subst hj
    decide
  have hf := (tree_builder_frame 8 "b".toList 3 [KeyPart.int 1, KeyPart.str "c".toList]
      (Value.number 2) [("a".toList, Value.number 1)] [Value.bool true]
      ⟨by decide, by decide⟩ hrest).1 (Or.inr rfl)
  have he := (tree_builder_frame 8 "b".toList 3 [KeyPart.int 1, KeyPart.str "c".toList]
      (Value.number 2) [("a".toList, Value.number 1)] [Value.bool true]
      ⟨by decide, by decide⟩ hrest).2 (Or.inr rfl)
  ⟨hf.elim fun fields' h => ⟨fields', h.1, h.2.1, h.2.2.2 hlim⟩,
   he.elim fun elems' h =>
     ⟨elems', h.1, h.2.1, h.2.2.1, h.2.2.2.1, h.2.2.2.2.2 ⟨by decide, hlim⟩⟩,
   by decide, by decide⟩

/-- C16 as stated fails: merging the index that is the largest `int` into the
empty array yields no array, whatever the runtime can allocate, since `key+1`
wraps around and the access is out of range; an index the runtime has no room
for (here 2^62, with room for 2^62 elements) ends the merge in the allocation;
and a merge whose rest of the path does not fit the value already stored
under the head (the number 5 here) yields nothing either. -/
theorem tree_builder_frame_counterexample :
    (∀ limit : Nat, unflattenWithin limit [KeyPart.int maxInt] (Value.number 1) (Value.array [])
        = Except.error (Fault.panic Panic.indexOutOfRange))
      ∧ unflattenWithin 4611686018427387904 [KeyPart.int 4611686018427387904]
          (Value.number 1) (Value.array []) = Except.error Fault.outOfMemory
      ∧ unflattenWithin 8 [KeyPart.int 0, KeyPart.str "a".toList] (Value.number 1)
          (Value.array [Value.number 5]) = Except.error (Fault.panic Panic.typeAssertion)
      ∧ unflattenWithin 8 [KeyPart.str "a".toList, KeyPart.str "b".toList] (Value.number 1)
          (Value.object [("a".toList, Value.number 5)])
        = Except.error (Fault.panic Panic.typeAssertion) :=
  ⟨fun limit => unflattenWithin_int_null limit maxInt [] (Value.number 1) (Value.array []) rfl
      (by decide),
    by decide, by decide, by decide⟩

end Flat
